import Mathlib

/-!
# Facultate / tema2 : a verification development

Two programs are embedded.

* `Main.cpp` (namespace `Main`): the class `SmartArray`, an owning pointer to a
  heap block of `int`, with constructor, copy constructor, destructor, the
  copy-and-swap `operator=` and `print`.  The free store is modelled explicitly
  (`Heap`); every access to a block that is not live is undefined behaviour and
  is modelled by `none`.
* `Main2.cpp` (namespace `Main2`): `HeavyResource`, `std::shared_ptr` handles on
  it, the scoped lock on `global_mutex`, and the threads of `thread_demo`.

Standard output is modelled as the list of the pieces written to `std::cout`,
one piece per `operator<<` call, in the order in which the calls happen.

The standard library is modelled after the C++ standard.  A `std::shared_ptr`
is a handle on a control block with a `use_count`: copying a handle adds one,
destroying a handle takes one away, and the handle that takes the count to 0
destroys the resource.  A `std::mutex` has at most one owner, and `lock` waits
while it has one.  A `std::lock_guard` locks in its constructor and unlocks in
its destructor, which runs on every exit from its scope.  The constructor of
`std::thread` copies the arguments in the starting thread, and `join` waits for
the end of the thread.  Threads are interleaved at the granularity of these
operations and of the single `operator<<` calls.
-/

set_option maxRecDepth 100000

namespace Main

/-- Standard output: one entry per `operator<<` call on `std::cout`. -/
abbrev Output := List String

/-- The free store.  The block at address `p` is `blocks[p]`; it is `none` once
it has been given back with `delete[]`.  Addresses are never reused, so a fresh
block is distinct from every block handed out before. -/
structure Heap where
  blocks : List (Option (List Int))
deriving DecidableEq, Repr

/-- The live block at address `p`, if any. -/
def Heap.block (h : Heap) (p : Nat) : Option (List Int) :=
  h.blocks[p]?.join

/-- The expression `new int[n]`: a fresh block of `n` cells (indeterminate values, modelled as 0). -/
def Heap.alloc (h : Heap) (n : Nat) : Nat × Heap :=
  (h.blocks.length, ⟨h.blocks ++ [some (List.replicate n 0)]⟩)

/-- The statement `delete[] p`: undefined (`none`) unless `p` is a live block. -/
def Heap.free (h : Heap) (p : Nat) : Option Heap :=
  match h.block p with
  | none => none
  | some _ => some ⟨h.blocks.set p none⟩

/-- The expression `p[i]` as an rvalue: undefined unless `p` is live and `i` is in bounds. -/
def Heap.read (h : Heap) (p i : Nat) : Option Int :=
  match h.block p with
  | none => none
  | some b => b.get? i

/-- The assignment `p[i] = v`: undefined unless `p` is live and `i` is in bounds. -/
def Heap.write (h : Heap) (p i : Nat) (v : Int) : Option Heap :=
  match h.block p with
  | none => none
  | some b => if i < b.length then some ⟨h.blocks.set p (some (b.set i v))⟩ else none

/-- The call `std::copy(src, src + n, dst)` on two distinct blocks. -/
def Heap.copy (h : Heap) (src n dst : Nat) : Option Heap :=
  match h.block src, h.block dst with
  | some s, some d =>
      if n ≤ s.length ∧ n ≤ d.length ∧ src ≠ dst then
        some ⟨h.blocks.set dst (some (s.take n ++ d.drop n))⟩
      else none
  | _, _ => none

/-- The machine state of `Main.cpp`: the free store and what was printed. -/
structure World where
  heap : Heap
  out : Output
deriving DecidableEq, Repr

/-- The class `SmartArray`: `int* data; size_t size;`. -/
structure SmartArray where
  data : Nat
  size : Nat
deriving DecidableEq, Repr

/-- The conversion `static_cast<int>(n)` for a `size_t` value `n`: reduction to 32 bits, two's complement. -/
def to_int (n : Nat) : Int :=
  ((n + 2 ^ 31) % 2 ^ 32 : Nat) - (2 ^ 31 : Int)

/-- The loop `for (size_t i = 0; i < size; ++i) data[i] = static_cast<int>(i + 1);`,
started at index `i` with `k` iterations left. -/
def fill_loop (data : Nat) : Nat → Nat → Heap → Option Heap
  | _, 0, h => some h
  | i, k + 1, h =>
      match h.write data i (to_int ((i + 1) % 2 ^ 64)) with
      | none => none
      | some h' => fill_loop data (i + 1) k h'

/-- The constructor `SmartArray::SmartArray(size_t s)`. -/
def SmartArray.ctor (s : Nat) (w : World) : Option (SmartArray × World) :=
  let out := w.out ++ ["Constructor: Aloc memorie pentru ", toString s, " elemente.\n"]
  let (p, h) := w.heap.alloc s
  match fill_loop p 0 s h with
  | none => none
  | some h' => some (⟨p, s⟩, ⟨h', out⟩)

/-- The destructor `SmartArray::~SmartArray()`. -/
def SmartArray.dtor (a : SmartArray) (w : World) : Option World :=
  let out := w.out ++ ["Destructor: Eliberez memorie.\n"]
  match w.heap.free a.data with
  | none => none
  | some h => some ⟨h, out⟩

/-- The copy constructor `SmartArray::SmartArray(const SmartArray& other)`. -/
def SmartArray.copy_ctor (other : SmartArray) (w : World) : Option (SmartArray × World) :=
  let out := w.out ++ ["Constructor de Copiere: Copiez ", toString other.size, " elemente.\n"]
  let (p, h) := w.heap.alloc other.size
  match h.copy other.data other.size p with
  | none => none
  | some h' => some (⟨p, other.size⟩, ⟨h', out⟩)

/-- The operator `SmartArray& SmartArray::operator=(SmartArray other)`, as executed by the
statement `a = b;`: the parameter `other` is copy-constructed from `b`, the body
swaps `data` and `size` with it, and `other` (now holding the old block of `a`)
is destroyed when the statement ends.  The result is the new value of `a`. -/
def SmartArray.operator_assign (a b : SmartArray) (w : World) : Option (SmartArray × World) :=
  match SmartArray.copy_ctor b w with
  | none => none
  | some (other, w1) =>
      let w2 : World := ⟨w1.heap, w1.out ++ ["Operator de Atribuire (Copy-and-Swap):\n"]⟩
      -- swap(data, other.data); swap(size, other.size);
      let a' : SmartArray := ⟨other.data, other.size⟩
      let other' : SmartArray := ⟨a.data, a.size⟩
      match SmartArray.dtor other' w2 with
      | none => none
      | some w3 => some (a', w3)

/-- The loop of `print`: `std::cout << data[i] << (i == size - 1 ? "" : ", ");`,
started at index `i` with `k` iterations left. -/
def print_loop (a : SmartArray) (h : Heap) : Nat → Nat → Output → Option Output
  | _, 0, out => some out
  | i, k + 1, out =>
      match h.read a.data i with
      | none => none
      | some v =>
          print_loop a h (i + 1) k
            (out ++ [toString v, if i = (a.size + 2 ^ 64 - 1) % 2 ^ 64 then "" else ", "])

/-- The method `void SmartArray::print() const`. -/
def SmartArray.print (a : SmartArray) (w : World) : Option World :=
  let out := w.out ++ ["Tablou [size=", toString a.size, "]: "]
  match print_loop a w.heap 0 a.size out with
  | none => none
  | some out' => some ⟨w.heap, out' ++ ["\n"]⟩

/-- The elements of `a`, read through its pointer: `none` if the storage is not
a live block of at least `size` cells. -/
def SmartArray.elems (a : SmartArray) (h : Heap) : Option (List Int) :=
  match h.block a.data with
  | none => none
  | some b => if a.size ≤ b.length then some (b.take a.size) else none

/-- The state of `main` in `Main.cpp`: the three local arrays and the world. -/
structure Locals where
  a : SmartArray
  b : SmartArray
  c : SmartArray
  w : World
deriving DecidableEq, Repr

/-- The function `main` up to and including `a = b; a.print();` (source lines 78 to 90). -/
def main_to_assign : Option Locals := do
  let w0 : World := ⟨⟨[]⟩, ["--- CREARE OBIECTE ---\n"]⟩
  let (a, w) ← SmartArray.ctor 5 w0
  let (b, w) ← SmartArray.ctor 10 w
  let w ← a.print w
  let w ← b.print w
  let w : World := ⟨w.heap, w.out ++ ["\n--- TEST ITEM 10: Returnează referință ---\n"]⟩
  let (c, w) ← SmartArray.ctor 3 w
  let w ← c.print w
  let w : World := ⟨w.heap, w.out ++ ["a = b (Atribuire normală)\n"]⟩
  let (a, w) ← SmartArray.operator_assign a b w
  let w ← a.print w
  pure ⟨a, b, c, w⟩

/-- The function `main` from `a = a;` to the end of the function (source lines 92 to 104),
including the destruction of `c`, `b`, `a` in reverse order of declaration. -/
def main_from_self_assign (l : Locals) : Option Locals := do
  let w : World := ⟨l.w.heap, l.w.out ++
    ["\n--- TEST ITEM 11: Auto-atribuire (a = a) ---\n", "a = a\n"]⟩
  let (a, w) ← SmartArray.operator_assign l.a l.a w
  let w ← a.print w
  let w : World := ⟨w.heap, w.out ++
    ["\n--- TEST ITEM 12: Copierea tuturor părților ---\n", "a după a = a:\n"]⟩
  let w ← a.print w
  let w : World := ⟨w.heap, w.out ++ ["\n--- TERMINARE OBIECTE ---\n"]⟩
  let w ← l.c.dtor w
  let w ← l.b.dtor w
  let w ← a.dtor w
  pure ⟨a, l.b, l.c, w⟩

/-- The whole of `main` in `Main.cpp`. -/
def main : Option Locals :=
  main_to_assign >>= main_from_self_assign

/-- What `a.print()` writes for an array of size 10 holding 1..10. -/
def printed_1_to_10 : Output :=
  ["Tablou [size=", "10", "]: ", "1", ", ", "2", ", ", "3", ", ", "4", ", ", "5", ", ",
   "6", ", ", "7", ", ", "8", ", ", "9", ", ", "10", "", "\n"]

end Main

namespace Main2

/-- Standard output: one entry per `operator<<` call on `std::cout`. -/
abbrev Output := List String

/-! ## `HeavyResource` -/

/-- The class `HeavyResource`: its only member is `std::string name`.  It can be
neither copied nor assigned (both operations are deleted), so a value of this
type is only ever reached through a handle. -/
structure HeavyResource where
  name : String
deriving DecidableEq, Repr

/-- The pieces written by the constructor `HeavyResource(const std::string& n)`. -/
def HeavyResource.ctor_pieces (n : String) : List String :=
  ["[Resource] Constructor: ", n, " opened.\n"]

/-- The pieces written by `~HeavyResource()`: the release action. -/
def HeavyResource.dtor_pieces (r : HeavyResource) : List String :=
  ["[Resource] Destructor: ", r.name, " closed and released.\n"]

/-- The pieces written by `performOperation() const`. -/
def HeavyResource.performOperation_pieces (r : HeavyResource) : List String :=
  ["[Resource] Operating on ", r.name, "...\n"]

/-- The method `void HeavyResource::performOperation() const`, called from one thread. -/
def HeavyResource.performOperation (r : HeavyResource) (out : Output) : Output :=
  out ++ r.performOperation_pieces

/-! ## `std::shared_ptr<HeavyResource>`, used from one thread -/

/-- One `HeavyResource` owned through `std::shared_ptr` handles: the resource,
the `use_count` of its control block, and standard output.  The resource is
alive exactly while `use_count` is positive. -/
structure Shared where
  res : HeavyResource
  use_count : Nat
  out : Output
deriving DecidableEq, Repr

/-- The declaration `std::shared_ptr<HeavyResource> p(new HeavyResource(n));`:
the constructor of the resource runs and the creating handle is the only one. -/
def Shared.make (n : String) (out : Output) : Shared :=
  ⟨⟨n⟩, 1, out ++ HeavyResource.ctor_pieces n⟩

/-- Copy construction of a handle from an existing one.  Without a handle
(`use_count = 0`) there is nothing to copy from. -/
def Shared.acquire (s : Shared) : Option Shared :=
  if s.use_count = 0 then none else some { s with use_count := s.use_count + 1 }

/-- Destruction of one handle.  The handle that takes `use_count` from 1 to 0
runs `~HeavyResource()`. -/
def Shared.drop (s : Shared) : Option Shared :=
  if s.use_count = 0 then none
  else if s.use_count = 1 then
    some { s with use_count := 0, out := s.out ++ s.res.dtor_pieces }
  else some { s with use_count := s.use_count - 1 }

/-- An operation on the handles of one resource. -/
inductive HandleOp where
  | acquire
  | drop
deriving DecidableEq, Repr

/-- The effect of one handle operation. -/
def HandleOp.apply : HandleOp → Shared → Option Shared
  | .acquire, s => s.acquire
  | .drop, s => s.drop

/-- A sequence of handle operations, from left to right. -/
def run_handles : List HandleOp → Shared → Option Shared
  | [], s => some s
  | op :: ops, s =>
      match op.apply s with
      | none => none
      | some s' => run_handles ops s'

/-- The function `void shared_ptr_management(std::shared_ptr<HeavyResource> ptr)`, together
with the copy of the caller's handle into the by-value parameter `ptr` and the
destruction of `ptr` on return. -/
def shared_ptr_management (s : Shared) : Option Shared :=
  match s.acquire with
  | none => none
  | some s1 =>
      let s2 : Shared := { s1 with out := s1.res.performOperation s1.out }
      let s3 : Shared := { s2 with out := s2.out ++
        ["  (SharedPtr demo) Temporary reference count: ", toString s2.use_count, "\n"] }
      s3.drop

/-- The function `void unique_ptr_demo()`: the resource is owned by a `std::unique_ptr`;
`performOperation` does not throw, so the handler is not entered, and the
resource is released when `unique_resource` goes out of scope. -/
def unique_ptr_demo (out : Output) : Output :=
  let out := out ++ ["\n--- UNIQUE_PTR DEMO ---\n"]
  let r : HeavyResource := ⟨"Config_Unique"⟩
  let out := out ++ HeavyResource.ctor_pieces "Config_Unique"
  let out := r.performOperation out
  let out := out ++ ["Unique Resource goes out of scope.\n"]
  out ++ r.dtor_pieces

/-! ## The scoped lock, used from one thread -/

/-- The state seen by a sequential caller of `access_resource_with_mutex`:
whether `global_mutex` is locked, and the shared resource. -/
structure Gated where
  locked : Bool
  sh : Shared
deriving DecidableEq, Repr

/-- How a call ended: by a normal return or by an exception leaving it. -/
inductive Exit where
  | returned
  | threw (what : String)
deriving DecidableEq, Repr

/-- The pieces of the line `[name] [LOCKED] Accessed resource safely.` -/
def locked_pieces (thread_name : String) : List String :=
  ["[", thread_name, "] [LOCKED] Accessed resource safely.\n"]

/-- The pieces of the line `[name] [UNLOCKED] Finished access.` -/
def unlocked_pieces (thread_name : String) : List String :=
  ["[", thread_name, "] [UNLOCKED] Finished access.\n"]

/-- The call `global_mutex.lock()` from a sequential caller: a caller that finds the
mutex locked waits for ever (`none`). -/
def Gated.lock (g : Gated) : Option Gated :=
  if g.locked then none else some { g with locked := true }

/-- The call `global_mutex.unlock()`. -/
def Gated.unlock (g : Gated) : Gated :=
  { g with locked := false }

/-- The body of `access_resource_with_mutex` with the call `ptr->performOperation()`
replaced by an arbitrary operation `op`, which returns the new output and, when
it raises an error, the error.  The constructor of the `std::lock_guard` locks
`global_mutex`; its destructor unlocks it when the scope is left, by the normal
return as well as by the unwinding of an exception; the by-value parameter `ptr`
is copied from the caller's handle before the call and destroyed after the
guard. -/
def access_resource_with_mutex_using (op : Output → Output × Option String)
    (thread_name : String) (g : Gated) : Option (Gated × Exit) :=
  match g.sh.acquire with
  | none => none
  | some sh1 =>
      -- std::lock_guard<std::mutex> lock(global_mutex);
      match Gated.lock { g with sh := sh1 } with
      | none => none
      | some g1 =>
          let out1 := g1.sh.out ++ locked_pieces thread_name
          match op out1 with
          | (out2, some e) =>
              -- unwinding: ~lock_guard, then ~shared_ptr on ptr
              let g2 := Gated.unlock { g1 with sh := { g1.sh with out := out2 } }
              match g2.sh.drop with
              | none => none
              | some sh2 => some ({ g2 with sh := sh2 }, Exit.threw e)
          | (out2, none) =>
              let out3 := out2 ++ unlocked_pieces thread_name
              -- end of scope: ~lock_guard, then ~shared_ptr on ptr
              let g2 := Gated.unlock { g1 with sh := { g1.sh with out := out3 } }
              match g2.sh.drop with
              | none => none
              | some sh2 => some ({ g2 with sh := sh2 }, Exit.returned)

/-- The function `void access_resource_with_mutex(std::shared_ptr<HeavyResource> ptr,
const std::string& thread_name)`, called from one thread. -/
def access_resource_with_mutex (thread_name : String) (g : Gated) : Option (Gated × Exit) :=
  access_resource_with_mutex_using (fun out => (g.sh.res.performOperation out, none))
    thread_name g

/-! ## Threads

Several threads run on one shared state.  A thread is the list of the atomic
actions it still has to perform; a step of the program is one action of one
thread.  An interleaving is the list of the thread numbers in the order in
which they take their steps. -/

/-- The two functions that `thread_demo` runs in a thread. -/
inductive Entry where
  | access_resource_with_mutex
  | access_resource_without_mutex
deriving DecidableEq, Repr

/-- An atomic action of a thread. -/
inductive Action where
  /-- One `operator<<` call on `std::cout`. -/
  | write (piece : String)
  /-- The constructor of `std::lock_guard`: `global_mutex.lock()`. -/
  | lock
  /-- The destructor of `std::lock_guard`: `global_mutex.unlock()`. -/
  | unlock
  /-- The destructor of a `std::shared_ptr<HeavyResource>` handle. -/
  | release_handle
  /-- The constructor of `std::thread`: the handle is copied for the new thread,
  which starts to run `f(ptr, thread_name)`. -/
  | spawn (f : Entry) (thread_name : String)
  /-- The call `t.join()` on the thread with the given number. -/
  | join (t : Nat)
deriving DecidableEq, Repr

/-- The pieces of the first line of `access_resource_without_mutex`. -/
def warning_start_pieces (thread_name : String) : List String :=
  ["[", thread_name, "] [WARNING] Starting resource access WITHOUT Mutex.\n"]

/-- The pieces of the last line of `access_resource_without_mutex`. -/
def warning_finish_pieces (thread_name : String) : List String :=
  ["[", thread_name, "] [WARNING] Finished access WITHOUT Mutex.\n"]

/-- The nine pieces a thread writes inside the critical section of
`access_resource_with_mutex`. -/
def critical_pieces (r : HeavyResource) (thread_name : String) : List String :=
  locked_pieces thread_name ++ r.performOperation_pieces ++ unlocked_pieces thread_name

/-- The actions of a thread that runs `f(ptr, thread_name)` on the resource `r`.
`access_resource_with_mutex`: lock, three lines, unlock at the end of the scope,
then the parameter `ptr` is destroyed.  `access_resource_without_mutex`: three
lines, then `ptr` is destroyed. -/
def Entry.body (r : HeavyResource) (thread_name : String) : Entry → List Action
  | .access_resource_with_mutex =>
      [Action.lock] ++ (critical_pieces r thread_name).map Action.write ++
        [Action.unlock, Action.release_handle]
  | .access_resource_without_mutex =>
      (warning_start_pieces thread_name ++ r.performOperation_pieces ++
        warning_finish_pieces thread_name).map Action.write ++ [Action.release_handle]

/-- The state shared by the threads: the resource, the `use_count` of its
control block, the owner of `global_mutex` (if it is locked), standard output,
and for each thread the actions it still has to perform (`[]`: finished). -/
structure State where
  res : HeavyResource
  use_count : Nat
  global_mutex : Option Nat
  out : Output
  threads : List (List Action)
deriving DecidableEq, Repr

/-- One step of thread `t`: its next action, if the thread exists, has not
finished and the action can be performed now.  `lock` waits while the mutex is
locked; `unlock` of a mutex the thread does not own and operations on a handle
that does not exist are undefined; `join` waits until the thread has finished.
The handle that takes `use_count` to 0 runs `~HeavyResource()` in its own
thread, piece by piece. -/
def step (t : Nat) (s : State) : Option State :=
  match s.threads[t]? with
  | none => none
  | some [] => none
  | some (a :: rest) =>
      match a with
      | .write p => some { s with out := s.out ++ [p], threads := s.threads.set t rest }
      | .lock =>
          if s.global_mutex = none then
            some { s with global_mutex := some t, threads := s.threads.set t rest }
          else none
      | .unlock =>
          if s.global_mutex = some t then
            some { s with global_mutex := none, threads := s.threads.set t rest }
          else none
      | .release_handle =>
          if s.use_count = 0 then none
          else if s.use_count = 1 then
            some { s with use_count := 0,
                          threads := s.threads.set t (s.res.dtor_pieces.map Action.write ++ rest) }
          else some { s with use_count := s.use_count - 1, threads := s.threads.set t rest }
      | .spawn f n =>
          if s.use_count = 0 then none
          else some { s with use_count := s.use_count + 1,
                             threads := s.threads.set t rest ++ [f.body s.res n] }
      | .join k =>
          match s.threads[k]? with
          | some [] => some { s with threads := s.threads.set t rest }
          | _ => none

/-- An interleaving, run step by step; `none` if one of its steps is not possible. -/
def run : List Nat → State → Option State
  | [], s => some s
  | t :: ts, s =>
      match step t s with
      | none => none
      | some s' => run ts s'

/-- The thread holds the lock of its `std::lock_guard`: it has passed `lock`
and has not yet performed `unlock`. -/
def in_critical_section (c : List Action) : Bool :=
  c.contains Action.unlock && !c.contains Action.lock

/-- The counter of the mutual exclusion test: the number of threads that are
inside their critical section. -/
def locked_count (s : State) : Nat :=
  (s.threads.filter in_critical_section).length

/-- Any number of threads, one for each name, each about to run
`access_resource_with_mutex` with its own copy of the handle, while `owners`
further handles exist. -/
def mutex_pool (r : HeavyResource) (names : List String) (owners : Nat) (out : Output) : State :=
  { res := r, use_count := names.length + owners, global_mutex := none, out := out,
    threads := names.map (fun n => Entry.access_resource_with_mutex.body r n) }

/-- The actions of the thread that runs `thread_demo`, from the first
`std::thread` constructor on.  The threads it starts get the numbers 1 to 4;
the local handle `shared_db_resource` is destroyed when the function returns. -/
def thread_demo_actions : List Action :=
  [ Action.spawn Entry.access_resource_with_mutex "Thread 1 (Mutex)",
    Action.spawn Entry.access_resource_with_mutex "Thread 2 (Mutex)",
    Action.join 1,
    Action.join 2,
    Action.write "\n-- Running Without Mutex (Concurrent Access) --\n",
    Action.spawn Entry.access_resource_without_mutex "Thread 3 (No Mutex)",
    Action.spawn Entry.access_resource_without_mutex "Thread 4 (No Mutex)",
    Action.join 3,
    Action.join 4,
    Action.release_handle ]

/-- The state in which `thread_demo` starts its first thread: the resource
`Critical_Database` has been created and is owned by `shared_db_resource`. -/
def thread_demo_init (out : Output) : State :=
  let out := out ++ ["\n--- THREADS & SHARED_PTR DEMO ---\n"]
  let sh := Shared.make "Critical_Database" out
  let out := sh.out ++ ["\n-- Running with Mutex (Safe Access) --\n"]
  { res := sh.res, use_count := sh.use_count, global_mutex := none, out := out,
    threads := [thread_demo_actions] }

/-- The function `void thread_demo()` under the interleaving `sched`: the output
when the function returns, `none` if `sched` is not an interleaving that takes
`thread_demo` to its return. -/
def thread_demo (sched : List Nat) (out : Output) : Option Output :=
  match run sched (thread_demo_init out) with
  | none => none
  | some s => if s.threads.head? = some [] then some s.out else none

/-- The function `int main()` of `Main2.cpp` up to the call of `thread_demo` (source lines 116
to 130): the state of `main_shared_ptr` and of standard output at that point. -/
def main_to_threads : Option Shared :=
  let out := ["--- C++ Resource Management Project (Effective C++) ---\n"]
  let out := unique_ptr_demo out
  let out := out ++ ["\n--- SHARED_PTR COPYING DEMO ---\n"]
  let sh := Shared.make "Main_Log" out
  let sh : Shared := { sh with out := sh.out ++
    ["Initial reference count: ", toString sh.use_count, "\n"] }
  match shared_ptr_management sh with
  | none => none
  | some sh =>
      some { sh with out := sh.out ++
        ["Reference count after shared_ptr_management: ", toString sh.use_count, "\n"] }

/-- The function `int main()` of `Main2.cpp` under the interleaving `sched` of the threads of
`thread_demo`.  The handle `main_shared_ptr` is destroyed at the `return`. -/
def main (sched : List Nat) : Option Output :=
  match main_to_threads with
  | none => none
  | some sh =>
      match thread_demo sched sh.out with
      | none => none
      | some out =>
          let out := out ++ ["\nAll threads have finished.\n"]
          let out := out ++ ["Program exiting. Destructors will be called now.\n"]
          match Shared.drop { sh with out := out } with
          | none => none
          | some sh => some sh.out

/-- The interleaving in which every thread runs to its end as soon as it is started. -/
def sequential_schedule : List Nat :=
  [0] ++ List.replicate 12 1 ++ [0] ++ List.replicate 12 2 ++ [0, 0, 0, 0] ++
    List.replicate 10 3 ++ [0] ++ List.replicate 10 4 ++ [0, 0, 0, 0, 0, 0]

/-- An interleaving in which thread 4 writes its first line after thread 3 has
written the first piece of its `Operating on` line. -/
def torn_schedule : List Nat :=
  [0] ++ List.replicate 12 1 ++ [0] ++ List.replicate 12 2 ++ [0, 0, 0, 0, 0] ++
    [3, 3, 3, 3] ++ [4, 4, 4] ++ List.replicate 6 3 ++ List.replicate 7 4 ++
    [0, 0, 0, 0, 0, 0]

/-- The characters of the output, in order. -/
def text (out : Output) : List Char :=
  (out.map String.toList).flatten

/-- The lines of a text: the runs of characters between line feeds. -/
def lines_of : List Char → List (List Char)
  | [] => [[]]
  | c :: cs =>
      if c = '\n' then [] :: lines_of cs
      else
        match lines_of cs with
        | [] => [[c]]
        | l :: ls => (c :: l) :: ls

/-- The text `pat` occurs somewhere in the line `l`. -/
def occurs_in (pat l : List Char) : Bool :=
  l.tails.any (fun t => pat.isPrefixOf t)

/-- The number of lines of the output in which `Operating on Critical_Database` occurs. -/
def operating_lines (out : Output) : Nat :=
  ((lines_of (text out)).filter
    (occurs_in "Operating on Critical_Database".toList)).length

/-- The number of places of the output at which the consecutive pieces `line` stand. -/
def occurrences (line : List String) : Output → Nat
  | [] => 0
  | p :: out => (if line.isPrefixOf (p :: out) then 1 else 0) + occurrences line out

/-- Standard output of `main` in `Main2.cpp` when `thread_demo` starts its first thread. -/
def main_before_threads : Output :=
  ["--- C++ Resource Management Project (Effective C++) ---\n",
   "\n--- UNIQUE_PTR DEMO ---\n",
   "[Resource] Constructor: ", "Config_Unique", " opened.\n",
   "[Resource] Operating on ", "Config_Unique", "...\n",
   "Unique Resource goes out of scope.\n",
   "[Resource] Destructor: ", "Config_Unique", " closed and released.\n",
   "\n--- SHARED_PTR COPYING DEMO ---\n",
   "[Resource] Constructor: ", "Main_Log", " opened.\n",
   "Initial reference count: ", "1", "\n",
   "[Resource] Operating on ", "Main_Log", "...\n",
   "  (SharedPtr demo) Temporary reference count: ", "2", "\n",
   "Reference count after shared_ptr_management: ", "1", "\n",
   "\n--- THREADS & SHARED_PTR DEMO ---\n",
   "[Resource] Constructor: ", "Critical_Database", " opened.\n",
   "\n-- Running with Mutex (Safe Access) --\n"]

/-- The two lines `main` prints after `thread_demo` has returned. -/
def main_after_threads : Output :=
  ["\nAll threads have finished.\n", "Program exiting. Destructors will be called now.\n"]

end Main2

namespace Main2

/-! ## Notions used to state and prove the properties of the threads -/

/-- The lock discipline of a thread: it locks at most once more, and only while
it is outside its critical section; after a `lock` an `unlock` follows; after
its `unlock` it neither locks nor unlocks again. -/
def lock_ok : List Action → Bool
  | [] => true
  | .lock :: r => in_critical_section r && lock_ok r
  | .unlock :: r => !r.contains Action.unlock && !r.contains Action.lock
  | _ :: r => lock_ok r

/-- A weight for every action; the weight of a thread is the sum of the weights
of its remaining actions, the weight of a state the sum over its threads. -/
def weight_of (w : Action → Nat) (c : List Action) : Nat :=
  (c.map w).sum

/-- The total weight of the threads of a state. -/
def total (w : Action → Nat) (s : State) : Nat :=
  (s.threads.map (weight_of w)).sum

/-- Weight 1 for the destruction of a handle, 0 for everything else: the total
is the number of handles that the threads still hold. -/
def handle_weight : Action → Nat
  | .release_handle => 1
  | _ => 0

/-- The number of times the piece `p` is still to be written by an action:
a `write` of `p` counts once, the start of a thread counts the writes of `p` in
its body. -/
def piece_weight (r : HeavyResource) (p : String) : Action → Nat
  | .write q => if q = p then 1 else 0
  | .spawn f n => weight_of (fun a => match a with
      | .write q => if q = p then 1 else 0
      | _ => 0) (f.body r n)
  | _ => 0

/-- The number of steps an action stands for: one, and for the start of a
thread also the steps of its body. -/
def step_weight : Action → Nat
  | .spawn .access_resource_with_mutex _ => 13
  | .spawn .access_resource_without_mutex _ => 11
  | _ => 1

/-- The number of steps the program still has to take: the steps of the
remaining actions of the threads, and the three writes of the destructor of the
resource while it has not been released. -/
def steps_left (s : State) : Nat :=
  total step_weight s + (if s.use_count = 0 then 0 else 3)

/-- The thread neither starts nor joins threads. -/
def worker (c : List Action) : Bool :=
  c.all (fun a => match a with
    | .spawn _ _ => false
    | .join _ => false
    | _ => true)

/-- The invariant of the mutex: every thread follows the lock discipline, the
owner of `global_mutex` is an existing thread, and a thread is inside its
critical section exactly when it owns the mutex. -/
def MutexInv (s : State) : Prop :=
  (∀ t c, s.threads[t]? = some c →
    lock_ok c = true ∧ (in_critical_section c = true ↔ s.global_mutex = some t)) ∧
  (∀ t, s.global_mutex = some t → t < s.threads.length)

/-- Where a thread of the pool stands: either it has performed the first `i`
actions of `access_resource_with_mutex` and, while it is inside the critical
section, the pieces it has written there are the end of standard output; or it
has destroyed the last handle and has written the first `j` pieces of the
destructor of the resource. -/
def pool_thread_ok (r : HeavyResource) (n : String) (s : State) (c : List Action) : Prop :=
  (∃ i, i ≤ 12 ∧ c = (Entry.access_resource_with_mutex.body r n).drop i ∧
    (1 ≤ i → i ≤ 10 → (critical_pieces r n).take (i - 1) <:+ s.out)) ∨
  (∃ j, j ≤ 3 ∧ c = (r.dtor_pieces.map Action.write).drop j ∧ s.use_count = 0)

/-- The invariant of a pool of threads that all run `access_resource_with_mutex`. -/
def PoolInv (r : HeavyResource) (names : List String) (owners : Nat) (s : State) : Prop :=
  s.res = r ∧ s.threads.length = names.length ∧ MutexInv s ∧
  s.use_count = owners + total handle_weight s ∧
  ∀ (t : Nat) (c : List Action) (n : String),
    s.threads[t]? = some c → names[t]? = some n → pool_thread_ok r n s c

/-- The lines written in the critical sections of the threads `order`, one
thread after the other. -/
def blocks (r : HeavyResource) (names : List String) (order : List Nat) : List String :=
  order.flatMap (fun t => critical_pieces r (names.getD t ""))

/-- The invariant of the output of a pool: the threads `order` have left their
critical sections, in this order, and each has at most the destruction of its
handle left to do; standard output is what it was at the start, followed by the
three lines of each of these threads in turn, followed by the pieces that the
owner of the mutex, if there is one, has written so far. -/
def BlocksInv (r : HeavyResource) (names : List String) (out0 : Output) (s : State)
    (order : List Nat) : Prop :=
  order.Nodup ∧
  (∀ t : Nat, t ∈ order ↔ ∃ c, s.threads[t]? = some c ∧ c.length ≤ 1) ∧
  ((s.global_mutex = none ∧ s.out = out0 ++ blocks r names order) ∨
   (∃ (t : Nat) (n : String) (i : Nat), s.global_mutex = some t ∧ names[t]? = some n ∧
      s.threads[t]? = some ((Entry.access_resource_with_mutex.body r n).drop i) ∧
      1 ≤ i ∧ i ≤ 10 ∧
      s.out = out0 ++ blocks r names order ++ (critical_pieces r n).take (i - 1)))

/-- The number of copies of the piece `p` that have been written or are still
to be written: those on standard output, those in the remaining actions of the
threads, and those of the destructor of the resource while it has not run. -/
def piece_budget (p : String) (s : State) : Nat :=
  s.out.count p + total (piece_weight s.res p) s +
    (if s.use_count = 0 then 0 else s.res.dtor_pieces.count p)

/-- The resource created by `thread_demo`. -/
def shared_db_resource : HeavyResource :=
  ⟨"Critical_Database"⟩

/-- The number of threads that exist once the thread of `thread_demo` has
performed `i` of its actions. -/
def demo_threads (i : Nat) : Nat :=
  if i = 0 then 1 else if i = 1 then 2 else if i ≤ 5 then 3 else if i = 6 then 4 else 5

/-- The invariant of `thread_demo`, for the output `base` with which its first
thread is started.  Either the thread of `thread_demo` (number 0) has performed
`i` of its actions, and every other thread is still to be joined or has
finished; or it has destroyed the last handle, every other thread has finished,
and it has written the first `j` pieces of the destructor of the resource. -/
def DemoInv (base : Output) (s : State) : Prop :=
  s.res = shared_db_resource ∧ MutexInv s ∧ s.use_count = total handle_weight s ∧
  (∀ (k : Nat) (c : List Action), 1 ≤ k → s.threads[k]? = some c → worker c = true) ∧
  ∃ (m : List Action) (d : Output), s.threads[0]? = some m ∧
    ((∃ i, i ≤ 9 ∧ m = thread_demo_actions.drop i ∧ s.threads.length = demo_threads i ∧
        s.out = base ++ d ∧
        (∀ (k : Nat) (c : List Action), 1 ≤ k → s.threads[k]? = some c →
          Action.join k ∈ m ∨ c = [])) ∨
     (∃ j, j ≤ 3 ∧ m = (shared_db_resource.dtor_pieces.map
          Action.write).drop j ∧
        s.threads.length = 5 ∧ s.use_count = 0 ∧
        s.out = base ++ d ++ shared_db_resource.dtor_pieces.take j ∧
        (∀ (k : Nat) (c : List Action), 1 ≤ k → s.threads[k]? = some c → c = [])))

/-- The names of the threads 1 and 2 of `thread_demo`, by thread number (thread 0
runs `thread_demo` itself and has no name). -/
def demo_names : List String :=
  ["", "Thread 1 (Mutex)", "Thread 2 (Mutex)"]

/-- The invariant of the output of `thread_demo`.  Up to the line that
announces the threads without mutex, the threads 1 and 2 stand somewhere in
`access_resource_with_mutex` and the output is made of whole three-line blocks
as in a pool; from that line on, the output starts with the blocks of the
threads 1 and 2, in one of the two orders, and that line. -/
def DemoOutInv (base : Output) (s : State) : Prop :=
  ∃ m, s.threads[0]? = some m ∧
    ((6 ≤ m.length ∧
      (∀ (k : Nat) (c : List Action), 1 ≤ k → s.threads[k]? = some c →
        ∃ (n : String) (i : Nat), demo_names[k]? = some n ∧ i ≤ 12 ∧
          c = (Entry.access_resource_with_mutex.body shared_db_resource n).drop i) ∧
      ∃ order, BlocksInv shared_db_resource demo_names base s order) ∨
     (m.length ≤ 5 ∧ ∃ (order : List Nat) (d2 : Output), order.Perm [1, 2] ∧
        s.out = base ++ blocks shared_db_resource demo_names order ++
          ["\n-- Running Without Mutex (Concurrent Access) --\n"] ++ d2))

/-- The nine pieces a thread writes in `access_resource_without_mutex`. -/
def unguarded_pieces (r : HeavyResource) (thread_name : String) : List String :=
  warning_start_pieces thread_name ++ r.performOperation_pieces ++
    warning_finish_pieces thread_name

/-- The line with which `thread_demo` announces the threads without mutex. -/
def without_mutex_header : String :=
  "\n-- Running Without Mutex (Concurrent Access) --\n"

/-- The pieces written by the threads of `thread_demo` before the resource is
released, thread by thread. -/
def demo_pieces : List String :=
  critical_pieces shared_db_resource "Thread 1 (Mutex)" ++
  critical_pieces shared_db_resource "Thread 2 (Mutex)" ++
  [without_mutex_header] ++
  (unguarded_pieces shared_db_resource "Thread 3 (No Mutex)" ++
   unguarded_pieces shared_db_resource "Thread 4 (No Mutex)")

end Main2

namespace Main

theorem Heap.block_lt {h : Heap} {p : Nat} {b : List Int} (hp : h.block p = some b) :
    p < h.blocks.length := by
  unfold Heap.block at hp
  by_contra hlt
  rw [List.getElem?_eq_none (by omega)] at hp
  simp at hp

theorem Heap.block_alloc_old (h : Heap) (n p : Nat) (hp : p < h.blocks.length) :
    (h.alloc n).2.block p = h.block p := by
  simp [Heap.alloc, Heap.block, List.getElem?_append_left hp]

theorem Heap.block_alloc_new (h : Heap) (n : Nat) :
    (h.alloc n).2.block (h.alloc n).1 = some (List.replicate n 0) := by
  simp [Heap.alloc, Heap.block]

theorem Heap.block_set_ne (h : Heap) (p q : Nat) (v : Option (List Int)) (hpq : p ≠ q) :
    Heap.block ⟨h.blocks.set p v⟩ q = h.block q := by
  simp [Heap.block, List.getElem?_set_ne hpq]

theorem Heap.block_set_eq (h : Heap) (p : Nat) (v : Option (List Int))
    (hp : p < h.blocks.length) : Heap.block ⟨h.blocks.set p v⟩ p = v := by
  simp [Heap.block, List.getElem?_set_self, hp]

theorem Heap.block_write_ne {h h' : Heap} {p i : Nat} {v : Int} (hw : h.write p i v = some h')
    (q : Nat) (hq : q ≠ p) : h'.block q = h.block q := by
  unfold Heap.write at hw
  cases hb : h.block p with
  | none => simp [hb] at hw
  | some b =>
    simp only [hb] at hw
    split at hw
    · cases hw
      exact Heap.block_set_ne h p q _ (Ne.symm hq)
    · cases hw

/-- The copy constructor on a live source gives a fresh live block with the
source's elements and leaves every older block alone. -/
theorem SmartArray.copy_ctor_spec (b : SmartArray) (w : World) (ys : List Int)
    (hb : w.heap.block b.data = some ys) (hyb : ys.length = b.size) :
    ∃ h', SmartArray.copy_ctor b w =
        some (⟨w.heap.blocks.length, b.size⟩,
          ⟨h', w.out ++ ["Constructor de Copiere: Copiez ", toString b.size, " elemente.\n"]⟩) ∧
      h'.block w.heap.blocks.length = some ys ∧
      h'.blocks.length = w.heap.blocks.length + 1 ∧
      ∀ q, q < w.heap.blocks.length → h'.block q = w.heap.block q := by
  have hlt := Heap.block_lt hb
  have hne : b.data ≠ w.heap.blocks.length := by omega
  have h1 : (w.heap.alloc b.size).2.block b.data = some ys := by
    rw [Heap.block_alloc_old _ _ _ hlt, hb]
  have h2 : (w.heap.alloc b.size).2.block w.heap.blocks.length
      = some (List.replicate b.size 0) := Heap.block_alloc_new w.heap b.size
  have hc : (w.heap.alloc b.size).2.copy b.data b.size w.heap.blocks.length
      = some ⟨(w.heap.alloc b.size).2.blocks.set w.heap.blocks.length (some ys)⟩ := by
    unfold Heap.copy
    rw [h1, h2]
    simp [hne, ← hyb]
  refine ⟨⟨(w.heap.alloc b.size).2.blocks.set w.heap.blocks.length (some ys)⟩, ?_, ?_, ?_, ?_⟩
  · unfold SmartArray.copy_ctor
    have hfst : (w.heap.alloc b.size).1 = w.heap.blocks.length := rfl
    simp only [hfst, hc]
  · apply Heap.block_set_eq
    simp [Heap.alloc]
  · simp [Heap.alloc]
  · intro q hq
    rw [Heap.block_set_ne _ _ _ _ (by omega), Heap.block_alloc_old _ _ _ hq]

/-- What the statement `x = y;` does when both operands are live arrays (they
may be the same object): the target gets a fresh block holding the source's
elements, the target's old block is freed, every other block is untouched. -/
theorem SmartArray.operator_assign_spec (a b : SmartArray) (w : World) (xs ys : List Int)
    (ha : w.heap.block a.data = some xs)
    (hb : w.heap.block b.data = some ys) (hyb : ys.length = b.size) :
    ∃ w', SmartArray.operator_assign a b w = some (⟨w.heap.blocks.length, b.size⟩, w') ∧
      w'.heap.block w.heap.blocks.length = some ys ∧
      w'.heap.block a.data = none ∧
      (∀ q, q ≠ a.data → q < w.heap.blocks.length → w'.heap.block q = w.heap.block q) ∧
      w'.out = w.out ++ ["Constructor de Copiere: Copiez ", toString b.size, " elemente.\n",
        "Operator de Atribuire (Copy-and-Swap):\n", "Destructor: Eliberez memorie.\n"] := by
  obtain ⟨h', hc, hnew, hlen, hold⟩ := SmartArray.copy_ctor_spec b w ys hb hyb
  have hlt := Heap.block_lt ha
  have hlive : h'.block a.data = some xs := by rw [hold _ hlt, ha]
  refine ⟨⟨⟨h'.blocks.set a.data none⟩, _⟩, ?_, ?_, ?_, ?_, rfl⟩
  · simp only [SmartArray.operator_assign, hc, SmartArray.dtor, Heap.free, hlive]
    simp
  · show Heap.block ⟨h'.blocks.set a.data none⟩ _ = _
    rw [Heap.block_set_ne _ _ _ _ (by omega), hnew]
  · show Heap.block ⟨h'.blocks.set a.data none⟩ _ = _
    exact Heap.block_set_eq _ _ _ (by omega)
  · intro q hq hql
    show Heap.block ⟨h'.blocks.set a.data none⟩ _ = _
    rw [Heap.block_set_ne _ _ _ _ (Ne.symm hq), hold _ hql]

theorem print_loop_congr (a a' : SmartArray) (h h' : Heap) (hs : a.size = a'.size)
    (hblk : h.block a.data = h'.block a'.data) (k : Nat) :
    ∀ (i : Nat) (out : Output), print_loop a h i k out = print_loop a' h' i k out := by
  induction k with
  | zero => intro i out; rfl
  | succ k ih =>
    intro i out
    simp only [print_loop, Heap.read, hblk, hs]
    cases h'.block a'.data with
    | none => rfl
    | some blk =>
      simp only []
      cases blk.get? i with
      | none => rfl
      | some v => simp only [ih]

theorem SmartArray.print_congr (a a' : SmartArray) (h h' : Heap) (hs : a.size = a'.size)
    (hblk : h.block a.data = h'.block a'.data) (out : Output) :
    (a.print ⟨h, out⟩).map (fun w => w.out) = (a'.print ⟨h', out⟩).map (fun w => w.out) := by
  simp only [SmartArray.print, hs, print_loop_congr a a' h h' hs hblk]
  cases print_loop a' h' 0 a'.size (out ++ ["Tablou [size=", toString a'.size, "]: "]) <;> rfl

/-- C6.  Assignment copies all parts.  For two distinct live arrays `a` and `b`
(each owning a block of exactly `size` cells), the statement `a = b` succeeds;
afterwards `a` has the size of `b` and, at every index below it, the element of
`b`; the size and the elements of `b` are unchanged; the storage of `a` is a
live block different from that of `b`, so a later write through one is not seen
through the other.  In `main`, with `a = SmartArray(5)` and `b = SmartArray(10)`,
`a` has size 10 after the assignment and `a.print()` writes size 10 and the
elements 1..10. -/
theorem operator_assign_copies_all_parts :
    (∀ (a b : SmartArray) (w : World) (xs ys : List Int),
      w.heap.block a.data = some xs → xs.length = a.size →
      w.heap.block b.data = some ys → ys.length = b.size →
      a.data ≠ b.data →
      ∃ a' w', SmartArray.operator_assign a b w = some (a', w') ∧
        a'.size = b.size ∧
        (∀ i, i < b.size → w'.heap.read a'.data i = w.heap.read b.data i ∧
          (w'.heap.read a'.data i).isSome) ∧
        a'.elems w'.heap = some ys ∧
        b.elems w'.heap = some ys ∧ b.elems w.heap = some ys ∧
        a'.data ≠ b.data ∧
        (∀ i v h2, w'.heap.write a'.data i v = some h2 → b.elems h2 = some ys) ∧
        (∀ i v h2, w'.heap.write b.data i v = some h2 → a'.elems h2 = some ys)) ∧
    (∃ l, main_to_assign = some l ∧ l.a.size = 10 ∧
      l.a.elems l.w.heap = some [1, 2, 3, 4, 5, 6, 7, 8, 9, 10] ∧
      l.b.elems l.w.heap = some [1, 2, 3, 4, 5, 6, 7, 8, 9, 10] ∧
      l.a.data ≠ l.b.data ∧
      printed_1_to_10 <:+ l.w.out) := by
  refine ⟨?_, ?_⟩
  · intro a b w xs ys ha hxa hb hyb hab
    obtain ⟨w', hasg, hnew, hold_a, hothers, _⟩ :=
      SmartArray.operator_assign_spec a b w xs ys ha hb hyb
    have hbl := Heap.block_lt hb
    have hb' : w'.heap.block b.data = some ys := by
      rw [hothers _ (Ne.symm hab) hbl, hb]
    have hne : w.heap.blocks.length ≠ b.data := by omega
    refine ⟨_, w', hasg, rfl, ?_, ?_, ?_, ?_, hne, ?_, ?_⟩
    · intro i hi
      have hi' : i < ys.length := by omega
      simp [Heap.read, hnew, hb, List.getElem?_eq_getElem hi']
    · simp [SmartArray.elems, hnew, ← hyb]
    · simp [SmartArray.elems, hb', ← hyb]
    · simp [SmartArray.elems, hb, ← hyb]
    · intro i v h2 hw
      have := Heap.block_write_ne hw b.data (Ne.symm hne)
      simp [SmartArray.elems, this, hb', ← hyb]
    · intro i v h2 hw
      have := Heap.block_write_ne hw w.heap.blocks.length hne
      simp [SmartArray.elems, this, hnew, ← hyb]
  · exact ⟨_, rfl, by decide, by decide, by decide, by decide, by decide⟩

/-- C7.  Self-assignment is safe and is the identity on the observable state.
For every live array `a`, the statement `a = a` succeeds (no freed block is read
or freed again); afterwards `a` has the same size and the same element at every
index, its storage is a live block, and `a.print()` writes exactly what it wrote
before.  In `main`, `a` has size 10 and holds 1..10 before `a = a`, and the two
`a.print()` calls after it write the same text, the whole of `main` running to
its end without undefined behaviour. -/
theorem self_assign_identity :
    (∀ (a : SmartArray) (w : World) (xs : List Int),
      w.heap.block a.data = some xs → xs.length = a.size →
      ∃ a' w', SmartArray.operator_assign a a w = some (a', w') ∧
        a'.size = a.size ∧
        a'.elems w'.heap = some xs ∧ a.elems w.heap = some xs ∧
        (∀ i, i < a.size → w'.heap.read a'.data i = w.heap.read a.data i ∧
          (w'.heap.read a'.data i).isSome) ∧
        (∀ out, (a'.print ⟨w'.heap, out⟩).map (fun u => u.out)
          = (a.print ⟨w.heap, out⟩).map (fun u => u.out))) ∧
    (∃ l l', main_to_assign = some l ∧ main_from_self_assign l = some l' ∧
      l.a.elems l.w.heap = some [1, 2, 3, 4, 5, 6, 7, 8, 9, 10] ∧
      printed_1_to_10 <:+ l.w.out ∧
      l'.w.out = l.w.out ++
        ["\n--- TEST ITEM 11: Auto-atribuire (a = a) ---\n", "a = a\n",
         "Constructor de Copiere: Copiez ", "10", " elemente.\n",
         "Operator de Atribuire (Copy-and-Swap):\n", "Destructor: Eliberez memorie.\n"] ++
        printed_1_to_10 ++
        ["\n--- TEST ITEM 12: Copierea tuturor părților ---\n", "a după a = a:\n"] ++
        printed_1_to_10 ++
        ["\n--- TERMINARE OBIECTE ---\n", "Destructor: Eliberez memorie.\n",
         "Destructor: Eliberez memorie.\n", "Destructor: Eliberez memorie.\n"]) := by
  refine ⟨?_, ?_⟩
  · intro a w xs ha hxa
    obtain ⟨w', hasg, hnew, _, _, _⟩ :=
      SmartArray.operator_assign_spec a a w xs xs ha ha hxa
    refine ⟨_, w', hasg, rfl, ?_, ?_, ?_, ?_⟩
    · simp [SmartArray.elems, hnew, ← hxa]
    · simp [SmartArray.elems, ha, ← hxa]
    · intro i hi
      have hi' : i < xs.length := by omega
      simp [Heap.read, hnew, ha, List.getElem?_eq_getElem hi']
    · intro out
      exact SmartArray.print_congr ⟨w.heap.blocks.length, a.size⟩ a w'.heap w.heap rfl
        (by rw [hnew, ha]) out
  · exact ⟨_, _, rfl, rfl, by decide, by decide, by decide⟩

/-- Witness of C6 on the arrays of `main`: `a = SmartArray(5)` at block 0 and
`b = SmartArray(10)` at block 1. -/
theorem operator_assign_copies_all_parts_witness :
    ∃ a' w', SmartArray.operator_assign ⟨0, 5⟩ ⟨1, 10⟩
        ⟨⟨[some [1, 2, 3, 4, 5], some [1, 2, 3, 4, 5, 6, 7, 8, 9, 10]]⟩, []⟩ = some (a', w') ∧
      a'.size = 10 ∧ a'.elems w'.heap = some [1, 2, 3, 4, 5, 6, 7, 8, 9, 10] := by
  obtain ⟨a', w', h1, h2, _, h3, _⟩ := operator_assign_copies_all_parts.1 ⟨0, 5⟩ ⟨1, 10⟩
    ⟨⟨[some [1, 2, 3, 4, 5], some [1, 2, 3, 4, 5, 6, 7, 8, 9, 10]]⟩, []⟩
    [1, 2, 3, 4, 5] [1, 2, 3, 4, 5, 6, 7, 8, 9, 10] rfl rfl rfl rfl (by decide)
  exact ⟨a', w', h1, h2, h3⟩

/-- Witness of C7 on an array of size 3 at block 0. -/
theorem self_assign_identity_witness :
    ∃ a' w', SmartArray.operator_assign ⟨0, 3⟩ ⟨0, 3⟩ ⟨⟨[some [7, 8, 9]]⟩, []⟩ = some (a', w') ∧
      a'.size = 3 ∧ a'.elems w'.heap = some [7, 8, 9] := by
  obtain ⟨a', w', h1, h2, h3, _⟩ := self_assign_identity.1 ⟨0, 3⟩
    ⟨⟨[some [7, 8, 9]]⟩, []⟩ [7, 8, 9] rfl rfl
  exact ⟨a', w', h1, h2, h3⟩

end Main

namespace Main2

/-! ## Handles used from one thread -/

theorem HandleOp.apply_alive {op : HandleOp} {s s' : Shared} (h : op.apply s = some s')
    (hpos : 1 ≤ s'.use_count) : 1 ≤ s.use_count ∧ s'.out = s.out ∧ s'.res = s.res := by
  cases op with
  | acquire =>
    simp only [HandleOp.apply, Shared.acquire] at h
    split at h
    · cases h
    · cases h; exact ⟨by omega, rfl, rfl⟩
  | drop =>
    simp only [HandleOp.apply, Shared.drop] at h
    split at h
    · cases h
    · split at h
      · cases h; simp at hpos
      · cases h; exact ⟨by omega, rfl, rfl⟩

theorem HandleOp.apply_last {op : HandleOp} {s s' : Shared} (h : op.apply s = some s')
    (hzero : s'.use_count = 0) :
    op = HandleOp.drop ∧ s.use_count = 1 ∧ s'.out = s.out ++ s.res.dtor_pieces := by
  cases op with
  | acquire =>
    simp only [HandleOp.apply, Shared.acquire] at h
    split at h
    · cases h
    · cases h; simp at hzero
  | drop =>
    simp only [HandleOp.apply, Shared.drop] at h
    split at h
    · cases h
    · split at h
      · cases h; exact ⟨rfl, by assumption, rfl⟩
      · cases h; simp at hzero; omega

theorem HandleOp.apply_dead (op : HandleOp) (s : Shared) (hzero : s.use_count = 0) :
    op.apply s = none := by
  cases op <;> simp [HandleOp.apply, Shared.acquire, Shared.drop, hzero]

theorem run_handles_dead {ops : List HandleOp} {s s' : Shared} (hzero : s.use_count = 0)
    (h : run_handles ops s = some s') : ops = [] := by
  cases ops with
  | nil => rfl
  | cons op ops => simp [run_handles, HandleOp.apply_dead op s hzero] at h

/-- The general form of the release property, from any state in which a handle exists. -/
theorem run_handles_release (ops : List HandleOp) :
    ∀ (s0 s : Shared), 1 ≤ s0.use_count → run_handles ops s0 = some s → s.use_count = 0 →
      (∃ pre s1, ops = pre ++ [HandleOp.drop] ∧ run_handles pre s0 = some s1 ∧
        s1.use_count = 1 ∧ s1.out = s0.out) ∧
      s.out = s0.out ++ s0.res.dtor_pieces ∧
      (∀ k, k < ops.length → ∃ s', run_handles (ops.take k) s0 = some s' ∧
        1 ≤ s'.use_count ∧ s'.out = s0.out) := by
  induction ops with
  | nil =>
    intro s0 s hpos hrun hzero
    simp only [run_handles, Option.some.injEq] at hrun
    subst hrun
    omega
  | cons op ops ih =>
    intro s0 s hpos hrun hzero
    simp only [run_handles] at hrun
    cases hop : op.apply s0 with
    | none => simp [hop] at hrun
    | some s1 =>
      simp only [hop] at hrun
      by_cases h1 : s1.use_count = 0
      · have hnil := run_handles_dead h1 hrun
        subst hnil
        simp only [run_handles, Option.some.injEq] at hrun
        subst hrun
        obtain ⟨hd, hone, hout⟩ := HandleOp.apply_last hop h1
        subst hd
        refine ⟨⟨[], s0, rfl, rfl, hone, rfl⟩, hout, ?_⟩
        intro k hk
        have hk0 : k = 0 := by simpa using hk
        subst hk0
        exact ⟨s0, rfl, hpos, rfl⟩
      · have hpos1 : 1 ≤ s1.use_count := by omega
        obtain ⟨_, hout1, hres1⟩ := HandleOp.apply_alive hop hpos1
        obtain ⟨⟨pre, s2, hops, hpre, hone, hout2⟩, hfin, hall⟩ := ih s1 s hpos1 hrun hzero
        refine ⟨⟨op :: pre, s2, by simp [hops], by simp [run_handles, hop, hpre], hone,
          by rw [hout2, hout1]⟩, by rw [hfin, hout1, hres1], ?_⟩
        intro k hk
        cases k with
        | zero => exact ⟨s0, rfl, hpos, rfl⟩
        | succ k =>
          obtain ⟨s', hs', hp', ho'⟩ := hall k (by simpa using hk)
          exact ⟨s', by simp [run_handles, hop, hs'], hp', by rw [ho', hout1]⟩

/-- C1.  Take any finite sequence of handle acquisitions and handle drops on one
`HeavyResource` that starts with the single creating handle and ends with no
handle left.  Then the sequence ends with a drop performed at reference count 1;
before every one of its operations a handle exists and nothing has been printed
since the creation (the release has not fired); and at the end the output is
the output at creation followed by the destructor line, once: the release fires
exactly once, at the drop that takes the count from 1 to 0. -/
theorem release_exactly_once_at_last_drop (n : String) (out0 : Output)
    (ops : List HandleOp) (s : Shared)
    (hrun : run_handles ops (Shared.make n out0) = some s) (hzero : s.use_count = 0) :
    (∃ pre s1, ops = pre ++ [HandleOp.drop] ∧
      run_handles pre (Shared.make n out0) = some s1 ∧ s1.use_count = 1 ∧
      s1.out = (Shared.make n out0).out) ∧
    s.out = (Shared.make n out0).out ++
      ["[Resource] Destructor: ", n, " closed and released.\n"] ∧
    (∀ k, k < ops.length → ∃ s', run_handles (ops.take k) (Shared.make n out0) = some s' ∧
      1 ≤ s'.use_count ∧ s'.out = (Shared.make n out0).out) :=
  run_handles_release ops (Shared.make n out0) s (by simp [Shared.make]) hrun hzero

/-- Witness of C1: create, copy twice, drop three times. -/
theorem release_exactly_once_at_last_drop_witness :
    ∃ s, run_handles [.acquire, .acquire, .drop, .drop, .drop] (Shared.make "R" []) = some s ∧
      s.use_count = 0 ∧
      s.out = ["[Resource] Constructor: ", "R", " opened.\n",
        "[Resource] Destructor: ", "R", " closed and released.\n"] :=
  ⟨_, rfl, rfl,
    (release_exactly_once_at_last_drop "R" [] [.acquire, .acquire, .drop, .drop, .drop]
      _ rfl rfl).2.1⟩

/-! ## `shared_ptr_management` -/

theorem shared_ptr_management_spec (s : Shared) (hpos : 1 ≤ s.use_count) :
    shared_ptr_management s = some { s with out := s.out ++
      (["[Resource] Operating on ", s.res.name, "...\n"] ++
       ["  (SharedPtr demo) Temporary reference count: ", toString (s.use_count + 1), "\n"]) } := by
  have h0 : s.use_count ≠ 0 := by omega
  simp [shared_ptr_management, Shared.acquire, Shared.drop, h0,
    HeavyResource.performOperation, HeavyResource.performOperation_pieces]

/-! ## The scoped lock, from one thread -/

theorem access_resource_with_mutex_using_spec (op : Output → Output × Option String)
    (thread_name : String) (g : Gated) (hfree : g.locked = false) (hpos : 1 ≤ g.sh.use_count) :
    ∃ g' e, access_resource_with_mutex_using op thread_name g = some (g', e) ∧
      g'.locked = false ∧ g'.sh.use_count = g.sh.use_count ∧ g'.sh.res = g.sh.res ∧
      (e = Exit.returned ↔ (op (g.sh.out ++ locked_pieces thread_name)).2 = none) ∧
      g'.sh.out = (op (g.sh.out ++ locked_pieces thread_name)).1 ++
        (if (op (g.sh.out ++ locked_pieces thread_name)).2 = none
          then unlocked_pieces thread_name else []) := by
  have h0 : g.sh.use_count ≠ 0 := by omega
  simp only [access_resource_with_mutex_using, Shared.acquire, h0, if_false, Gated.lock, hfree]
  rcases hop : op (g.sh.out ++ locked_pieces thread_name) with ⟨out2, _ | e⟩
  · simp [hop, Gated.unlock, Shared.drop, h0]
    exact ⟨_, _, ⟨rfl, rfl⟩, rfl, rfl, rfl, rfl, rfl⟩
  · simp [hop, Gated.unlock, Shared.drop, h0]
    exact ⟨_, _, ⟨rfl, rfl⟩, rfl, rfl, rfl, by simp, rfl⟩

end Main2

namespace Main2

/-! ## The steps of the threads -/

theorem sum_map_set {α : Type} (f : α → Nat) :
    ∀ (l : List α) (t : Nat) (x c : α), l[t]? = some c →
      ((l.set t x).map f).sum + f c = (l.map f).sum + f x := by
  intro l
  induction l with
  | nil => intro t x c h; simp at h
  | cons a l ih =>
    intro t x c h
    cases t with
    | zero =>
      simp only [List.getElem?_cons_zero, Option.some.injEq] at h
      subst h
      simp only [List.set_cons_zero, List.map_cons, List.sum_cons]
      omega
    | succ t =>
      simp only [List.getElem?_cons_succ] at h
      have := ih t x c h
      simp only [List.set_cons_succ, List.map_cons, List.sum_cons]
      omega

/-- The possible steps of a thread, one case for each kind of action. -/
theorem step_cases {t : Nat} {s s' : State} (h : step t s = some s') :
    ∃ a rest, s.threads[t]? = some (a :: rest) ∧
      ((∃ p, a = Action.write p ∧
          s' = { s with out := s.out ++ [p], threads := s.threads.set t rest }) ∨
       (a = Action.lock ∧ s.global_mutex = none ∧
          s' = { s with global_mutex := some t, threads := s.threads.set t rest }) ∨
       (a = Action.unlock ∧ s.global_mutex = some t ∧
          s' = { s with global_mutex := none, threads := s.threads.set t rest }) ∨
       (a = Action.release_handle ∧ s.use_count = 1 ∧
          s' = { s with use_count := 0,
                        threads := s.threads.set t (s.res.dtor_pieces.map Action.write ++ rest) }) ∨
       (a = Action.release_handle ∧ 2 ≤ s.use_count ∧
          s' = { s with use_count := s.use_count - 1, threads := s.threads.set t rest }) ∨
       (∃ f n, a = Action.spawn f n ∧ 1 ≤ s.use_count ∧
          s' = { s with use_count := s.use_count + 1,
                        threads := s.threads.set t rest ++ [f.body s.res n] }) ∨
       (∃ k, a = Action.join k ∧ s.threads[k]? = some [] ∧
          s' = { s with threads := s.threads.set t rest })) := by
  unfold step at h
  cases hc : s.threads[t]? with
  | none => simp [hc] at h
  | some c =>
    cases c with
    | nil => simp [hc] at h
    | cons a rest =>
      refine ⟨a, rest, rfl, ?_⟩
      simp only [hc] at h
      cases a with
      | write p =>
        simp only [Option.some.injEq] at h
        exact Or.inl ⟨p, rfl, h.symm⟩
      | lock =>
        simp only [] at h
        split at h
        · simp only [Option.some.injEq] at h
          exact Or.inr (Or.inl ⟨rfl, by assumption, h.symm⟩)
        · cases h
      | unlock =>
        simp only [] at h
        split at h
        · simp only [Option.some.injEq] at h
          exact Or.inr (Or.inr (Or.inl ⟨rfl, by assumption, h.symm⟩))
        · cases h
      | release_handle =>
        simp only [] at h
        split at h
        · cases h
        · split at h
          · simp only [Option.some.injEq] at h
            exact Or.inr (Or.inr (Or.inr (Or.inl ⟨rfl, by assumption, h.symm⟩)))
          · simp only [Option.some.injEq] at h
            exact Or.inr (Or.inr (Or.inr (Or.inr (Or.inl ⟨rfl, by omega, h.symm⟩))))
      | spawn f n =>
        simp only [] at h
        split at h
        · cases h
        · simp only [Option.some.injEq] at h
          exact Or.inr (Or.inr (Or.inr (Or.inr (Or.inr (Or.inl ⟨f, n, rfl, by omega, h.symm⟩)))))
      | join k =>
        simp only [] at h
        split at h
        · simp only [Option.some.injEq] at h
          exact Or.inr (Or.inr (Or.inr (Or.inr (Or.inr (Or.inr ⟨k, rfl, by assumption, h.symm⟩)))))
        · cases h

theorem step_res {t : Nat} {s s' : State} (h : step t s = some s') : s'.res = s.res := by
  obtain ⟨a, rest, _, h | h | h | h | h | h | h⟩ := step_cases h
  · obtain ⟨p, _, rfl⟩ := h; rfl
  · obtain ⟨_, _, rfl⟩ := h; rfl
  · obtain ⟨_, _, rfl⟩ := h; rfl
  · obtain ⟨_, _, rfl⟩ := h; rfl
  · obtain ⟨_, _, rfl⟩ := h; rfl
  · obtain ⟨f, n, _, _, rfl⟩ := h; rfl
  · obtain ⟨k, _, _, rfl⟩ := h; rfl

/-- An induction principle for the states reached by an interleaving. -/
theorem run_induction (P : State → Prop)
    (hstep : ∀ t s s', P s → step t s = some s' → P s') :
    ∀ (sched : List Nat) (s s' : State), P s → run sched s = some s' → P s' := by
  intro sched
  induction sched with
  | nil =>
    intro s s' hP h
    simp only [run, Option.some.injEq] at h
    exact h ▸ hP
  | cons t ts ih =>
    intro s s' hP h
    simp only [run] at h
    cases hs : step t s with
    | none => simp [hs] at h
    | some s1 =>
      simp only [hs] at h
      exact ih s1 s' (hstep t s s1 hP hs) h

theorem getElem?_set_cases {α : Type} {l : List α} {t t' : Nat} {x c : α}
    (h : (l.set t x)[t']? = some c) :
    (t' = t ∧ c = x ∧ t < l.length) ∨ (t' ≠ t ∧ l[t']? = some c) := by
  by_cases htt : t = t'
  · subst htt
    by_cases hlt : t < l.length
    · rw [List.getElem?_set_self hlt] at h
      exact Or.inl ⟨rfl, by simpa using h.symm, hlt⟩
    · rw [List.getElem?_eq_none (by simpa using hlt)] at h
      cases h
  · rw [List.getElem?_set_ne htt] at h
    exact Or.inr ⟨fun e => htt e.symm, h⟩

theorem getElem?_append_one_cases {α : Type} {l : List α} {t : Nat} {b c : α}
    (h : (l ++ [b])[t]? = some c) : l[t]? = some c ∨ (t = l.length ∧ c = b) := by
  by_cases hlt : t < l.length
  · rw [List.getElem?_append_left hlt] at h
    exact Or.inl h
  · rw [List.getElem?_append_right (by omega)] at h
    by_cases he : t = l.length
    · subst he
      simp at h
      exact Or.inr ⟨rfl, h.symm⟩
    · have : t - l.length ≠ 0 := by omega
      obtain ⟨m, hm⟩ := Nat.exists_eq_succ_of_ne_zero this
      rw [hm] at h
      simp at h

theorem getElem?_lt {α : Type} {l : List α} {t : Nat} {c : α} (h : l[t]? = some c) :
    t < l.length := by
  by_contra hlt
  rw [List.getElem?_eq_none (by omega)] at h
  cases h

/-! ## The lock discipline -/

theorem in_critical_section_cons (a : Action) (r : List Action)
    (h1 : a ≠ Action.lock) (h2 : a ≠ Action.unlock) :
    in_critical_section (a :: r) = in_critical_section r := by
  cases a <;> simp_all [in_critical_section, List.contains_cons]

theorem in_critical_section_writes (ps : List String) (r : List Action) :
    in_critical_section (ps.map Action.write ++ r) = in_critical_section r := by
  induction ps with
  | nil => rfl
  | cons p ps ih =>
    simp only [List.map_cons, List.cons_append]
    rw [in_critical_section_cons _ _ (by simp) (by simp), ih]

theorem lock_ok_of_none (r : List Action) (h1 : r.contains Action.unlock = false)
    (h2 : r.contains Action.lock = false) : lock_ok r = true := by
  induction r with
  | nil => rfl
  | cons a r ih =>
    simp only [List.contains_cons, Bool.or_eq_false_iff] at h1 h2
    cases a <;> simp_all [lock_ok]

theorem lock_ok_tail (a : Action) (r : List Action) (h : lock_ok (a :: r) = true) :
    lock_ok r = true := by
  cases a with
  | unlock =>
    simp only [lock_ok, Bool.and_eq_true, Bool.not_eq_true'] at h
    exact lock_ok_of_none r h.1 h.2
  | lock =>
    simp only [lock_ok, Bool.and_eq_true] at h
    exact h.2
  | write p => exact h
  | release_handle => exact h
  | spawn f n => exact h
  | join k => exact h

theorem lock_ok_writes (ps : List String) (r : List Action) (h : lock_ok r = true) :
    lock_ok (ps.map Action.write ++ r) = true := by
  induction ps with
  | nil => exact h
  | cons p ps ih => simpa [lock_ok] using ih

theorem body_lock_ok (r : HeavyResource) (n : String) (f : Entry) :
    lock_ok (f.body r n) = true ∧ in_critical_section (f.body r n) = false := by
  cases f <;>
    simp [Entry.body, critical_pieces, locked_pieces, unlocked_pieces, warning_start_pieces,
      warning_finish_pieces, HeavyResource.performOperation_pieces, lock_ok,
      in_critical_section]

/-- Every step keeps the invariant of the mutex. -/
theorem MutexInv_step (t : Nat) (s s' : State) (hinv : MutexInv s)
    (h : step t s = some s') : MutexInv s' := by
  obtain ⟨hthr, hown⟩ := hinv
  obtain ⟨a, rest, hc, h⟩ := step_cases h
  have hlt := getElem?_lt hc
  obtain ⟨hok, hiff⟩ := hthr t _ hc
  have hokr := lock_ok_tail a rest hok
  -- the steps that touch neither the mutex nor the list of threads beyond `set`
  have plain : ∀ (s1 : State), s1.global_mutex = s.global_mutex → s1.threads = s.threads.set t rest →
      a ≠ Action.lock → a ≠ Action.unlock → MutexInv s1 := by
    intro s1 hm ht h1 h2
    refine ⟨?_, ?_⟩
    · intro t' c' hc'
      rw [ht] at hc'
      rcases getElem?_set_cases hc' with ⟨rfl, rfl, _⟩ | ⟨_, hc''⟩
      · rw [hm, ← hiff, in_critical_section_cons a _ h1 h2]
        exact ⟨hokr, Iff.rfl⟩
      · rw [hm]; exact hthr t' c' hc''
    · intro t' ht'
      rw [ht, List.length_set]
      exact hown t' (hm ▸ ht')
  rcases h with h | h | h | h | h | h | h
  · obtain ⟨p, rfl, rfl⟩ := h
    exact plain _ rfl rfl (by simp) (by simp)
  · obtain ⟨rfl, hfree, rfl⟩ := h
    refine ⟨?_, ?_⟩
    · intro t' c' hc'
      rcases getElem?_set_cases hc' with ⟨rfl, rfl, _⟩ | ⟨hne, hc''⟩
      · simp only [lock_ok, Bool.and_eq_true] at hok
        exact ⟨hokr, by simp [hok.1]⟩
      · obtain ⟨hok', hiff'⟩ := hthr t' c' hc''
        refine ⟨hok', ?_⟩
        rw [hiff', hfree]
        simp [Ne.symm hne]
    · intro t' ht'
      simp only [Option.some.injEq] at ht'
      subst ht'
      simpa using hlt
  · obtain ⟨rfl, hmine, rfl⟩ := h
    refine ⟨?_, ?_⟩
    · intro t' c' hc'
      rcases getElem?_set_cases hc' with ⟨rfl, rfl, _⟩ | ⟨hne, hc''⟩
      · simp only [lock_ok, Bool.and_eq_true, Bool.not_eq_true'] at hok
        refine ⟨hokr, ?_⟩
        unfold in_critical_section
        rw [hok.1]
        simp
      · obtain ⟨hok', hiff'⟩ := hthr t' c' hc''
        refine ⟨hok', ?_⟩
        rw [hiff', hmine]
        simp [Ne.symm hne]
    · intro t' ht'
      cases ht'
  · obtain ⟨rfl, _, rfl⟩ := h
    refine ⟨?_, ?_⟩
    · intro t' c' hc'
      rcases getElem?_set_cases hc' with ⟨rfl, rfl, _⟩ | ⟨_, hc''⟩
      · refine ⟨lock_ok_writes _ _ hokr, ?_⟩
        rw [in_critical_section_writes, ← hiff,
          in_critical_section_cons Action.release_handle _ (by simp) (by simp)]
      · exact hthr t' c' hc''
    · intro t' ht'
      simp only [List.length_set]
      exact hown t' ht'
  · obtain ⟨rfl, _, rfl⟩ := h
    exact plain _ rfl rfl (by simp) (by simp)
  · obtain ⟨f, n, rfl, _, rfl⟩ := h
    refine ⟨?_, ?_⟩
    · intro t' c' hc'
      rcases getElem?_append_one_cases hc' with hc1 | ⟨ht', rfl⟩
      · rcases getElem?_set_cases hc1 with ⟨rfl, rfl, _⟩ | ⟨_, hc''⟩
        · refine ⟨hokr, ?_⟩
          rw [← hiff, in_critical_section_cons (Action.spawn f n) _ (by simp) (by simp)]
        · exact hthr t' c' hc''
      · refine ⟨(body_lock_ok _ _ _).1, ?_⟩
        rw [(body_lock_ok _ _ _).2]
        simp only [Bool.false_eq_true, false_iff]
        intro hm
        have := hown t' hm
        simp only [List.length_set] at ht'
        omega
    · intro t' ht'
      simp only [List.length_append, List.length_set, List.length_singleton]
      have := hown t' ht'
      omega
  · obtain ⟨k, rfl, _, rfl⟩ := h
    exact plain _ rfl rfl (by simp) (by simp)

theorem MutexInv_run (sched : List Nat) (s s' : State) (hinv : MutexInv s)
    (h : run sched s = some s') : MutexInv s' :=
  run_induction MutexInv MutexInv_step sched s s' hinv h

theorem filter_length_le_one {α : Type} (p : α → Bool) :
    ∀ (l : List α), (∀ (i j : Nat) (c d : α), l[i]? = some c → l[j]? = some d → p c = true → p d = true →
      i = j) → (l.filter p).length ≤ 1 := by
  intro l
  induction l with
  | nil => intro _; simp
  | cons a l ih =>
    intro h
    by_cases hp : p a = true
    · have hnil : l.filter p = [] := by
        rw [List.filter_eq_nil_iff]
        intro d hd hpd
        obtain ⟨j, hj⟩ := List.mem_iff_getElem?.mp hd
        have h0 : (a :: l)[0]? = some a := by simp
        have hj' : (a :: l)[j + 1]? = some d := by simpa using hj
        have := h 0 (j + 1) a d h0 hj' hp hpd
        omega
      simp [List.filter_cons, hp, hnil]
    · have hrec := ih (fun i j c d hi hj hc hd => by
        have hi' : (a :: l)[i + 1]? = some c := by simpa using hi
        have hj' : (a :: l)[j + 1]? = some d := by simpa using hj
        have := h (i + 1) (j + 1) c d hi' hj' hc hd
        omega)
      simpa [List.filter_cons, hp] using hrec

/-- Under the invariant of the mutex at most one thread is inside its critical section. -/
theorem locked_count_le_one (s : State) (hinv : MutexInv s) : locked_count s ≤ 1 := by
  obtain ⟨hthr, _⟩ := hinv
  apply filter_length_le_one
  intro i j c d hi hj hc hd
  have h1 := (hthr i c hi).2.mp hc
  have h2 := (hthr j d hj).2.mp hd
  rw [h1] at h2
  simpa using h2

/-! ## Weights -/

theorem weight_of_cons (w : Action → Nat) (a : Action) (r : List Action) :
    weight_of w (a :: r) = w a + weight_of w r := by
  simp [weight_of]

theorem weight_of_append (w : Action → Nat) (c d : List Action) :
    weight_of w (c ++ d) = weight_of w c + weight_of w d := by
  simp [weight_of]

theorem total_set (w : Action → Nat) (l : List (List Action)) (t : Nat) (a : Action)
    (rest x : List Action) (hc : l[t]? = some (a :: rest)) :
    ((l.set t x).map (weight_of w)).sum + (w a + weight_of w rest)
      = (l.map (weight_of w)).sum + weight_of w x := by
  have := sum_map_set (weight_of w) l t x (a :: rest) hc
  rw [weight_of_cons] at this
  exact this

/-- The effect of a step on the total weight. -/
theorem total_step (w : Action → Nat) {t : Nat} {s s' : State} (h : step t s = some s') :
    ∃ a rest, s.threads[t]? = some (a :: rest) ∧
      ((a = Action.release_handle ∧ s.use_count = 1 ∧ s'.use_count = 0 ∧ s'.out = s.out ∧
          total w s' + w a = total w s + weight_of w (s.res.dtor_pieces.map Action.write)) ∨
       (a = Action.release_handle ∧ 2 ≤ s.use_count ∧ s'.use_count = s.use_count - 1 ∧
          s'.out = s.out ∧ total w s' + w a = total w s) ∨
       (∃ f n, a = Action.spawn f n ∧ 1 ≤ s.use_count ∧ s'.use_count = s.use_count + 1 ∧
          s'.out = s.out ∧ total w s' + w a = total w s + weight_of w (f.body s.res n)) ∨
       (∃ p, a = Action.write p ∧ s'.use_count = s.use_count ∧ s'.out = s.out ++ [p] ∧
          total w s' + w a = total w s) ∨
       ((a = Action.lock ∨ a = Action.unlock ∨ ∃ k, a = Action.join k) ∧
          s'.use_count = s.use_count ∧ s'.out = s.out ∧ total w s' + w a = total w s)) := by
  obtain ⟨a, rest, hc, h⟩ := step_cases h
  refine ⟨a, rest, hc, ?_⟩
  have key := fun x => total_set w s.threads t a rest x hc
  rcases h with h | h | h | h | h | h | h
  · obtain ⟨p, rfl, rfl⟩ := h
    refine Or.inr (Or.inr (Or.inr (Or.inl ⟨p, rfl, rfl, rfl, ?_⟩)))
    have := key rest
    simp only [total]; omega
  · obtain ⟨rfl, _, rfl⟩ := h
    refine Or.inr (Or.inr (Or.inr (Or.inr ⟨Or.inl rfl, rfl, rfl, ?_⟩)))
    have := key rest
    simp only [total]; omega
  · obtain ⟨rfl, _, rfl⟩ := h
    refine Or.inr (Or.inr (Or.inr (Or.inr ⟨Or.inr (Or.inl rfl), rfl, rfl, ?_⟩)))
    have := key rest
    simp only [total]; omega
  · obtain ⟨rfl, h1, rfl⟩ := h
    refine Or.inl ⟨rfl, h1, rfl, rfl, ?_⟩
    have := key (s.res.dtor_pieces.map Action.write ++ rest)
    rw [weight_of_append] at this
    simp only [total]; omega
  · obtain ⟨rfl, h2, rfl⟩ := h
    refine Or.inr (Or.inl ⟨rfl, h2, rfl, rfl, ?_⟩)
    have := key rest
    simp only [total]; omega
  · obtain ⟨f, n, rfl, h1, rfl⟩ := h
    refine Or.inr (Or.inr (Or.inl ⟨f, n, rfl, h1, rfl, rfl, ?_⟩))
    have := key rest
    simp only [total, List.map_append, List.sum_append, List.map_cons, List.map_nil,
      List.sum_cons, List.sum_nil]
    omega
  · obtain ⟨k, rfl, _, rfl⟩ := h
    refine Or.inr (Or.inr (Or.inr (Or.inr ⟨Or.inr (Or.inr ⟨k, rfl⟩), rfl, rfl, ?_⟩)))
    have := key rest
    simp only [total]; omega

theorem handle_weight_body (r : HeavyResource) (n : String) (f : Entry) :
    weight_of handle_weight (f.body r n) = 1 := by
  cases f <;>
    simp [Entry.body, critical_pieces, locked_pieces, unlocked_pieces, warning_start_pieces,
      warning_finish_pieces, HeavyResource.performOperation_pieces, weight_of, handle_weight]

theorem handle_weight_writes (ps : List String) :
    weight_of handle_weight (ps.map Action.write) = 0 := by
  induction ps with
  | nil => rfl
  | cons p ps ih => simp [weight_of_cons, handle_weight, ih]

/-- The handles are counted correctly: if `use_count` is the number of handles
held by the threads plus `owners`, it is so after every step. -/
theorem handles_step (owners : Nat) (t : Nat) (s s' : State)
    (hinv : s.use_count = owners + total handle_weight s) (h : step t s = some s') :
    s'.use_count = owners + total handle_weight s' := by
  obtain ⟨a, rest, _, h⟩ := total_step handle_weight h
  rcases h with ⟨rfl, h1, h0, _, ht⟩ | ⟨rfl, _, hu, _, ht⟩ | ⟨f, n, rfl, _, hu, _, ht⟩ |
    ⟨p, rfl, hu, _, ht⟩ | ⟨ha, hu, _, ht⟩
  · rw [handle_weight_writes] at ht
    simp only [handle_weight] at ht
    omega
  · simp only [handle_weight] at ht
    omega
  · rw [handle_weight_body] at ht
    simp only [handle_weight] at ht
    omega
  · simp only [handle_weight] at ht
    omega
  · rcases ha with rfl | rfl | ⟨k, rfl⟩ <;> simp only [handle_weight] at ht <;> omega

theorem step_weight_body (r : HeavyResource) (n : String) (f : Entry) :
    weight_of step_weight (f.body r n) + 1 = step_weight (Action.spawn f n) := by
  cases f <;>
    simp [Entry.body, critical_pieces, locked_pieces, unlocked_pieces, warning_start_pieces,
      warning_finish_pieces, HeavyResource.performOperation_pieces, weight_of, step_weight]

/-- Every step takes exactly one from the number of steps left: no interleaving
is infinite. -/
theorem steps_left_step (t : Nat) (s s' : State) (h : step t s = some s') :
    steps_left s' + 1 = steps_left s := by
  obtain ⟨a, rest, _, h⟩ := total_step step_weight h
  unfold steps_left
  rcases h with ⟨rfl, h1, h0, _, ht⟩ | ⟨rfl, h2, hu, _, ht⟩ | ⟨f, n, rfl, h1, hu, _, ht⟩ |
    ⟨p, rfl, hu, _, ht⟩ | ⟨ha, hu, _, ht⟩
  · have : weight_of step_weight (s.res.dtor_pieces.map Action.write) = 3 := by
      simp [HeavyResource.dtor_pieces, weight_of, step_weight]
    simp only [step_weight] at ht
    simp only [h0, h1, if_true, one_ne_zero, if_false]
    omega
  · simp only [step_weight] at ht
    have e1 : ¬ s'.use_count = 0 := by omega
    have e2 : ¬ s.use_count = 0 := by omega
    simp only [e1, e2, if_false]
    omega
  · have := step_weight_body s.res n f
    have e1 : ¬ s'.use_count = 0 := by omega
    have e2 : ¬ s.use_count = 0 := by omega
    simp only [e1, e2, if_false]
    omega
  · simp only [step_weight] at ht
    rw [hu]
    omega
  · have hw : step_weight a = 1 := by
      rcases ha with rfl | rfl | ⟨k, rfl⟩ <;> rfl
    rw [hu]
    omega

theorem run_length (sched : List Nat) :
    ∀ (s s' : State), run sched s = some s' →
      sched.length + steps_left s' = steps_left s := by
  induction sched with
  | nil =>
    intro s s' h
    simp only [run, Option.some.injEq] at h
    subst h
    simp
  | cons t ts ih =>
    intro s s' h
    simp only [run] at h
    cases hs : step t s with
    | none => simp [hs] at h
    | some s1 =>
      simp only [hs] at h
      have h1 := steps_left_step t s s1 hs
      have h2 := ih s1 s' h
      simp only [List.length_cons]
      omega

/-! ## A pool of threads that all use the mutex -/

theorem weight_le_total (w : Action → Nat) :
    ∀ (l : List (List Action)) (t : Nat) (c : List Action), l[t]? = some c →
      weight_of w c ≤ (l.map (weight_of w)).sum := by
  intro l
  induction l with
  | nil => intro t c h; simp at h
  | cons a l ih =>
    intro t c h
    cases t with
    | zero =>
      simp only [List.getElem?_cons_zero, Option.some.injEq] at h
      subst h
      simp
    | succ t =>
      simp only [List.getElem?_cons_succ] at h
      have := ih t c h
      simp only [List.map_cons, List.sum_cons]
      omega

theorem pool_body_facts (r : HeavyResource) (n : String) (i : Nat) (hi : i ≤ 12) :
    (in_critical_section ((Entry.access_resource_with_mutex.body r n).drop i) = true ↔ (1 ≤ i ∧ i ≤ 10)) ∧
    (i ≤ 11 → weight_of handle_weight ((Entry.access_resource_with_mutex.body r n).drop i) = 1) := by
  interval_cases i <;>
    simp [Entry.body, critical_pieces, locked_pieces, unlocked_pieces,
      HeavyResource.performOperation_pieces, in_critical_section, weight_of, handle_weight]

theorem pool_dtor_facts (r : HeavyResource) (j : Nat) :
    in_critical_section ((r.dtor_pieces.map Action.write).drop j) = false := by
  rcases Nat.lt_or_ge j 4 with hj | hj
  · interval_cases j <;> simp [HeavyResource.dtor_pieces, in_critical_section]
  · rw [List.drop_eq_nil_of_le (by simp [HeavyResource.dtor_pieces]; omega)]
    rfl

theorem suffix_snoc {α : Type} {l1 l2 : List α} (x : List α) (h : l1 <:+ l2) :
    l1 ++ x <:+ l2 ++ x := by
  obtain ⟨pre, rfl⟩ := h
  exact ⟨pre, by simp⟩

/-- After its step, the thread that took it is again at a place of
`access_resource_with_mutex`, or in the destructor of the resource. -/
theorem pool_self_step (r : HeavyResource) (n : String) (t : Nat) (s s' : State)
    (hres : s.res = r) (a : Action) (rest : List Action)
    (hc : s.threads[t]? = some (a :: rest))
    (hme : pool_thread_ok r n s (a :: rest)) (h : step t s = some s') :
    ∃ x, s'.threads = s.threads.set t x ∧ pool_thread_ok r n s' x := by
  obtain ⟨a', rest', hc', hcase⟩ := step_cases h
  rw [hc] at hc'
  simp only [Option.some.injEq, List.cons.injEq] at hc'
  obtain ⟨rfl, rfl⟩ := hc'
  rcases hme with ⟨i, hi, heq, hsuf⟩ | ⟨j, hj, heq, hzero⟩
  · interval_cases i
    · simp [Entry.body, critical_pieces, locked_pieces, unlocked_pieces,
        HeavyResource.performOperation_pieces] at heq
      obtain ⟨rfl, rfl⟩ := heq
      simp at hcase
      obtain ⟨-, rfl⟩ := hcase
      exact ⟨_, rfl, Or.inl ⟨1, by omega, by simp [Entry.body, critical_pieces, locked_pieces, unlocked_pieces,
        HeavyResource.performOperation_pieces], by simp⟩⟩
    · simp [Entry.body, critical_pieces, locked_pieces, unlocked_pieces,
        HeavyResource.performOperation_pieces] at heq
      obtain ⟨rfl, rfl⟩ := heq
      simp at hcase
      subst hcase
      refine ⟨_, rfl, Or.inl ⟨2, by omega, by simp [Entry.body, critical_pieces, locked_pieces, unlocked_pieces,
        HeavyResource.performOperation_pieces], ?_⟩⟩
      intro _ _
      simp [Entry.body, critical_pieces, locked_pieces, unlocked_pieces,
        HeavyResource.performOperation_pieces]
    · simp [Entry.body, critical_pieces, locked_pieces, unlocked_pieces,
        HeavyResource.performOperation_pieces] at heq
      obtain ⟨rfl, rfl⟩ := heq
      simp at hcase
      subst hcase
      refine ⟨_, rfl, Or.inl ⟨3, by omega, by simp [Entry.body, critical_pieces, locked_pieces, unlocked_pieces,
        HeavyResource.performOperation_pieces], ?_⟩⟩
      intro _ _
      have h0 := suffix_snoc [((critical_pieces r n).drop 1).headD ""] (hsuf (by omega) (by omega))
      simpa [Entry.body, critical_pieces, locked_pieces, unlocked_pieces,
        HeavyResource.performOperation_pieces] using h0
    · simp [Entry.body, critical_pieces, locked_pieces, unlocked_pieces,
        HeavyResource.performOperation_pieces] at heq
      obtain ⟨rfl, rfl⟩ := heq
      simp at hcase
      subst hcase
      refine ⟨_, rfl, Or.inl ⟨4, by omega, by simp [Entry.body, critical_pieces, locked_pieces, unlocked_pieces,
        HeavyResource.performOperation_pieces], ?_⟩⟩
      intro _ _
      have h0 := suffix_snoc [((critical_pieces r n).drop 2).headD ""] (hsuf (by omega) (by omega))
      simpa [Entry.body, critical_pieces, locked_pieces, unlocked_pieces,
        HeavyResource.performOperation_pieces] using h0
    · simp [Entry.body, critical_pieces, locked_pieces, unlocked_pieces,
        HeavyResource.performOperation_pieces] at heq
      obtain ⟨rfl, rfl⟩ := heq
      simp at hcase
      subst hcase
      refine ⟨_, rfl, Or.inl ⟨5, by omega, by simp [Entry.body, critical_pieces, locked_pieces, unlocked_pieces,
        HeavyResource.performOperation_pieces], ?_⟩⟩
      intro _ _
      have h0 := suffix_snoc [((critical_pieces r n).drop 3).headD ""] (hsuf (by omega) (by omega))
      simpa [Entry.body, critical_pieces, locked_pieces, unlocked_pieces,
        HeavyResource.performOperation_pieces] using h0
    · simp [Entry.body, critical_pieces, locked_pieces, unlocked_pieces,
        HeavyResource.performOperation_pieces] at heq
      obtain ⟨rfl, rfl⟩ := heq
      simp at hcase
      subst hcase
      refine ⟨_, rfl, Or.inl ⟨6, by omega, by simp [Entry.body, critical_pieces, locked_pieces, unlocked_pieces,
        HeavyResource.performOperation_pieces], ?_⟩⟩
      intro _ _
      have h0 := suffix_snoc [((critical_pieces r n).drop 4).headD ""] (hsuf (by omega) (by omega))
      simpa [Entry.body, critical_pieces, locked_pieces, unlocked_pieces,
        HeavyResource.performOperation_pieces] using h0
    · simp [Entry.body, critical_pieces, locked_pieces, unlocked_pieces,
        HeavyResource.performOperation_pieces] at heq
      obtain ⟨rfl, rfl⟩ := heq
      simp at hcase
      subst hcase
      refine ⟨_, rfl, Or.inl ⟨7, by omega, by simp [Entry.body, critical_pieces, locked_pieces, unlocked_pieces,
        HeavyResource.performOperation_pieces], ?_⟩⟩
      intro _ _
      have h0 := suffix_snoc [((critical_pieces r n).drop 5).headD ""] (hsuf (by omega) (by omega))
      simpa [Entry.body, critical_pieces, locked_pieces, unlocked_pieces,
        HeavyResource.performOperation_pieces] using h0
    · simp [Entry.body, critical_pieces, locked_pieces, unlocked_pieces,
        HeavyResource.performOperation_pieces] at heq
      obtain ⟨rfl, rfl⟩ := heq
      simp at hcase
      subst hcase
      refine ⟨_, rfl, Or.inl ⟨8, by omega, by simp [Entry.body, critical_pieces, locked_pieces, unlocked_pieces,
        HeavyResource.performOperation_pieces], ?_⟩⟩
      intro _ _
      have h0 := suffix_snoc [((critical_pieces r n).drop 6).headD ""] (hsuf (by omega) (by omega))
      simpa [Entry.body, critical_pieces, locked_pieces, unlocked_pieces,
        HeavyResource.performOperation_pieces] using h0
    · simp [Entry.body, critical_pieces, locked_pieces, unlocked_pieces,
        HeavyResource.performOperation_pieces] at heq
      obtain ⟨rfl, rfl⟩ := heq
      simp at hcase
      subst hcase
      refine ⟨_, rfl, Or.inl ⟨9, by omega, by simp [Entry.body, critical_pieces, locked_pieces, unlocked_pieces,
        HeavyResource.performOperation_pieces], ?_⟩⟩
      intro _ _
      have h0 := suffix_snoc [((critical_pieces r n).drop 7).headD ""] (hsuf (by omega) (by omega))
      simpa [Entry.body, critical_pieces, locked_pieces, unlocked_pieces,
        HeavyResource.performOperation_pieces] using h0
    · simp [Entry.body, critical_pieces, locked_pieces, unlocked_pieces,
        HeavyResource.performOperation_pieces] at heq
      obtain ⟨rfl, rfl⟩ := heq
      simp at hcase
      subst hcase
      refine ⟨_, rfl, Or.inl ⟨10, by omega, by simp [Entry.body, critical_pieces, locked_pieces, unlocked_pieces,
        HeavyResource.performOperation_pieces], ?_⟩⟩
      intro _ _
      have h0 := suffix_snoc [((critical_pieces r n).drop 8).headD ""] (hsuf (by omega) (by omega))
      simpa [Entry.body, critical_pieces, locked_pieces, unlocked_pieces,
        HeavyResource.performOperation_pieces] using h0
    · simp [Entry.body, critical_pieces, locked_pieces, unlocked_pieces,
        HeavyResource.performOperation_pieces] at heq
      obtain ⟨rfl, rfl⟩ := heq
      simp at hcase
      obtain ⟨-, rfl⟩ := hcase
      exact ⟨_, rfl, Or.inl ⟨11, by omega, by simp [Entry.body, critical_pieces, locked_pieces, unlocked_pieces,
        HeavyResource.performOperation_pieces], by omega⟩⟩
    · simp [Entry.body, critical_pieces, locked_pieces, unlocked_pieces,
        HeavyResource.performOperation_pieces] at heq
      obtain ⟨rfl, rfl⟩ := heq
      simp at hcase
      rcases hcase with ⟨-, rfl⟩ | ⟨-, rfl⟩
      · exact ⟨_, rfl, Or.inr ⟨0, by omega, by simp [hres], rfl⟩⟩
      · exact ⟨_, rfl, Or.inl ⟨12, by omega, by simp [Entry.body, critical_pieces, locked_pieces, unlocked_pieces,
        HeavyResource.performOperation_pieces], by omega⟩⟩
    · simp [Entry.body, critical_pieces, locked_pieces, unlocked_pieces,
        HeavyResource.performOperation_pieces] at heq
  · interval_cases j
    · simp [HeavyResource.dtor_pieces] at heq
      obtain ⟨rfl, rfl⟩ := heq
      simp at hcase
      subst hcase
      exact ⟨_, rfl, Or.inr ⟨1, by omega, by simp [HeavyResource.dtor_pieces], hzero⟩⟩
    · simp [HeavyResource.dtor_pieces] at heq
      obtain ⟨rfl, rfl⟩ := heq
      simp at hcase
      subst hcase
      exact ⟨_, rfl, Or.inr ⟨2, by omega, by simp [HeavyResource.dtor_pieces], hzero⟩⟩
    · simp [HeavyResource.dtor_pieces] at heq
      obtain ⟨rfl, rfl⟩ := heq
      simp at hcase
      subst hcase
      exact ⟨_, rfl, Or.inr ⟨3, by omega, by simp [HeavyResource.dtor_pieces], hzero⟩⟩
    · simp [HeavyResource.dtor_pieces] at heq

/-- A thread of the pool whose next action is a write is inside its critical
section, unless the resource has been released. -/
theorem pool_write_head (r : HeavyResource) (n : String) (s : State) (p : String)
    (rest : List Action) (hme : pool_thread_ok r n s (Action.write p :: rest)) :
    in_critical_section (Action.write p :: rest) = true ∨ s.use_count = 0 := by
  rcases hme with ⟨i, hi, heq, _⟩ | ⟨j, _, _, hzero⟩
  · left
    rw [heq, (pool_body_facts r n i hi).1]
    interval_cases i <;>
      simp [Entry.body, critical_pieces, locked_pieces, unlocked_pieces,
        HeavyResource.performOperation_pieces] at heq ⊢
  · exact Or.inr hzero

/-- A thread of the pool that is inside its critical section still holds its handle. -/
theorem pool_cs_handle (r : HeavyResource) (n : String) (s : State) (c : List Action)
    (hme : pool_thread_ok r n s c) (hcs : in_critical_section c = true) :
    weight_of handle_weight c = 1 := by
  rcases hme with ⟨i, hi, heq, _⟩ | ⟨j, _, heq, _⟩
  · rw [heq] at hcs ⊢
    have := (pool_body_facts r n i hi).1.mp hcs
    exact (pool_body_facts r n i hi).2 (by omega)
  · rw [heq, pool_dtor_facts] at hcs
    cases hcs

/-- A thread of the pool never starts a thread. -/
theorem pool_no_spawn (r : HeavyResource) (n : String) (s : State) (f : Entry) (m : String)
    (rest : List Action) (hme : pool_thread_ok r n s (Action.spawn f m :: rest)) : False := by
  rcases hme with ⟨i, hi, heq, _⟩ | ⟨j, hj, heq, _⟩
  · interval_cases i <;>
      simp [Entry.body, critical_pieces, locked_pieces, unlocked_pieces,
        HeavyResource.performOperation_pieces] at heq
  · interval_cases j <;> simp [HeavyResource.dtor_pieces] at heq

/-- Every step keeps the invariant of the pool. -/
theorem PoolInv_step (r : HeavyResource) (names : List String) (owners : Nat)
    (t : Nat) (s s' : State) (hinv : PoolInv r names owners s) (h : step t s = some s') :
    PoolInv r names owners s' := by
  obtain ⟨hres, hlen, hmx, hcnt, hthr⟩ := hinv
  have hmx' := MutexInv_step t s s' hmx h
  have hcnt' := handles_step owners t s s' hcnt h
  have hres' : s'.res = r := by rw [step_res h, hres]
  obtain ⟨a, rest, hc, hcase⟩ := step_cases h
  have hlt := getElem?_lt hc
  obtain ⟨n, hn⟩ : ∃ n, names[t]? = some n :=
    ⟨names.get ⟨t, by omega⟩, List.getElem?_eq_getElem (by omega)⟩
  have hme := hthr t _ _ hc hn
  obtain ⟨x, hx, hxok⟩ := pool_self_step r _ t s s' hres a rest hc hme h
  refine ⟨hres', by rw [hx, List.length_set, hlen], hmx', hcnt', ?_⟩
  intro t' c' n' hc' hn'
  rw [hx] at hc'
  rcases getElem?_set_cases hc' with ⟨rfl, rfl, _⟩ | ⟨hne, hc''⟩
  · rw [hn] at hn'
    simp only [Option.some.injEq] at hn'
    subst hn'
    exact hxok
  · have hold := hthr t' c' n' hc'' hn'
    -- the count does not come back from zero
    have hzero : s.use_count = 0 → s'.use_count = 0 := by
      intro h0
      rcases hcase with ⟨p, _, rfl⟩ | ⟨_, _, rfl⟩ | ⟨_, _, rfl⟩ | ⟨_, h1, rfl⟩ | ⟨_, h2, rfl⟩ |
        ⟨f, m, _, h1, rfl⟩ | ⟨k, _, _, rfl⟩
      · exact h0
      · exact h0
      · exact h0
      · rfl
      · omega
      · omega
      · exact h0
    -- nothing is written while another thread is inside its critical section
    have hout : in_critical_section c' = true → s'.out = s.out := by
      intro hcs
      rcases hcase with ⟨p, rfl, rfl⟩ | ⟨_, _, rfl⟩ | ⟨_, _, rfl⟩ | ⟨_, h1, rfl⟩ | ⟨_, h2, rfl⟩ |
        ⟨f, m, _, h1, rfl⟩ | ⟨k, _, _, rfl⟩
      · exfalso
        rcases pool_write_head r _ s p rest hme with hin | h0
        · have e1 := ((hmx.1 t _ hc).2).mp hin
          have e2 := ((hmx.1 t' _ hc'').2).mp hcs
          rw [e1] at e2
          simp only [Option.some.injEq] at e2
          exact hne e2.symm
        · have e1 := pool_cs_handle r n' s c' hold hcs
          have e2 := weight_le_total handle_weight s.threads t' c' hc''
          simp only [total] at hcnt
          omega
      all_goals rfl
    rcases hold with ⟨i, hi, heq, hsuf⟩ | ⟨j, hj, heq, h0⟩
    · refine Or.inl ⟨i, hi, heq, ?_⟩
      intro h1 h10
      rw [hout (by rw [heq]; exact (pool_body_facts r n' i hi).1.mpr ⟨h1, h10⟩)]
      exact hsuf h1 h10
    · exact Or.inr ⟨j, hj, heq, hzero h0⟩

theorem PoolInv_init (r : HeavyResource) (names : List String) (owners : Nat) (out : Output) :
    PoolInv r names owners (mutex_pool r names owners out) := by
  refine ⟨rfl, by simp [mutex_pool], ⟨?_, ?_⟩, ?_, ?_⟩
  · intro t c hc
    simp only [mutex_pool, List.getElem?_map, Option.map_eq_some'] at hc
    obtain ⟨n, _, rfl⟩ := hc
    have := body_lock_ok r n Entry.access_resource_with_mutex
    simp [this.1, this.2, mutex_pool]
  · intro t ht
    simp [mutex_pool] at ht
  · have : ∀ (l : List String),
        ((l.map (fun n => Entry.access_resource_with_mutex.body r n)).map (weight_of handle_weight)).sum
          = l.length := by
      intro l
      induction l with
      | nil => rfl
      | cons n l ih =>
        simp only [List.map_cons, List.sum_cons, List.length_cons, ih,
          handle_weight_body r n Entry.access_resource_with_mutex]
        omega
    simp only [mutex_pool, total, this]
    omega
  · intro t c n hc hn
    simp only [mutex_pool, List.getElem?_map, Option.map_eq_some'] at hc
    obtain ⟨n', hn'', rfl⟩ := hc
    rw [hn] at hn''
    simp only [Option.some.injEq] at hn''
    subst hn''
    exact Or.inl ⟨0, by omega, rfl, by omega⟩

theorem PoolInv_run (r : HeavyResource) (names : List String) (owners : Nat) (out : Output)
    (sched : List Nat) (s : State)
    (h : run sched (mutex_pool r names owners out) = some s) : PoolInv r names owners s :=
  run_induction (PoolInv r names owners) (PoolInv_step r names owners) sched _ s
    (PoolInv_init r names owners out) h

/-! ## The output of a pool is a sequence of whole blocks -/

/-- A step of a thread that runs `access_resource_with_mutex`, other than the
destruction of the last handle, keeps the invariant of the output, for a
suitable order of the threads. -/
theorem BlocksInv_worker_step (r : HeavyResource) (names : List String) (out0 : Output)
    (t : Nat) (s s' : State) (order : List Nat) (hmx : MutexInv s)
    (hinv : BlocksInv r names out0 s order) (h : step t s = some s')
    (n : String) (i : Nat) (hn : names[t]? = some n) (hi : i ≤ 12)
    (hbody : s.threads[t]? = some ((Entry.access_resource_with_mutex.body r n).drop i))
    (h2 : i = 11 → 2 ≤ s.use_count) : ∃ order', BlocksInv r names out0 s' order' := by
  obtain ⟨hnd, hmem, hout⟩ := hinv
  obtain ⟨a, rest, hc, hcase⟩ := step_cases h
  have hlt := getElem?_lt hc
  have heq : a :: rest = (Entry.access_resource_with_mutex.body r n).drop i := by
    rw [hbody] at hc
    exact (Option.some.inj hc).symm
  clear hbody
  interval_cases i
  · -- the thread takes the lock
    simp [Entry.body, critical_pieces, locked_pieces, unlocked_pieces,
      HeavyResource.performOperation_pieces] at heq
    obtain ⟨rfl, rfl⟩ := heq
    simp at hcase
    obtain ⟨hfree, rfl⟩ := hcase
    refine ⟨order, hnd, ?_, ?_⟩
    · intro t'
      rw [hmem t']
      constructor
      · rintro ⟨c, hc', hl⟩
        have hne : t' ≠ t := by
          rintro rfl
          rw [hc] at hc'
          simp only [Option.some.injEq] at hc'
          subst hc'
          simp at hl
        exact ⟨c, by simpa [List.getElem?_set_ne (Ne.symm hne)] using hc', hl⟩
      · rintro ⟨c, hc', hl⟩
        rcases getElem?_set_cases hc' with ⟨_, rfl, _⟩ | ⟨_, hc''⟩
        · simp at hl
        · exact ⟨c, hc'', hl⟩
    · rcases hout with ⟨_, ho⟩ | ⟨t2, n2, i2, hm2, _⟩
      · refine Or.inr ⟨t, n, 1, rfl, hn, ?_, by omega, by omega, by simpa using ho⟩
        simp [List.getElem?_set_self hlt, Entry.body, critical_pieces, locked_pieces, unlocked_pieces,
      HeavyResource.performOperation_pieces]
      · rw [hfree] at hm2
        cases hm2
  · -- the thread writes piece 1 of its three lines
    simp [Entry.body, critical_pieces, locked_pieces, unlocked_pieces,
      HeavyResource.performOperation_pieces] at heq
    obtain ⟨rfl, rfl⟩ := heq
    simp at hcase
    subst hcase
    have hin : s.global_mutex = some t := (hmx.1 t _ hc).2.mp (by
      simp [in_critical_section, List.contains_cons])
    refine ⟨order, hnd, ?_, ?_⟩
    · intro t'
      rw [hmem t']
      constructor
      · rintro ⟨c, hc', hl⟩
        have hne : t' ≠ t := by
          rintro rfl
          rw [hc] at hc'
          simp only [Option.some.injEq] at hc'
          subst hc'
          simp at hl
        exact ⟨c, by simpa [List.getElem?_set_ne (Ne.symm hne)] using hc', hl⟩
      · rintro ⟨c, hc', hl⟩
        rcases getElem?_set_cases hc' with ⟨_, rfl, _⟩ | ⟨_, hc''⟩
        · simp at hl
        · exact ⟨c, hc'', hl⟩
    · rcases hout with ⟨hm1, _⟩ | ⟨t2, n2, i2, hm2, hn2, hc2, h1, h10, ho⟩
      · rw [hm1] at hin
        cases hin
      · rw [hin] at hm2
        simp only [Option.some.injEq] at hm2
        subst hm2
        rw [hn] at hn2
        simp only [Option.some.injEq] at hn2
        subst hn2
        rw [hc] at hc2
        have hi2 : i2 = 1 := by
          have := congrArg (fun o => o.map List.length) hc2
          simp [Entry.body, critical_pieces, locked_pieces, unlocked_pieces,
      HeavyResource.performOperation_pieces] at this
          omega
        subst hi2
        refine Or.inr ⟨t, n, 2, hin, hn, ?_, by omega, by omega, ?_⟩
        · simp [List.getElem?_set_self hlt, Entry.body, critical_pieces, locked_pieces, unlocked_pieces,
      HeavyResource.performOperation_pieces]
        · simp [ho, Entry.body, critical_pieces, locked_pieces, unlocked_pieces,
      HeavyResource.performOperation_pieces]
  · -- the thread writes piece 2 of its three lines
    simp [Entry.body, critical_pieces, locked_pieces, unlocked_pieces,
      HeavyResource.performOperation_pieces] at heq
    obtain ⟨rfl, rfl⟩ := heq
    simp at hcase
    subst hcase
    have hin : s.global_mutex = some t := (hmx.1 t _ hc).2.mp (by
      simp [in_critical_section, List.contains_cons])
    refine ⟨order, hnd, ?_, ?_⟩
    · intro t'
      rw [hmem t']
      constructor
      · rintro ⟨c, hc', hl⟩
        have hne : t' ≠ t := by
          rintro rfl
          rw [hc] at hc'
          simp only [Option.some.injEq] at hc'
          subst hc'
          simp at hl
        exact ⟨c, by simpa [List.getElem?_set_ne (Ne.symm hne)] using hc', hl⟩
      · rintro ⟨c, hc', hl⟩
        rcases getElem?_set_cases hc' with ⟨_, rfl, _⟩ | ⟨_, hc''⟩
        · simp at hl
        · exact ⟨c, hc'', hl⟩
    · rcases hout with ⟨hm1, _⟩ | ⟨t2, n2, i2, hm2, hn2, hc2, h1, h10, ho⟩
      · rw [hm1] at hin
        cases hin
      · rw [hin] at hm2
        simp only [Option.some.injEq] at hm2
        subst hm2
        rw [hn] at hn2
        simp only [Option.some.injEq] at hn2
        subst hn2
        rw [hc] at hc2
        have hi2 : i2 = 2 := by
          have := congrArg (fun o => o.map List.length) hc2
          simp [Entry.body, critical_pieces, locked_pieces, unlocked_pieces,
      HeavyResource.performOperation_pieces] at this
          omega
        subst hi2
        refine Or.inr ⟨t, n, 3, hin, hn, ?_, by omega, by omega, ?_⟩
        · simp [List.getElem?_set_self hlt, Entry.body, critical_pieces, locked_pieces, unlocked_pieces,
      HeavyResource.performOperation_pieces]
        · simp [ho, Entry.body, critical_pieces, locked_pieces, unlocked_pieces,
      HeavyResource.performOperation_pieces]
  · -- the thread writes piece 3 of its three lines
    simp [Entry.body, critical_pieces, locked_pieces, unlocked_pieces,
      HeavyResource.performOperation_pieces] at heq
    obtain ⟨rfl, rfl⟩ := heq
    simp at hcase
    subst hcase
    have hin : s.global_mutex = some t := (hmx.1 t _ hc).2.mp (by
      simp [in_critical_section, List.contains_cons])
    refine ⟨order, hnd, ?_, ?_⟩
    · intro t'
      rw [hmem t']
      constructor
      · rintro ⟨c, hc', hl⟩
        have hne : t' ≠ t := by
          rintro rfl
          rw [hc] at hc'
          simp only [Option.some.injEq] at hc'
          subst hc'
          simp at hl
        exact ⟨c, by simpa [List.getElem?_set_ne (Ne.symm hne)] using hc', hl⟩
      · rintro ⟨c, hc', hl⟩
        rcases getElem?_set_cases hc' with ⟨_, rfl, _⟩ | ⟨_, hc''⟩
        · simp at hl
        · exact ⟨c, hc'', hl⟩
    · rcases hout with ⟨hm1, _⟩ | ⟨t2, n2, i2, hm2, hn2, hc2, h1, h10, ho⟩
      · rw [hm1] at hin
        cases hin
      · rw [hin] at hm2
        simp only [Option.some.injEq] at hm2
        subst hm2
        rw [hn] at hn2
        simp only [Option.some.injEq] at hn2
        subst hn2
        rw [hc] at hc2
        have hi2 : i2 = 3 := by
          have := congrArg (fun o => o.map List.length) hc2
          simp [Entry.body, critical_pieces, locked_pieces, unlocked_pieces,
      HeavyResource.performOperation_pieces] at this
          omega
        subst hi2
        refine Or.inr ⟨t, n, 4, hin, hn, ?_, by omega, by omega, ?_⟩
        · simp [List.getElem?_set_self hlt, Entry.body, critical_pieces, locked_pieces, unlocked_pieces,
      HeavyResource.performOperation_pieces]
        · simp [ho, Entry.body, critical_pieces, locked_pieces, unlocked_pieces,
      HeavyResource.performOperation_pieces]
  · -- the thread writes piece 4 of its three lines
    simp [Entry.body, critical_pieces, locked_pieces, unlocked_pieces,
      HeavyResource.performOperation_pieces] at heq
    obtain ⟨rfl, rfl⟩ := heq
    simp at hcase
    subst hcase
    have hin : s.global_mutex = some t := (hmx.1 t _ hc).2.mp (by
      simp [in_critical_section, List.contains_cons])
    refine ⟨order, hnd, ?_, ?_⟩
    · intro t'
      rw [hmem t']
      constructor
      · rintro ⟨c, hc', hl⟩
        have hne : t' ≠ t := by
          rintro rfl
          rw [hc] at hc'
          simp only [Option.some.injEq] at hc'
          subst hc'
          simp at hl
        exact ⟨c, by simpa [List.getElem?_set_ne (Ne.symm hne)] using hc', hl⟩
      · rintro ⟨c, hc', hl⟩
        rcases getElem?_set_cases hc' with ⟨_, rfl, _⟩ | ⟨_, hc''⟩
        · simp at hl
        · exact ⟨c, hc'', hl⟩
    · rcases hout with ⟨hm1, _⟩ | ⟨t2, n2, i2, hm2, hn2, hc2, h1, h10, ho⟩
      · rw [hm1] at hin
        cases hin
      · rw [hin] at hm2
        simp only [Option.some.injEq] at hm2
        subst hm2
        rw [hn] at hn2
        simp only [Option.some.injEq] at hn2
        subst hn2
        rw [hc] at hc2
        have hi2 : i2 = 4 := by
          have := congrArg (fun o => o.map List.length) hc2
          simp [Entry.body, critical_pieces, locked_pieces, unlocked_pieces,
      HeavyResource.performOperation_pieces] at this
          omega
        subst hi2
        refine Or.inr ⟨t, n, 5, hin, hn, ?_, by omega, by omega, ?_⟩
        · simp [List.getElem?_set_self hlt, Entry.body, critical_pieces, locked_pieces, unlocked_pieces,
      HeavyResource.performOperation_pieces]
        · simp [ho, Entry.body, critical_pieces, locked_pieces, unlocked_pieces,
      HeavyResource.performOperation_pieces]
  · -- the thread writes piece 5 of its three lines
    simp [Entry.body, critical_pieces, locked_pieces, unlocked_pieces,
      HeavyResource.performOperation_pieces] at heq
    obtain ⟨rfl, rfl⟩ := heq
    simp at hcase
    subst hcase
    have hin : s.global_mutex = some t := (hmx.1 t _ hc).2.mp (by
      simp [in_critical_section, List.contains_cons])
    refine ⟨order, hnd, ?_, ?_⟩
    · intro t'
      rw [hmem t']
      constructor
      · rintro ⟨c, hc', hl⟩
        have hne : t' ≠ t := by
          rintro rfl
          rw [hc] at hc'
          simp only [Option.some.injEq] at hc'
          subst hc'
          simp at hl
        exact ⟨c, by simpa [List.getElem?_set_ne (Ne.symm hne)] using hc', hl⟩
      · rintro ⟨c, hc', hl⟩
        rcases getElem?_set_cases hc' with ⟨_, rfl, _⟩ | ⟨_, hc''⟩
        · simp at hl
        · exact ⟨c, hc'', hl⟩
    · rcases hout with ⟨hm1, _⟩ | ⟨t2, n2, i2, hm2, hn2, hc2, h1, h10, ho⟩
      · rw [hm1] at hin
        cases hin
      · rw [hin] at hm2
        simp only [Option.some.injEq] at hm2
        subst hm2
        rw [hn] at hn2
        simp only [Option.some.injEq] at hn2
        subst hn2
        rw [hc] at hc2
        have hi2 : i2 = 5 := by
          have := congrArg (fun o => o.map List.length) hc2
          simp [Entry.body, critical_pieces, locked_pieces, unlocked_pieces,
      HeavyResource.performOperation_pieces] at this
          omega
        subst hi2
        refine Or.inr ⟨t, n, 6, hin, hn, ?_, by omega, by omega, ?_⟩
        · simp [List.getElem?_set_self hlt, Entry.body, critical_pieces, locked_pieces, unlocked_pieces,
      HeavyResource.performOperation_pieces]
        · simp [ho, Entry.body, critical_pieces, locked_pieces, unlocked_pieces,
      HeavyResource.performOperation_pieces]
  · -- the thread writes piece 6 of its three lines
    simp [Entry.body, critical_pieces, locked_pieces, unlocked_pieces,
      HeavyResource.performOperation_pieces] at heq
    obtain ⟨rfl, rfl⟩ := heq
    simp at hcase
    subst hcase
    have hin : s.global_mutex = some t := (hmx.1 t _ hc).2.mp (by
      simp [in_critical_section, List.contains_cons])
    refine ⟨order, hnd, ?_, ?_⟩
    · intro t'
      rw [hmem t']
      constructor
      · rintro ⟨c, hc', hl⟩
        have hne : t' ≠ t := by
          rintro rfl
          rw [hc] at hc'
          simp only [Option.some.injEq] at hc'
          subst hc'
          simp at hl
        exact ⟨c, by simpa [List.getElem?_set_ne (Ne.symm hne)] using hc', hl⟩
      · rintro ⟨c, hc', hl⟩
        rcases getElem?_set_cases hc' with ⟨_, rfl, _⟩ | ⟨_, hc''⟩
        · simp at hl
        · exact ⟨c, hc'', hl⟩
    · rcases hout with ⟨hm1, _⟩ | ⟨t2, n2, i2, hm2, hn2, hc2, h1, h10, ho⟩
      · rw [hm1] at hin
        cases hin
      · rw [hin] at hm2
        simp only [Option.some.injEq] at hm2
        subst hm2
        rw [hn] at hn2
        simp only [Option.some.injEq] at hn2
        subst hn2
        rw [hc] at hc2
        have hi2 : i2 = 6 := by
          have := congrArg (fun o => o.map List.length) hc2
          simp [Entry.body, critical_pieces, locked_pieces, unlocked_pieces,
      HeavyResource.performOperation_pieces] at this
          omega
        subst hi2
        refine Or.inr ⟨t, n, 7, hin, hn, ?_, by omega, by omega, ?_⟩
        · simp [List.getElem?_set_self hlt, Entry.body, critical_pieces, locked_pieces, unlocked_pieces,
      HeavyResource.performOperation_pieces]
        · simp [ho, Entry.body, critical_pieces, locked_pieces, unlocked_pieces,
      HeavyResource.performOperation_pieces]
  · -- the thread writes piece 7 of its three lines
    simp [Entry.body, critical_pieces, locked_pieces, unlocked_pieces,
      HeavyResource.performOperation_pieces] at heq
    obtain ⟨rfl, rfl⟩ := heq
    simp at hcase
    subst hcase
    have hin : s.global_mutex = some t := (hmx.1 t _ hc).2.mp (by
      simp [in_critical_section, List.contains_cons])
    refine ⟨order, hnd, ?_, ?_⟩
    · intro t'
      rw [hmem t']
      constructor
      · rintro ⟨c, hc', hl⟩
        have hne : t' ≠ t := by
          rintro rfl
          rw [hc] at hc'
          simp only [Option.some.injEq] at hc'
          subst hc'
          simp at hl
        exact ⟨c, by simpa [List.getElem?_set_ne (Ne.symm hne)] using hc', hl⟩
      · rintro ⟨c, hc', hl⟩
        rcases getElem?_set_cases hc' with ⟨_, rfl, _⟩ | ⟨_, hc''⟩
        · simp at hl
        · exact ⟨c, hc'', hl⟩
    · rcases hout with ⟨hm1, _⟩ | ⟨t2, n2, i2, hm2, hn2, hc2, h1, h10, ho⟩
      · rw [hm1] at hin
        cases hin
      · rw [hin] at hm2
        simp only [Option.some.injEq] at hm2
        subst hm2
        rw [hn] at hn2
        simp only [Option.some.injEq] at hn2
        subst hn2
        rw [hc] at hc2
        have hi2 : i2 = 7 := by
          have := congrArg (fun o => o.map List.length) hc2
          simp [Entry.body, critical_pieces, locked_pieces, unlocked_pieces,
      HeavyResource.performOperation_pieces] at this
          omega
        subst hi2
        refine Or.inr ⟨t, n, 8, hin, hn, ?_, by omega, by omega, ?_⟩
        · simp [List.getElem?_set_self hlt, Entry.body, critical_pieces, locked_pieces, unlocked_pieces,
      HeavyResource.performOperation_pieces]
        · simp [ho, Entry.body, critical_pieces, locked_pieces, unlocked_pieces,
      HeavyResource.performOperation_pieces]
  · -- the thread writes piece 8 of its three lines
    simp [Entry.body, critical_pieces, locked_pieces, unlocked_pieces,
      HeavyResource.performOperation_pieces] at heq
    obtain ⟨rfl, rfl⟩ := heq
    simp at hcase
    subst hcase
    have hin : s.global_mutex = some t := (hmx.1 t _ hc).2.mp (by
      simp [in_critical_section, List.contains_cons])
    refine ⟨order, hnd, ?_, ?_⟩
    · intro t'
      rw [hmem t']
      constructor
      · rintro ⟨c, hc', hl⟩
        have hne : t' ≠ t := by
          rintro rfl
          rw [hc] at hc'
          simp only [Option.some.injEq] at hc'
          subst hc'
          simp at hl
        exact ⟨c, by simpa [List.getElem?_set_ne (Ne.symm hne)] using hc', hl⟩
      · rintro ⟨c, hc', hl⟩
        rcases getElem?_set_cases hc' with ⟨_, rfl, _⟩ | ⟨_, hc''⟩
        · simp at hl
        · exact ⟨c, hc'', hl⟩
    · rcases hout with ⟨hm1, _⟩ | ⟨t2, n2, i2, hm2, hn2, hc2, h1, h10, ho⟩
      · rw [hm1] at hin
        cases hin
      · rw [hin] at hm2
        simp only [Option.some.injEq] at hm2
        subst hm2
        rw [hn] at hn2
        simp only [Option.some.injEq] at hn2
        subst hn2
        rw [hc] at hc2
        have hi2 : i2 = 8 := by
          have := congrArg (fun o => o.map List.length) hc2
          simp [Entry.body, critical_pieces, locked_pieces, unlocked_pieces,
      HeavyResource.performOperation_pieces] at this
          omega
        subst hi2
        refine Or.inr ⟨t, n, 9, hin, hn, ?_, by omega, by omega, ?_⟩
        · simp [List.getElem?_set_self hlt, Entry.body, critical_pieces, locked_pieces, unlocked_pieces,
      HeavyResource.performOperation_pieces]
        · simp [ho, Entry.body, critical_pieces, locked_pieces, unlocked_pieces,
      HeavyResource.performOperation_pieces]
  · -- the thread writes piece 9 of its three lines
    simp [Entry.body, critical_pieces, locked_pieces, unlocked_pieces,
      HeavyResource.performOperation_pieces] at heq
    obtain ⟨rfl, rfl⟩ := heq
    simp at hcase
    subst hcase
    have hin : s.global_mutex = some t := (hmx.1 t _ hc).2.mp (by
      simp [in_critical_section, List.contains_cons])
    refine ⟨order, hnd, ?_, ?_⟩
    · intro t'
      rw [hmem t']
      constructor
      · rintro ⟨c, hc', hl⟩
        have hne : t' ≠ t := by
          rintro rfl
          rw [hc] at hc'
          simp only [Option.some.injEq] at hc'
          subst hc'
          simp at hl
        exact ⟨c, by simpa [List.getElem?_set_ne (Ne.symm hne)] using hc', hl⟩
      · rintro ⟨c, hc', hl⟩
        rcases getElem?_set_cases hc' with ⟨_, rfl, _⟩ | ⟨_, hc''⟩
        · simp at hl
        · exact ⟨c, hc'', hl⟩
    · rcases hout with ⟨hm1, _⟩ | ⟨t2, n2, i2, hm2, hn2, hc2, h1, h10, ho⟩
      · rw [hm1] at hin
        cases hin
      · rw [hin] at hm2
        simp only [Option.some.injEq] at hm2
        subst hm2
        rw [hn] at hn2
        simp only [Option.some.injEq] at hn2
        subst hn2
        rw [hc] at hc2
        have hi2 : i2 = 9 := by
          have := congrArg (fun o => o.map List.length) hc2
          simp [Entry.body, critical_pieces, locked_pieces, unlocked_pieces,
      HeavyResource.performOperation_pieces] at this
          omega
        subst hi2
        refine Or.inr ⟨t, n, 10, hin, hn, ?_, by omega, by omega, ?_⟩
        · simp [List.getElem?_set_self hlt, Entry.body, critical_pieces, locked_pieces, unlocked_pieces,
      HeavyResource.performOperation_pieces]
        · simp [ho, Entry.body, critical_pieces, locked_pieces, unlocked_pieces,
      HeavyResource.performOperation_pieces]
  · -- the thread gives the lock back
    simp [Entry.body, critical_pieces, locked_pieces, unlocked_pieces,
      HeavyResource.performOperation_pieces] at heq
    obtain ⟨rfl, rfl⟩ := heq
    simp at hcase
    obtain ⟨hin, rfl⟩ := hcase
    have hnot : t ∉ order := by
      intro hmemt
      obtain ⟨c, hc', hl⟩ := (hmem t).mp hmemt
      rw [hc] at hc'
      simp only [Option.some.injEq] at hc'
      subst hc'
      simp at hl
    refine ⟨order ++ [t], ?_, ?_, ?_⟩
    · exact List.Nodup.append hnd (by simp) (by simpa using hnot)
    · intro t'
      simp only [List.mem_append, List.mem_singleton, hmem t']
      constructor
      · rintro (⟨c, hc', hl⟩ | rfl)
        · have hne : t' ≠ t := by
            rintro rfl
            rw [hc] at hc'
            simp only [Option.some.injEq] at hc'
            subst hc'
            simp at hl
          exact ⟨c, by simpa [List.getElem?_set_ne (Ne.symm hne)] using hc', hl⟩
        · exact ⟨_, List.getElem?_set_self hlt, by simp⟩
      · rintro ⟨c, hc', hl⟩
        rcases getElem?_set_cases hc' with ⟨rfl, _, _⟩ | ⟨_, hc''⟩
        · exact Or.inr rfl
        · exact Or.inl ⟨c, hc'', hl⟩
    · rcases hout with ⟨hm1, _⟩ | ⟨t2, n2, i2, hm2, hn2, hc2, h1, h10, ho⟩
      · rw [hm1] at hin
        cases hin
      · rw [hin] at hm2
        simp only [Option.some.injEq] at hm2
        subst hm2
        rw [hn] at hn2
        simp only [Option.some.injEq] at hn2
        subst hn2
        rw [hc] at hc2
        have hi2 : i2 = 10 := by
          have := congrArg (fun o => o.map List.length) hc2
          simp [Entry.body, critical_pieces, locked_pieces, unlocked_pieces,
      HeavyResource.performOperation_pieces] at this
          omega
        subst hi2
        refine Or.inl ⟨rfl, ?_⟩
        simp [ho, blocks, hn, Entry.body, critical_pieces, locked_pieces, unlocked_pieces,
      HeavyResource.performOperation_pieces]
  · -- the thread destroys its handle
    simp [Entry.body, critical_pieces, locked_pieces, unlocked_pieces,
      HeavyResource.performOperation_pieces] at heq
    obtain ⟨rfl, rfl⟩ := heq
    simp at hcase
    have hthr' : s'.threads = s.threads.set t [] ∧ s'.out = s.out ∧
        s'.global_mutex = s.global_mutex := by
      rcases hcase with ⟨h1, rfl⟩ | ⟨_, rfl⟩
      · exfalso
        have := h2 rfl
        omega
      · exact ⟨rfl, rfl, rfl⟩
    obtain ⟨hthr', hout', hmu'⟩ := hthr'
    have hnotin : in_critical_section [Action.release_handle] = false := by
      simp [in_critical_section]
    refine ⟨order, hnd, ?_, ?_⟩
    · intro t'
      rw [hmem t', hthr']
      constructor
      · rintro ⟨c, hc', hl⟩
        by_cases hne : t' = t
        · subst hne
          exact ⟨[], List.getElem?_set_self hlt, by simp⟩
        · exact ⟨c, by simpa [List.getElem?_set_ne (Ne.symm hne)] using hc', hl⟩
      · rintro ⟨c, hc', hl⟩
        rcases getElem?_set_cases hc' with ⟨rfl, _, _⟩ | ⟨_, hc''⟩
        · exact ⟨_, hc, by simp⟩
        · exact ⟨c, hc'', hl⟩
    · rw [hout', hmu', hthr']
      rcases hout with ⟨hm1, ho⟩ | ⟨t2, n2, i2, hm2, hn2, hc2, h1, h10, ho⟩
      · exact Or.inl ⟨hm1, ho⟩
      · have hne : t ≠ t2 := by
          rintro rfl
          have := (hmx.1 t _ hc).2.mpr hm2
          rw [hnotin] at this
          cases this
        exact Or.inr ⟨t2, n2, i2, hm2, hn2, by rw [List.getElem?_set_ne hne]; exact hc2,
          h1, h10, ho⟩
  · simp [Entry.body, critical_pieces, locked_pieces, unlocked_pieces,
      HeavyResource.performOperation_pieces] at heq

/-- While a handle exists outside the pool, every step keeps the invariant of
the output, for a suitable order of the threads. -/
theorem BlocksInv_step (r : HeavyResource) (names : List String) (owners : Nat)
    (hown : 0 < owners) (out0 : Output) (t : Nat) (s s' : State) (order : List Nat)
    (hpool : PoolInv r names owners s) (hinv : BlocksInv r names out0 s order)
    (h : step t s = some s') : ∃ order', BlocksInv r names out0 s' order' := by
  obtain ⟨hres, hlen, hmx, hcnt, hthr⟩ := hpool
  obtain ⟨a, rest, hc, _⟩ := step_cases h
  have hlt := getElem?_lt hc
  obtain ⟨n, hn⟩ : ∃ n, names[t]? = some n :=
    ⟨names.get ⟨t, by omega⟩, List.getElem?_eq_getElem (by omega)⟩
  rcases hthr t _ n hc hn with ⟨i, hi, heq, _⟩ | ⟨_, _, _, hzero⟩
  · refine BlocksInv_worker_step r names out0 t s s' order hmx hinv h n i hn hi
      (by rw [hc, heq]) ?_
    intro hi11
    subst hi11
    have hw := weight_le_total handle_weight s.threads t _ hc
    rw [heq, (pool_body_facts r n 11 (by omega)).2 (by omega)] at hw
    simp only [total] at hcnt
    omega
  · omega

theorem BlocksInv_run (r : HeavyResource) (names : List String) (owners : Nat)
    (hown : 0 < owners) (out0 : Output) (sched : List Nat) (s : State)
    (h : run sched (mutex_pool r names owners out0) = some s) :
    ∃ order, BlocksInv r names out0 s order := by
  have key := run_induction
    (fun x => PoolInv r names owners x ∧ ∃ order, BlocksInv r names out0 x order)
    (fun t a b ha hb => ⟨PoolInv_step r names owners t a b ha.1 hb, by
      obtain ⟨order, ho⟩ := ha.2
      exact BlocksInv_step r names owners hown out0 t a b order ha.1 ho hb⟩)
    sched (mutex_pool r names owners out0) s ⟨PoolInv_init r names owners out0, [], ?_⟩ h
  · exact key.2
  · refine ⟨List.nodup_nil, ?_, Or.inl ⟨rfl, by simp [mutex_pool, blocks]⟩⟩
    intro t
    simp only [List.not_mem_nil, false_iff, not_exists, not_and]
    intro c hc
    simp only [mutex_pool, List.getElem?_map, Option.map_eq_some'] at hc
    obtain ⟨n, _, rfl⟩ := hc
    simp [Entry.body, critical_pieces, locked_pieces, unlocked_pieces,
      HeavyResource.performOperation_pieces]

/-! ## Counting the pieces -/

theorem piece_weight_writes (r : HeavyResource) (p : String) (ps : List String) :
    weight_of (piece_weight r p) (ps.map Action.write) = ps.count p := by
  induction ps with
  | nil => rfl
  | cons q ps ih =>
    simp only [List.map_cons, weight_of_cons, ih, piece_weight, List.count_cons, beq_iff_eq]
    omega

theorem piece_weight_body (r : HeavyResource) (p n : String) (f : Entry) :
    weight_of (piece_weight r p) (f.body r n) = piece_weight r p (Action.spawn f n) := by
  cases f <;>
    simp [Entry.body, critical_pieces, locked_pieces, unlocked_pieces, warning_start_pieces,
      warning_finish_pieces, HeavyResource.performOperation_pieces, weight_of, piece_weight]

/-- No step changes the budget of a piece. -/
theorem piece_budget_step (p : String) (t : Nat) (s s' : State) (h : step t s = some s') :
    piece_budget p s' = piece_budget p s := by
  have hres := step_res h
  obtain ⟨a, rest, _, h⟩ := total_step (piece_weight s.res p) h
  unfold piece_budget
  rw [hres]
  rcases h with ⟨rfl, h1, h0, ho, ht⟩ | ⟨rfl, h2, hu, ho, ht⟩ | ⟨f, n, rfl, h1, hu, ho, ht⟩ |
    ⟨q, rfl, hu, ho, ht⟩ | ⟨ha, hu, ho, ht⟩
  · rw [piece_weight_writes] at ht
    simp only [piece_weight] at ht
    simp only [h0, h1, ho, if_true, one_ne_zero, if_false]
    omega
  · simp only [piece_weight] at ht
    have e1 : ¬ s'.use_count = 0 := by omega
    have e2 : ¬ s.use_count = 0 := by omega
    simp only [e1, e2, ho, if_false]
    omega
  · rw [piece_weight_body] at ht
    have e1 : ¬ s'.use_count = 0 := by omega
    have e2 : ¬ s.use_count = 0 := by omega
    simp only [e1, e2, ho, if_false]
    omega
  · simp only [piece_weight] at ht
    simp only [hu, ho, List.count_append, List.count_cons, List.count_nil, beq_iff_eq]
    omega
  · have hw : piece_weight s.res p a = 0 := by
      rcases ha with rfl | rfl | ⟨k, rfl⟩ <;> rfl
    simp only [hu, ho]
    omega

theorem piece_budget_run (p : String) (sched : List Nat) (s s' : State)
    (h : run sched s = some s') : piece_budget p s' = piece_budget p s :=
  run_induction (fun x => piece_budget p x = piece_budget p s)
    (fun t a b ha hb => (piece_budget_step p t a b hb).trans ha) sched s s' rfl h

/-! ## The threads of `thread_demo` -/

theorem body_worker (r : HeavyResource) (n : String) (f : Entry) :
    worker (f.body r n) = true := by
  cases f <;>
    simp [Entry.body, critical_pieces, locked_pieces, unlocked_pieces, warning_start_pieces,
      warning_finish_pieces, HeavyResource.performOperation_pieces, worker]

theorem worker_writes (ps : List String) (c : List Action) (h : worker c = true) :
    worker (ps.map Action.write ++ c) = true := by
  induction ps with
  | nil => exact h
  | cons p ps ih => simpa [worker] using ih

/-- A step of a thread that starts and joins no thread. -/
theorem worker_step {t : Nat} {s s' : State} {c : List Action} (h : step t s = some s')
    (hc : s.threads[t]? = some c) (hw : worker c = true) :
    ∃ x d, s'.threads = s.threads.set t x ∧ worker x = true ∧ s'.out = s.out ++ d := by
  obtain ⟨a, rest, hc', hcase⟩ := step_cases h
  rw [hc] at hc'
  simp only [Option.some.injEq] at hc'
  subst hc'
  have hwr : worker rest = true := by
    simp only [worker, List.all_cons, Bool.and_eq_true] at hw ⊢
    exact hw.2
  rcases hcase with ⟨p, _, rfl⟩ | ⟨_, _, rfl⟩ | ⟨_, _, rfl⟩ | ⟨_, _, rfl⟩ | ⟨_, _, rfl⟩ |
    ⟨f, n, rfl, _, rfl⟩ | ⟨k, rfl, _, rfl⟩
  · exact ⟨rest, [p], rfl, hwr, rfl⟩
  · exact ⟨rest, [], rfl, hwr, by simp⟩
  · exact ⟨rest, [], rfl, hwr, by simp⟩
  · exact ⟨_, [], rfl, worker_writes _ _ hwr, by simp⟩
  · exact ⟨rest, [], rfl, hwr, by simp⟩
  · simp [worker] at hw
  · simp [worker] at hw

theorem demo_spawn_facts (i : Nat) (hi : i ≤ 9) (f : Entry) (n : String) (rest : List Action)
    (hdrop : Action.spawn f n :: rest = thread_demo_actions.drop i) :
    rest = thread_demo_actions.drop (i + 1) ∧ i + 1 ≤ 9 ∧
      demo_threads (i + 1) = demo_threads i + 1 ∧ Action.join (demo_threads i) ∈ rest := by
  interval_cases i <;> simp [thread_demo_actions] at hdrop <;>
    simp [thread_demo_actions, demo_threads, hdrop.2]

theorem demo_plain_facts (i : Nat) (hi : i ≤ 9) (a : Action) (rest : List Action)
    (hdrop : a :: rest = thread_demo_actions.drop i)
    (ha : (∃ p, a = Action.write p) ∨ (∃ k, a = Action.join k)) :
    rest = thread_demo_actions.drop (i + 1) ∧ i + 1 ≤ 9 ∧
      demo_threads (i + 1) = demo_threads i := by
  interval_cases i <;> simp [thread_demo_actions] at hdrop <;>
    rcases ha with ⟨p, rfl⟩ | ⟨k, rfl⟩ <;> simp at hdrop <;>
    simp [thread_demo_actions, demo_threads, hdrop]

theorem demo_release_facts (i : Nat) (hi : i ≤ 9) (rest : List Action)
    (hdrop : Action.release_handle :: rest = thread_demo_actions.drop i) :
    rest = [] ∧ demo_threads i = 5 := by
  interval_cases i <;> simp [thread_demo_actions] at hdrop
  simp [demo_threads, hdrop]

theorem demo_lock_facts (i : Nat) (hi : i ≤ 9) (a : Action) (rest : List Action)
    (hdrop : a :: rest = thread_demo_actions.drop i) :
    a ≠ Action.lock ∧ a ≠ Action.unlock := by
  interval_cases i <;> simp [thread_demo_actions] at hdrop <;> simp [hdrop.1]

theorem total_eq_head_of_finished (w : Action → Nat) (s : State) (m : List Action)
    (hm : s.threads[0]? = some m)
    (hfin : ∀ (k : Nat) (c : List Action), 1 ≤ k → s.threads[k]? = some c → c = []) :
    total w s = weight_of w m := by
  unfold total
  cases hthr : s.threads with
  | nil => rw [hthr] at hm; simp at hm
  | cons m' cs =>
    rw [hthr] at hm
    simp only [List.getElem?_cons_zero, Option.some.injEq] at hm
    subst hm
    have hall : ∀ c ∈ cs, c = [] := by
      intro c hc
      obtain ⟨k, hk⟩ := List.mem_iff_getElem?.mp hc
      exact hfin (k + 1) c (by omega) (by rw [hthr]; simpa using hk)
    have hz : (cs.map (weight_of w)).sum = 0 := by
      clear hthr hfin
      induction cs with
      | nil => rfl
      | cons c cs ih =>
        have hc := hall c (by simp)
        subst hc
        simp only [List.map_cons, List.sum_cons]
        rw [ih (fun c hc => hall c (by simp [hc]))]
        rfl
    simp only [List.map_cons, List.sum_cons, hz]
    omega

/-- Every step keeps the invariant of `thread_demo`. -/
theorem DemoInv_step (base : Output) (t : Nat) (s s' : State) (hinv : DemoInv base s)
    (h : step t s = some s') : DemoInv base s' := by
  obtain ⟨hres, hmx, hcnt, hwork, m, d, hm, hphase⟩ := hinv
  have hmx' := MutexInv_step t s s' hmx h
  have hcnt' : s'.use_count = total handle_weight s' := by
    have := handles_step 0 t s s' (by omega) h
    omega
  have hres' : s'.res = shared_db_resource := by rw [step_res h, hres]
  have hpos : 0 < s.threads.length := getElem?_lt hm
  refine ⟨hres', hmx', hcnt', ?_⟩
  by_cases ht : t = 0
  · -- a step of the thread of `thread_demo`
    subst ht
    obtain ⟨a, rest, hc, hcase⟩ := step_cases h
    rw [hm] at hc
    simp only [Option.some.injEq] at hc
    subst hc
    have hkeep : ∀ (k : Nat) (c : List Action), 1 ≤ k →
        (s.threads.set 0 rest)[k]? = some c → s.threads[k]? = some c := by
      intro k c hk hkc
      rwa [List.getElem?_set_ne (by omega)] at hkc
    have hhead : ∀ x, (s.threads.set 0 x)[0]? = some x := fun x =>
      List.getElem?_set_self hpos
    rcases hphase with ⟨i, hi, hdrop, hlen, hout, hjoin⟩ | ⟨j, hj, hdrop, hlen, hzero, hout, hfin⟩
    · obtain ⟨hnl, hnu⟩ := demo_lock_facts i hi a rest hdrop
      rcases hcase with ⟨p, rfl, rfl⟩ | ⟨rfl, _, _⟩ | ⟨rfl, _, _⟩ | ⟨rfl, h1, rfl⟩ |
        ⟨rfl, h2, rfl⟩ | ⟨f, n, rfl, _, rfl⟩ | ⟨k0, rfl, hk0, rfl⟩
      · -- write
        obtain ⟨hrest, hi', hthr⟩ := demo_plain_facts i hi _ rest hdrop (Or.inl ⟨p, rfl⟩)
        refine ⟨fun k c hk hkc => hwork k c hk (hkeep k c hk hkc), rest, d ++ [p], hhead rest,
          Or.inl ⟨i + 1, hi', hrest, by simp [hlen, hthr], by simp [hout], ?_⟩⟩
        intro k c hk hkc
        rcases hjoin k c hk (hkeep k c hk hkc) with hj | hj
        · simp only [List.mem_cons, reduceCtorEq, false_or] at hj
          exact Or.inl hj
        · exact Or.inr hj
      · exact absurd rfl hnl
      · exact absurd rfl hnu
      · -- the last handle is destroyed
        obtain ⟨hrest, h5⟩ := demo_release_facts i hi rest hdrop
        subst hrest
        have hfin : ∀ (k : Nat) (c : List Action), 1 ≤ k → s.threads[k]? = some c → c = [] := by
          intro k c hk hkc
          rcases hjoin k c hk hkc with hj | hj
          · simp at hj
          · exact hj
        refine ⟨fun k c hk hkc => hwork k c hk ?_, _, d, hhead _,
          Or.inr ⟨0, by omega, by simp [hres], by simp [hlen, h5], rfl, by simp [hout], ?_⟩⟩
        · rwa [List.getElem?_set_ne (by omega)] at hkc
        · intro k c hk hkc
          rw [List.getElem?_set_ne (by omega)] at hkc
          exact hfin k c hk hkc
      · -- a handle other than the last: impossible here
        exfalso
        obtain ⟨hrest, _⟩ := demo_release_facts i hi rest hdrop
        subst hrest
        have hfin : ∀ (k : Nat) (c : List Action), 1 ≤ k → s.threads[k]? = some c → c = [] := by
          intro k c hk hkc
          rcases hjoin k c hk hkc with hj | hj
          · simp at hj
          · exact hj
        have := total_eq_head_of_finished handle_weight s _ hm hfin
        simp [weight_of, handle_weight] at this
        omega
      · -- a thread is started
        obtain ⟨hrest, hi', hthr, hnew⟩ := demo_spawn_facts i hi f n rest hdrop
        refine ⟨?_, rest, d, ?_, Or.inl ⟨i + 1, hi', hrest, by simp [hlen, hthr], hout, ?_⟩⟩
        · intro k c hk hkc
          rcases getElem?_append_one_cases hkc with hkc' | ⟨_, rfl⟩
          · exact hwork k c hk (hkeep k c hk hkc')
          · exact body_worker _ _ _
        · rw [List.getElem?_append_left (by simpa using hpos)]
          exact hhead rest
        · intro k c hk hkc
          rcases getElem?_append_one_cases hkc with hkc' | ⟨hk', rfl⟩
          · rcases hjoin k c hk (hkeep k c hk hkc') with hj | hj
            · simp only [List.mem_cons, reduceCtorEq, false_or] at hj
              exact Or.inl hj
            · exact Or.inr hj
          · left
            simp only [List.length_set] at hk'
            rw [hk', hlen]
            exact hnew
      · -- a thread is joined
        obtain ⟨hrest, hi', hthr⟩ := demo_plain_facts i hi _ rest hdrop (Or.inr ⟨k0, rfl⟩)
        refine ⟨fun k c hk hkc => hwork k c hk (hkeep k c hk hkc), rest, d, hhead rest,
          Or.inl ⟨i + 1, hi', hrest, by simp [hlen, hthr], hout, ?_⟩⟩
        intro k c hk hkc
        have hkc' := hkeep k c hk hkc
        rcases hjoin k c hk hkc' with hj | hj
        · simp only [List.mem_cons, Action.join.injEq] at hj
          rcases hj with rfl | hj
          · rw [hk0] at hkc'
            simp only [Option.some.injEq] at hkc'
            exact Or.inr hkc'.symm
          · exact Or.inl hj
        · exact Or.inr hj
    · -- the destructor of the resource
      have hj3 : j < 3 := by
        rcases Nat.lt_or_ge j 3 with h3 | h3
        · exact h3
        · have : j = 3 := by omega
          subst this
          simp [HeavyResource.dtor_pieces] at hdrop
      have hkeepB : ∀ (k : Nat) (c : List Action), 1 ≤ k →
          (s.threads.set 0 rest)[k]? = some c → c = [] :=
        fun k c hk hkc => hfin k c hk (hkeep k c hk hkc)
      interval_cases j
      · simp [HeavyResource.dtor_pieces, shared_db_resource] at hdrop
        obtain ⟨rfl, rfl⟩ := hdrop
        simp at hcase
        subst hcase
        exact ⟨fun k c hk hkc => hwork k c hk (hkeep k c hk hkc), _, d, hhead _,
          Or.inr ⟨1, by omega, by simp [HeavyResource.dtor_pieces, shared_db_resource], by simpa using hlen,
            hzero, by simp [hout, HeavyResource.dtor_pieces, shared_db_resource], hkeepB⟩⟩
      · simp [HeavyResource.dtor_pieces, shared_db_resource] at hdrop
        obtain ⟨rfl, rfl⟩ := hdrop
        simp at hcase
        subst hcase
        exact ⟨fun k c hk hkc => hwork k c hk (hkeep k c hk hkc), _, d, hhead _,
          Or.inr ⟨2, by omega, by simp [HeavyResource.dtor_pieces, shared_db_resource], by simpa using hlen,
            hzero, by simp [hout, HeavyResource.dtor_pieces, shared_db_resource], hkeepB⟩⟩
      · simp [HeavyResource.dtor_pieces, shared_db_resource] at hdrop
        obtain ⟨rfl, rfl⟩ := hdrop
        simp at hcase
        subst hcase
        exact ⟨fun k c hk hkc => hwork k c hk (hkeep k c hk hkc), _, d, hhead _,
          Or.inr ⟨3, by omega, by simp [HeavyResource.dtor_pieces, shared_db_resource], by simpa using hlen,
            hzero, by simp [hout, HeavyResource.dtor_pieces, shared_db_resource], hkeepB⟩⟩
  · -- a step of one of the other threads
    have ht1 : 1 ≤ t := by omega
    obtain ⟨a, rest, hc, _⟩ := step_cases h
    obtain ⟨x, d', hx, hwx, hox⟩ := worker_step h hc (hwork t _ ht1 hc)
    have hm' : s'.threads[0]? = some m := by
      rw [hx, List.getElem?_set_ne ht]
      exact hm
    have hwork' : ∀ (k : Nat) (c : List Action), 1 ≤ k → s'.threads[k]? = some c →
        worker c = true := by
      intro k c hk hkc
      rw [hx] at hkc
      rcases getElem?_set_cases hkc with ⟨_, rfl, _⟩ | ⟨_, hkc'⟩
      · exact hwx
      · exact hwork k c hk hkc'
    refine ⟨hwork', m, d ++ d', hm', ?_⟩
    rcases hphase with ⟨i, hi, hdrop, hlen, hout, hjoin⟩ | ⟨j, hj, hdrop, hlen, hzero, hout, hfin⟩
    · refine Or.inl ⟨i, hi, hdrop, by rw [hx, List.length_set, hlen], by simp [hox, hout], ?_⟩
      intro k c hk hkc
      rw [hx] at hkc
      rcases getElem?_set_cases hkc with ⟨rfl, _, _⟩ | ⟨_, hkc'⟩
      · rcases hjoin k _ hk hc with hj | hj
        · exact Or.inl hj
        · cases hj
      · exact hjoin k c hk hkc'
    · cases hfin t _ ht1 hc

theorem DemoInv_init (out : Output) :
    DemoInv (thread_demo_init out).out (thread_demo_init out) := by
  refine ⟨rfl, ⟨?_, ?_⟩, ?_, ?_, thread_demo_actions, [], rfl,
    Or.inl ⟨0, by omega, rfl, rfl, by simp, ?_⟩⟩
  · intro t c hc
    cases t with
    | zero =>
      simp only [thread_demo_init, List.getElem?_cons_zero, Option.some.injEq] at hc
      subst hc
      simp [thread_demo_actions, lock_ok, in_critical_section, thread_demo_init]
    | succ t => simp [thread_demo_init] at hc
  · intro t ht
    simp [thread_demo_init] at ht
  · simp [thread_demo_init, Shared.make, total, weight_of, thread_demo_actions, handle_weight]
  · intro k c hk hkc
    cases k with
    | zero => omega
    | succ k => simp [thread_demo_init] at hkc
  · intro k c hk hkc
    cases k with
    | zero => omega
    | succ k => simp [thread_demo_init] at hkc

theorem DemoInv_run (out : Output) (sched : List Nat) (s : State)
    (h : run sched (thread_demo_init out) = some s) :
    DemoInv (thread_demo_init out).out s :=
  run_induction (DemoInv (thread_demo_init out).out) (DemoInv_step _) sched _ s
    (DemoInv_init out) h

/-! ## Progress -/

theorem release_enabled (s : State) (hcnt : s.use_count = total handle_weight s) (t : Nat)
    (rest : List Action) (hc : s.threads[t]? = some (Action.release_handle :: rest)) :
    (step t s).isSome = true := by
  have h1 := weight_le_total handle_weight s.threads t _ hc
  have h2 : 1 ≤ s.use_count := by
    simp only [weight_of_cons, handle_weight] at h1
    simp only [total] at hcnt
    omega
  have h0 : ¬ s.use_count = 0 := by omega
  simp only [step, hc, h0, if_false]
  split <;> rfl

/-- A thread other than thread 0 that has not finished, or the thread it waits
for, can take a step. -/
theorem worker_progress (s : State) (hmx : MutexInv s)
    (hcnt : s.use_count = total handle_weight s)
    (hwork : ∀ (k : Nat) (c : List Action), 1 ≤ k → s.threads[k]? = some c → worker c = true)
    (hmain : s.global_mutex ≠ some 0) (k : Nat) (hk : 1 ≤ k) (c : List Action)
    (hc : s.threads[k]? = some c) (hne : c ≠ []) : ∃ t, (step t s).isSome = true := by
  cases c with
  | nil => exact absurd rfl hne
  | cons a rest =>
    have hw := hwork k _ hk hc
    obtain ⟨hok, hiff⟩ := hmx.1 k _ hc
    cases a with
    | write p => exact ⟨k, by simp [step, hc]⟩
    | release_handle => exact ⟨k, release_enabled s hcnt k rest hc⟩
    | spawn f n => simp [worker] at hw
    | join j => simp [worker] at hw
    | unlock =>
      have hin : in_critical_section (Action.unlock :: rest) = true := by
        simp only [lock_ok, Bool.and_eq_true, Bool.not_eq_true'] at hok
        unfold in_critical_section
        rw [List.contains_cons, List.contains_cons, hok.2]
        rfl
      exact ⟨k, by simp [step, hc, hiff.mp hin]⟩
    | lock =>
      cases hmu : s.global_mutex with
      | none => exact ⟨k, by simp [step, hc, hmu]⟩
      | some h =>
        have hlt := hmx.2 h hmu
        have hch : s.threads[h]? = some (s.threads.get ⟨h, hlt⟩) :=
          List.getElem?_eq_getElem hlt
        have hh : 1 ≤ h := by
          rcases Nat.eq_zero_or_pos h with h0 | h0
          · subst h0; exact absurd hmu hmain
          · exact h0
        have hwh := hwork h _ hh hch
        have hinh := (hmx.1 h _ hch).2.mpr hmu
        generalize s.threads.get ⟨h, hlt⟩ = ch at hch hwh hinh
        cases ch with
        | nil => simp [in_critical_section] at hinh
        | cons b r =>
          cases b with
          | write p => exact ⟨h, by simp [step, hch]⟩
          | release_handle => exact ⟨h, release_enabled s hcnt h r hch⟩
          | spawn f n => simp [worker] at hwh
          | join j => simp [worker] at hwh
          | unlock => exact ⟨h, by simp [step, hch, hmu]⟩
          | lock => simp [in_critical_section, List.contains_cons] at hinh

theorem demo_join_facts (i : Nat) (hi : i ≤ 9) (k : Nat) (rest : List Action)
    (hdrop : Action.join k :: rest = thread_demo_actions.drop i) :
    1 ≤ k ∧ k < demo_threads i := by
  interval_cases i <;> simp [thread_demo_actions] at hdrop <;>
    simp [demo_threads, hdrop.1]

theorem demo_main_outside (i : Nat) :
    in_critical_section (thread_demo_actions.drop i) = false := by
  rcases Nat.lt_or_ge i 11 with hi | hi
  · interval_cases i <;> simp [thread_demo_actions, in_critical_section]
  · rw [List.drop_eq_nil_of_le (by simp [thread_demo_actions]; omega)]
    rfl

/-- While `thread_demo` has not returned, some thread can take a step: no
interleaving ends in a deadlock. -/
theorem demo_progress (base : Output) (s : State) (hinv : DemoInv base s)
    (hrun : s.threads.head? ≠ some []) : ∃ t, (step t s).isSome = true := by
  obtain ⟨hres, hmx, hcnt, hwork, m, d, hm, hphase⟩ := hinv
  have hne : m ≠ [] := by
    intro he
    apply hrun
    rw [List.head?_eq_getElem?, hm, he]
  have hmain : s.global_mutex ≠ some 0 := by
    intro hmu
    have hin := (hmx.1 0 m hm).2.mpr hmu
    rcases hphase with ⟨i, _, hdrop, _⟩ | ⟨j, _, hdrop, _⟩
    · rw [hdrop, demo_main_outside] at hin
      cases hin
    · rw [hdrop, pool_dtor_facts] at hin
      cases hin
  cases m with
  | nil => exact absurd rfl hne
  | cons a rest =>
    cases a with
    | write p => exact ⟨0, by simp [step, hm]⟩
    | release_handle => exact ⟨0, release_enabled s hcnt 0 rest hm⟩
    | lock =>
      exfalso
      rcases hphase with ⟨i, hi, hdrop, _⟩ | ⟨j, hj, hdrop, _⟩
      · exact (demo_lock_facts i hi _ rest hdrop).1 rfl
      · interval_cases j <;> simp [HeavyResource.dtor_pieces] at hdrop
    | unlock =>
      exfalso
      rcases hphase with ⟨i, hi, hdrop, _⟩ | ⟨j, hj, hdrop, _⟩
      · exact (demo_lock_facts i hi _ rest hdrop).2 rfl
      · interval_cases j <;> simp [HeavyResource.dtor_pieces] at hdrop
    | spawn f n =>
      rcases hphase with ⟨i, hi, hdrop, _⟩ | ⟨j, hj, hdrop, _⟩
      · have h1 := weight_le_total handle_weight s.threads 0 _ hm
        have h2 : weight_of handle_weight (thread_demo_actions.drop i) = 1 := by
          interval_cases i <;> simp [thread_demo_actions, weight_of, handle_weight]
        rw [hdrop, h2] at h1
        have h0 : ¬ s.use_count = 0 := by
          simp only [total] at hcnt
          omega
        exact ⟨0, by simp [step, hm, h0]⟩
      · exfalso
        interval_cases j <;> simp [HeavyResource.dtor_pieces] at hdrop
    | join k =>
      rcases hphase with ⟨i, hi, hdrop, hlen, _⟩ | ⟨j, hj, hdrop, _⟩
      · obtain ⟨hk, hklt⟩ := demo_join_facts i hi k rest hdrop
        have hklt' : k < s.threads.length := by omega
        have hck : s.threads[k]? = some (s.threads.get ⟨k, hklt'⟩) :=
          List.getElem?_eq_getElem hklt'
        generalize s.threads.get ⟨k, hklt'⟩ = ck at hck
        cases ck with
        | nil => exact ⟨0, by simp [step, hm, hck]⟩
        | cons b r => exact worker_progress s hmx hcnt hwork hmain k hk _ hck (by simp)
      · exfalso
        interval_cases j <;> simp [HeavyResource.dtor_pieces] at hdrop

/-! ## The return of `thread_demo` -/

theorem demo_pieces_count (p : String) :
    weight_of (piece_weight shared_db_resource p) thread_demo_actions = demo_pieces.count p := by
  simp [thread_demo_actions, weight_of, piece_weight, Entry.body, critical_pieces, locked_pieces,
    unlocked_pieces, warning_start_pieces, warning_finish_pieces,
    HeavyResource.performOperation_pieces, demo_pieces, List.count_cons, shared_db_resource,
    unguarded_pieces, without_mutex_header]
  omega

/-- The state in which `thread_demo` returns. -/
theorem demo_final (out : Output) (sched : List Nat) (s : State)
    (h : run sched (thread_demo_init out) = some s) (hret : s.threads.head? = some []) :
    s.threads = [[], [], [], [], []] ∧ s.use_count = 0 ∧ s.global_mutex = none ∧
    ∃ d, s.out = (thread_demo_init out).out ++ d ++ shared_db_resource.dtor_pieces ∧
      d.Perm demo_pieces := by
  obtain ⟨hres, hmx, hcnt, hwork, m, d, hm, hphase⟩ := DemoInv_run out sched s h
  have hm0 : m = [] := by
    rw [List.head?_eq_getElem?, hm] at hret
    simpa using hret
  subst hm0
  rcases hphase with ⟨i, hi, hdrop, _⟩ | ⟨j, hj, hdrop, hlen, hzero, hout, hfin⟩
  · exfalso
    interval_cases i <;> simp [thread_demo_actions] at hdrop
  · have hj3 : j = 3 := by
      interval_cases j <;> first | rfl | simp [HeavyResource.dtor_pieces] at hdrop
    subst hj3
    have hall : ∀ c ∈ s.threads, c = [] := by
      intro c hc
      obtain ⟨k, hk⟩ := List.mem_iff_getElem?.mp hc
      rcases Nat.eq_zero_or_pos k with h0 | h0
      · subst h0
        rw [hm] at hk
        simpa using hk.symm
      · exact hfin k c h0 hk
    have hthreads : s.threads = [[], [], [], [], []] := by
      have := List.eq_replicate_iff.mpr ⟨hlen, hall⟩
      simpa using this
    have hmu : s.global_mutex = none := by
      cases hmu : s.global_mutex with
      | none => rfl
      | some t =>
        exfalso
        have hlt := hmx.2 t hmu
        have hct : s.threads[t]? = some (s.threads.get ⟨t, hlt⟩) :=
          List.getElem?_eq_getElem hlt
        have hin := (hmx.1 t _ hct).2.mpr hmu
        rw [hall _ (List.get_mem _ _ _)] at hin
        simp [in_critical_section] at hin
    have hout' : s.out = (thread_demo_init out).out ++ d ++ shared_db_resource.dtor_pieces := by
      simpa [HeavyResource.dtor_pieces] using hout
    refine ⟨hthreads, hzero, hmu, d, hout', ?_⟩
    rw [List.perm_iff_count]
    intro p
    have hb := piece_budget_run p sched _ s h
    have htot : total (piece_weight s.res p) s = 0 := by
      simp [total, hthreads, weight_of]
    have hinit : piece_budget p (thread_demo_init out)
        = (thread_demo_init out).out.count p + demo_pieces.count p
          + shared_db_resource.dtor_pieces.count p := by
      rw [← demo_pieces_count]
      simp [piece_budget, thread_demo_init, Shared.make, total, shared_db_resource]
    rw [hinit] at hb
    simp only [piece_budget, htot, hzero, if_true, hout', List.count_append] at hb
    omega

/-! ## Every interleaving can be completed -/

theorem run_append (a b : List Nat) :
    ∀ (s : State), run (a ++ b) s = (run a s).bind (run b) := by
  induction a with
  | nil => intro s; rfl
  | cons t a ih =>
    intro s
    simp only [List.cons_append, run]
    cases step t s with
    | none => rfl
    | some s1 => exact ih s1

/-- From every state that `thread_demo` can reach, some interleaving takes it to its return. -/
theorem demo_completes (base : Output) :
    ∀ (n : Nat) (s : State), steps_left s ≤ n → DemoInv base s →
      ∃ ext s', run ext s = some s' ∧ s'.threads.head? = some [] := by
  intro n
  induction n with
  | zero =>
    intro s hn hinv
    by_cases hret : s.threads.head? = some []
    · exact ⟨[], s, rfl, hret⟩
    · obtain ⟨t, ht⟩ := demo_progress base s hinv hret
      obtain ⟨s1, hs1⟩ := Option.isSome_iff_exists.mp ht
      have := steps_left_step t s s1 hs1
      omega
  | succ n ih =>
    intro s hn hinv
    by_cases hret : s.threads.head? = some []
    · exact ⟨[], s, rfl, hret⟩
    · obtain ⟨t, ht⟩ := demo_progress base s hinv hret
      obtain ⟨s1, hs1⟩ := Option.isSome_iff_exists.mp ht
      have hlt := steps_left_step t s s1 hs1
      obtain ⟨ext, s', hrun, hfin⟩ := ih s1 (by omega) (DemoInv_step base t s s1 hinv hs1)
      exact ⟨t :: ext, s', by simp [run, hs1, hrun], hfin⟩

/-! ## `thread_demo` and `main` -/

/-- What `thread_demo` has written when it returns: the three lines before the
first thread, a permutation of the pieces of the five threads, and the
destructor line of `Critical_Database` at the very end. -/
theorem thread_demo_spec (sched : List Nat) (out0 out : Output)
    (h : thread_demo sched out0 = some out) :
    ∃ d, out = (thread_demo_init out0).out ++ d ++ shared_db_resource.dtor_pieces ∧
      d.Perm demo_pieces := by
  unfold thread_demo at h
  cases hrun : run sched (thread_demo_init out0) with
  | none => simp [hrun] at h
  | some s =>
    simp only [hrun] at h
    split at h
    · rename_i hret
      simp only [Option.some.injEq] at h
      subst h
      obtain ⟨_, _, _, d, hout, hperm⟩ := demo_final out0 sched s hrun hret
      exact ⟨d, hout, hperm⟩
    · cases h

theorem main_to_threads_eq : ∃ sh, main_to_threads = some sh ∧ sh.res = ⟨"Main_Log"⟩ ∧
    sh.use_count = 1 ∧ (thread_demo_init sh.out).out = main_before_threads :=
  ⟨_, rfl, rfl, rfl, by decide⟩

/-- The output of `main` in `Main2.cpp`, for every interleaving of its threads. -/
theorem main_spec (sched : List Nat) (out : Output) (h : main sched = some out) :
    ∃ d, d.Perm demo_pieces ∧
      out = main_before_threads ++ d ++ shared_db_resource.dtor_pieces ++ main_after_threads ++
        ["[Resource] Destructor: ", "Main_Log", " closed and released.\n"] := by
  obtain ⟨sh, hsh, hres, hcount, hbefore⟩ := main_to_threads_eq
  unfold main at h
  simp only [hsh] at h
  cases htd : thread_demo sched sh.out with
  | none => simp [htd] at h
  | some o =>
    obtain ⟨d, ho, hperm⟩ := thread_demo_spec sched sh.out o htd
    simp only [htd, Shared.drop, hcount, one_ne_zero, if_false, if_true,
      Option.some.injEq] at h
    refine ⟨d, hperm, ?_⟩
    rw [← h, ho, hbefore, hres]
    simp [main_after_threads, HeavyResource.dtor_pieces]

theorem occurrences_skip (a m c : String) (mid : Output) (hm : m ∉ mid) :
    ∀ (rest : Output), rest.head? ≠ some m →
      occurrences [a, m, c] (mid ++ rest) = occurrences [a, m, c] rest := by
  induction mid with
  | nil => intro rest _; rfl
  | cons x mid ih =>
    intro rest hrest
    have hm' : m ∉ mid := fun hin => hm (List.mem_cons_of_mem _ hin)
    have hxm : m ≠ x := fun he => hm (by simp [he])
    have hpre : List.isPrefixOf [a, m, c] (x :: (mid ++ rest)) = false := by
      cases mid with
      | nil =>
        cases rest with
        | nil => simp [List.isPrefixOf]
        | cons y rest =>
          have hy : m ≠ y := by
            intro he
            apply hrest
            simp [he]
          simp [List.isPrefixOf, hy]
      | cons y mid =>
        have hy : m ≠ y := fun he => hm (by simp [he])
        simp [List.isPrefixOf, hy]
    have hunf : occurrences [a, m, c] (x :: mid ++ rest)
        = (if List.isPrefixOf [a, m, c] (x :: (mid ++ rest)) = true then 1 else 0)
          + occurrences [a, m, c] (mid ++ rest) := rfl
    rw [hunf, hpre, ih hm' rest hrest]
    simp

/-! ## The blocks of the threads 1 and 2 of `thread_demo` -/

theorem step_out_append {t : Nat} {s s' : State} (h : step t s = some s') :
    ∃ d, s'.out = s.out ++ d := by
  obtain ⟨a, rest, _, h⟩ := total_step handle_weight h
  rcases h with ⟨_, _, _, ho, _⟩ | ⟨_, _, _, ho, _⟩ | ⟨_, _, _, _, _, ho, _⟩ |
    ⟨p, _, _, ho, _⟩ | ⟨_, _, ho, _⟩
  · exact ⟨[], by simp [ho]⟩
  · exact ⟨[], by simp [ho]⟩
  · exact ⟨[], by simp [ho]⟩
  · exact ⟨[p], ho⟩
  · exact ⟨[], by simp [ho]⟩

theorem two_weights (w : Action → Nat) (l : List (List Action)) (t : Nat) (m c : List Action)
    (ht : t ≠ 0) (hm : l[0]? = some m) (hc : l[t]? = some c) :
    weight_of w m + weight_of w c ≤ (l.map (weight_of w)).sum := by
  cases l with
  | nil => simp at hm
  | cons m' cs =>
    simp only [List.getElem?_cons_zero, Option.some.injEq] at hm
    subst hm
    obtain ⟨k, rfl⟩ := Nat.exists_eq_succ_of_ne_zero ht
    simp only [List.getElem?_cons_succ] at hc
    have := weight_le_total w cs k c hc
    simp only [List.map_cons, List.sum_cons]
    omega

/-- A step of a thread inside `access_resource_with_mutex`, other than the
destruction of the last handle, takes the thread to its next action. -/
theorem body_step (r : HeavyResource) (n : String) (t : Nat) (s s' : State) (i : Nat)
    (hi : i ≤ 12) (h : step t s = some s')
    (hbody : s.threads[t]? = some ((Entry.access_resource_with_mutex.body r n).drop i))
    (h2 : i = 11 → 2 ≤ s.use_count) :
    s'.threads = s.threads.set t ((Entry.access_resource_with_mutex.body r n).drop (i + 1)) := by
  obtain ⟨a, rest, hc, hcase⟩ := step_cases h
  have heq : a :: rest = (Entry.access_resource_with_mutex.body r n).drop i := by
    rw [hbody] at hc
    exact (Option.some.inj hc).symm
  interval_cases i
  · simp [Entry.body, critical_pieces, locked_pieces, unlocked_pieces,
      HeavyResource.performOperation_pieces] at heq
    obtain ⟨rfl, rfl⟩ := heq
    simp at hcase
    obtain ⟨-, rfl⟩ := hcase
    simp [Entry.body, critical_pieces, locked_pieces, unlocked_pieces,
      HeavyResource.performOperation_pieces]
  · simp [Entry.body, critical_pieces, locked_pieces, unlocked_pieces,
      HeavyResource.performOperation_pieces] at heq
    obtain ⟨rfl, rfl⟩ := heq
    simp at hcase
    subst hcase
    simp [Entry.body, critical_pieces, locked_pieces, unlocked_pieces,
      HeavyResource.performOperation_pieces]
  · simp [Entry.body, critical_pieces, locked_pieces, unlocked_pieces,
      HeavyResource.performOperation_pieces] at heq
    obtain ⟨rfl, rfl⟩ := heq
    simp at hcase
    subst hcase
    simp [Entry.body, critical_pieces, locked_pieces, unlocked_pieces,
      HeavyResource.performOperation_pieces]
  · simp [Entry.body, critical_pieces, locked_pieces, unlocked_pieces,
      HeavyResource.performOperation_pieces] at heq
    obtain ⟨rfl, rfl⟩ := heq
    simp at hcase
    subst hcase
    simp [Entry.body, critical_pieces, locked_pieces, unlocked_pieces,
      HeavyResource.performOperation_pieces]
  · simp [Entry.body, critical_pieces, locked_pieces, unlocked_pieces,
      HeavyResource.performOperation_pieces] at heq
    obtain ⟨rfl, rfl⟩ := heq
    simp at hcase
    subst hcase
    simp [Entry.body, critical_pieces, locked_pieces, unlocked_pieces,
      HeavyResource.performOperation_pieces]
  · simp [Entry.body, critical_pieces, locked_pieces, unlocked_pieces,
      HeavyResource.performOperation_pieces] at heq
    obtain ⟨rfl, rfl⟩ := heq
    simp at hcase
    subst hcase
    simp [Entry.body, critical_pieces, locked_pieces, unlocked_pieces,
      HeavyResource.performOperation_pieces]
  · simp [Entry.body, critical_pieces, locked_pieces, unlocked_pieces,
      HeavyResource.performOperation_pieces] at heq
    obtain ⟨rfl, rfl⟩ := heq
    simp at hcase
    subst hcase
    simp [Entry.body, critical_pieces, locked_pieces, unlocked_pieces,
      HeavyResource.performOperation_pieces]
  · simp [Entry.body, critical_pieces, locked_pieces, unlocked_pieces,
      HeavyResource.performOperation_pieces] at heq
    obtain ⟨rfl, rfl⟩ := heq
    simp at hcase
    subst hcase
    simp [Entry.body, critical_pieces, locked_pieces, unlocked_pieces,
      HeavyResource.performOperation_pieces]
  · simp [Entry.body, critical_pieces, locked_pieces, unlocked_pieces,
      HeavyResource.performOperation_pieces] at heq
    obtain ⟨rfl, rfl⟩ := heq
    simp at hcase
    subst hcase
    simp [Entry.body, critical_pieces, locked_pieces, unlocked_pieces,
      HeavyResource.performOperation_pieces]
  · simp [Entry.body, critical_pieces, locked_pieces, unlocked_pieces,
      HeavyResource.performOperation_pieces] at heq
    obtain ⟨rfl, rfl⟩ := heq
    simp at hcase
    subst hcase
    simp [Entry.body, critical_pieces, locked_pieces, unlocked_pieces,
      HeavyResource.performOperation_pieces]
  · simp [Entry.body, critical_pieces, locked_pieces, unlocked_pieces,
      HeavyResource.performOperation_pieces] at heq
    obtain ⟨rfl, rfl⟩ := heq
    simp at hcase
    obtain ⟨-, rfl⟩ := hcase
    simp [Entry.body, critical_pieces, locked_pieces, unlocked_pieces,
      HeavyResource.performOperation_pieces]
  · simp [Entry.body, critical_pieces, locked_pieces, unlocked_pieces,
      HeavyResource.performOperation_pieces] at heq
    obtain ⟨rfl, rfl⟩ := heq
    simp at hcase
    rcases hcase with ⟨h1, _⟩ | ⟨-, rfl⟩
    · have := h2 rfl
      omega
    · simp [Entry.body, critical_pieces, locked_pieces, unlocked_pieces,
      HeavyResource.performOperation_pieces]
  · simp [Entry.body, critical_pieces, locked_pieces, unlocked_pieces,
      HeavyResource.performOperation_pieces] at heq

/-- A step that writes nothing, leaves the mutex alone and changes no thread
that has at most one action left keeps the invariant of the output. -/
theorem BlocksInv_frame (r : HeavyResource) (names : List String) (out0 : Output)
    (s s' : State) (order : List Nat) (hinv : BlocksInv r names out0 s order)
    (hout : s'.out = s.out) (hmu : s'.global_mutex = s.global_mutex)
    (hshort : ∀ t : Nat, (∃ c, s'.threads[t]? = some c ∧ c.length ≤ 1) ↔
      (∃ c, s.threads[t]? = some c ∧ c.length ≤ 1))
    (hkeep : ∀ (t : Nat) (c : List Action), s.global_mutex = some t →
      s.threads[t]? = some c → s'.threads[t]? = some c) :
    BlocksInv r names out0 s' order := by
  obtain ⟨hnd, hmem, hcur⟩ := hinv
  refine ⟨hnd, fun t => (hmem t).trans (hshort t).symm, ?_⟩
  rw [hout, hmu]
  rcases hcur with hfree | ⟨t, n, i, hm, hn, hc, h1, h10, ho⟩
  · exact Or.inl hfree
  · exact Or.inr ⟨t, n, i, hm, hn, hkeep t _ hm hc, h1, h10, ho⟩

theorem demo_spawn_names (i : Nat) (hi : i ≤ 4) (f : Entry) (n : String) (rest : List Action)
    (hdrop : Action.spawn f n :: rest = thread_demo_actions.drop i) :
    f = Entry.access_resource_with_mutex ∧ demo_names[demo_threads i]? = some n := by
  interval_cases i <;> simp [thread_demo_actions] at hdrop <;>
    simp [demo_threads, demo_names, hdrop.1]

theorem demo_phase1_facts (i : Nat) (hi : i ≤ 4) (a : Action) (rest : List Action)
    (hdrop : a :: rest = thread_demo_actions.drop i) :
    (∀ p, a = Action.write p →
      p = "\n-- Running Without Mutex (Concurrent Access) --\n" ∧ rest.length = 5 ∧
        demo_threads i = 3 ∧ Action.join 1 ∉ a :: rest ∧ Action.join 2 ∉ a :: rest) ∧
    (a ≠ Action.release_handle) ∧
    ((∃ f n, a = Action.spawn f n) ∨ (∃ k, a = Action.join k) → 6 ≤ rest.length) ∧
    weight_of handle_weight (a :: rest) = 1 := by
  interval_cases i <;> simp [thread_demo_actions] at hdrop <;>
    obtain ⟨rfl, rfl⟩ := hdrop <;> simp [demo_threads, weight_of, handle_weight]

/-- Every step keeps the invariant of the output of `thread_demo`. -/
theorem DemoOutInv_step (base : Output) (t : Nat) (s s' : State) (hdemo : DemoInv base s)
    (hinv : DemoOutInv base s) (h : step t s = some s') : DemoOutInv base s' := by
  obtain ⟨hres, hmx, hcnt, hwork, m, d, hm, hphase⟩ := hdemo
  obtain ⟨m', hm', hcases⟩ := hinv
  have hmm : m' = m := by
    rw [hm] at hm'
    exact (Option.some.inj hm').symm
  subst hmm
  have hpos : 0 < s.threads.length := getElem?_lt hm
  obtain ⟨dl, hdl⟩ := step_out_append h
  have hmain0 : s.global_mutex ≠ some 0 := by
    intro hmu
    have hin := (hmx.1 0 m' hm).2.mpr hmu
    rcases hphase with ⟨i, _, hdrop, _⟩ | ⟨j, _, hdrop, _⟩
    · rw [hdrop, demo_main_outside] at hin
      cases hin
    · rw [hdrop, pool_dtor_facts] at hin
      cases hin
  rcases hcases with ⟨hlen6, hshape, order, hblocks⟩ | ⟨hlen5, order, d2, hperm, hout⟩
  · -- before the line that announces the threads without mutex
    rcases hphase with ⟨i, hi, hdrop, hlen, _, hjoin⟩ | ⟨j, hj, hdrop, _⟩
    swap
    · exfalso
      rw [hdrop] at hlen6
      simp [HeavyResource.dtor_pieces] at hlen6
      omega
    have hi4 : i ≤ 4 := by
      rw [hdrop] at hlen6
      simp [thread_demo_actions] at hlen6
      omega
    by_cases ht : t = 0
    · subst ht
      obtain ⟨a, rest, hc, hcase⟩ := step_cases h
      rw [hm] at hc
      simp only [Option.some.injEq] at hc
      subst hc
      obtain ⟨hwrite, hnorel, hlong, _⟩ := demo_phase1_facts i hi4 a rest hdrop
      have hhead : ∀ x, (s.threads.set 0 x)[0]? = some x := fun x =>
        List.getElem?_set_self hpos
      have hold : ∀ (k : Nat) (c : List Action), k ≠ 0 →
          ((s.threads.set 0 rest)[k]? = some c ↔ s.threads[k]? = some c) := by
        intro k c hk
        rw [List.getElem?_set_ne (Ne.symm hk)]
      rcases hcase with ⟨p, rfl, rfl⟩ | ⟨rfl, _, _⟩ | ⟨rfl, _, _⟩ | ⟨rfl, _, _⟩ |
        ⟨rfl, _, _⟩ | ⟨f, n, rfl, _, rfl⟩ | ⟨k0, rfl, hk0, rfl⟩
      · -- the line is written: both threads have been joined
        obtain ⟨rfl, hrl, h3, hj1, hj2⟩ := hwrite p rfl
        have hfin : ∀ (k : Nat) (c : List Action), 1 ≤ k → s.threads[k]? = some c → c = [] := by
          intro k c hk hkc
          have hk3 : k < 3 := by
            have := getElem?_lt hkc
            omega
          rcases hjoin k c hk hkc with hj | hj
          · exfalso
            interval_cases k
            · exact hj1 hj
            · exact hj2 hj
          · exact hj
        obtain ⟨hnd, hmem, hcur⟩ := hblocks
        refine ⟨rest, hhead rest, Or.inr ⟨by omega, order, [], ?_, ?_⟩⟩
        · rw [List.perm_ext_iff_of_nodup hnd (by decide)]
          intro k
          rw [hmem k]
          constructor
          · rintro ⟨c, hkc, hl⟩
            have hk3 : k < 3 := by
              have := getElem?_lt hkc
              omega
            have hk0 : k ≠ 0 := by
              rintro rfl
              rw [hm] at hkc
              simp only [Option.some.injEq] at hkc
              subst hkc
              simp only [List.length_cons] at hl
              omega
            interval_cases k
            · exact absurd rfl hk0
            · simp
            · simp
          · intro hk
            have hk12 : 1 ≤ k ∧ k < 3 := by
              simp only [List.mem_cons, List.mem_singleton, List.not_mem_nil, or_false] at hk
              omega
            have hklt : k < s.threads.length := by omega
            obtain ⟨c, hkc⟩ : ∃ c, s.threads[k]? = some c :=
              ⟨_, List.getElem?_eq_getElem hklt⟩
            have hc0 := hfin k c hk12.1 hkc
            subst hc0
            exact ⟨[], hkc, by simp⟩
        · rcases hcur with ⟨_, ho⟩ | ⟨t2, n2, i2, hm2, _, hc2, h1, h10, _⟩
          · simp [ho]
          · exfalso
            have ht2 : 1 ≤ t2 := by
              rcases Nat.eq_zero_or_pos t2 with h0 | h0
              · subst h0; exact absurd hm2 hmain0
              · exact h0
            have := hfin t2 _ ht2 hc2
            have hl := congrArg List.length this
            simp [Entry.body, critical_pieces, locked_pieces, unlocked_pieces,
              HeavyResource.performOperation_pieces] at hl
            omega
      · exact absurd rfl (demo_lock_facts i hi _ rest hdrop).1
      · exact absurd rfl (demo_lock_facts i hi _ rest hdrop).2
      · exact absurd rfl hnorel
      · exact absurd rfl hnorel
      · -- a thread is started
        have h6 := hlong (Or.inl ⟨f, n, rfl⟩)
        obtain ⟨hf, hname⟩ := demo_spawn_names i hi4 f n rest hdrop
        subst hf
        refine ⟨rest, ?_, Or.inl ⟨h6, ?_, order, ?_⟩⟩
        · rw [List.getElem?_append_left (by simpa using hpos)]
          exact hhead rest
        · intro k c hk hkc
          rcases getElem?_append_one_cases hkc with hkc' | ⟨hk', rfl⟩
          · exact hshape k c hk ((hold k c (by omega)).mp hkc')
          · simp only [List.length_set] at hk'
            rw [hk', hlen]
            exact ⟨n, 0, hname, by omega, by rw [hres]; rfl⟩
        · refine BlocksInv_frame _ _ _ s _ order hblocks rfl rfl ?_ ?_
          · intro k
            constructor
            · rintro ⟨c, hkc, hl⟩
              rcases getElem?_append_one_cases hkc with hkc' | ⟨_, rfl⟩
              · rcases getElem?_set_cases hkc' with ⟨_, rfl, _⟩ | ⟨_, hkc''⟩
                · omega
                · exact ⟨c, hkc'', hl⟩
              · simp [Entry.body, critical_pieces, locked_pieces, unlocked_pieces,
                  HeavyResource.performOperation_pieces] at hl
            · rintro ⟨c, hkc, hl⟩
              have hk0 : k ≠ 0 := by
                rintro rfl
                rw [hm] at hkc
                simp only [Option.some.injEq] at hkc
                subst hkc
                simp only [List.length_cons] at hl
                omega
              refine ⟨c, ?_, hl⟩
              rw [List.getElem?_append_left (by simpa using getElem?_lt hkc)]
              exact (hold k c hk0).mpr hkc
          · intro k c hmk hkc
            have hk0 : k ≠ 0 := by
              rintro rfl
              exact hmain0 hmk
            rw [List.getElem?_append_left (by simpa using getElem?_lt hkc)]
            exact (hold k c hk0).mpr hkc
      · -- a thread is joined
        have h6 := hlong (Or.inr ⟨k0, rfl⟩)
        refine ⟨rest, hhead rest, Or.inl ⟨h6, ?_, order, ?_⟩⟩
        · intro k c hk hkc
          exact hshape k c hk ((hold k c (by omega)).mp hkc)
        · refine BlocksInv_frame _ _ _ s _ order hblocks rfl rfl ?_ ?_
          · intro k
            constructor
            · rintro ⟨c, hkc, hl⟩
              rcases getElem?_set_cases hkc with ⟨_, rfl, _⟩ | ⟨_, hkc''⟩
              · omega
              · exact ⟨c, hkc'', hl⟩
            · rintro ⟨c, hkc, hl⟩
              have hk0 : k ≠ 0 := by
                rintro rfl
                rw [hm] at hkc
                simp only [Option.some.injEq] at hkc
                subst hkc
                simp only [List.length_cons] at hl
                omega
              exact ⟨c, (hold k c hk0).mpr hkc, hl⟩
          · intro k c hmk hkc
            have hk0 : k ≠ 0 := by
              rintro rfl
              exact hmain0 hmk
            exact (hold k c hk0).mpr hkc
    · -- a step of thread 1 or 2
      have ht1 : 1 ≤ t := by omega
      obtain ⟨a, rest, hc, _⟩ := step_cases h
      obtain ⟨n, it, hn, hit, hbody⟩ := hshape t _ ht1 hc
      have hbody' : s.threads[t]? =
          some ((Entry.access_resource_with_mutex.body shared_db_resource n).drop it) := by
        rw [hc, hbody]
      have hit11 : it ≤ 11 := by
        rcases Nat.lt_or_ge it 12 with hlt | hge
        · omega
        · exfalso
          have : it = 12 := by omega
          subst this
          simp [Entry.body, critical_pieces, locked_pieces, unlocked_pieces,
            HeavyResource.performOperation_pieces] at hbody
      have h2 : it = 11 → 2 ≤ s.use_count := by
        intro h11
        subst h11
        have hw := two_weights handle_weight s.threads t m' _ ht hm hc
        rw [hbody, (pool_body_facts shared_db_resource n 11 (by omega)).2 (by omega), hdrop] at hw
        have hw1 : weight_of handle_weight (thread_demo_actions.drop i) = 1 := by
          interval_cases i <;> simp [thread_demo_actions, weight_of, handle_weight]
        simp only [total] at hcnt
        omega
      rw [← hres] at hbody'
      have hthr' := body_step s.res n t s s' it hit h hbody' h2
      rw [hres] at hbody' hthr'
      obtain ⟨order', hblocks'⟩ := BlocksInv_worker_step shared_db_resource demo_names base t s s'
        order hmx hblocks h n it hn hit hbody' h2
      refine ⟨m', by rw [hthr', List.getElem?_set_ne ht]; exact hm,
        Or.inl ⟨hlen6, ?_, order', hblocks'⟩⟩
      intro k c hk hkc
      rw [hthr'] at hkc
      rcases getElem?_set_cases hkc with ⟨rfl, rfl, _⟩ | ⟨_, hkc'⟩
      · exact ⟨n, it + 1, hn, by omega, rfl⟩
      · exact hshape k c hk hkc'
  · -- from that line on
    have hout' : s'.out = base ++ blocks shared_db_resource demo_names order ++
        ["\n-- Running Without Mutex (Concurrent Access) --\n"] ++ (d2 ++ dl) := by
      rw [hdl, hout]
      simp
    by_cases ht : t = 0
    · subst ht
      obtain ⟨a, rest, hc, hcase⟩ := step_cases h
      rw [hm] at hc
      simp only [Option.some.injEq] at hc
      subst hc
      have hhead : ∀ x, (s.threads.set 0 x)[0]? = some x := fun x =>
        List.getElem?_set_self hpos
      simp only [List.length_cons] at hlen5
      rcases hcase with ⟨p, rfl, rfl⟩ | ⟨rfl, _, rfl⟩ | ⟨rfl, _, rfl⟩ | ⟨rfl, _, rfl⟩ |
        ⟨rfl, _, rfl⟩ | ⟨f, n, rfl, _, rfl⟩ | ⟨k0, rfl, _, rfl⟩
      · exact ⟨rest, hhead rest, Or.inr ⟨by omega, order, _, hperm, hout'⟩⟩
      · exact ⟨rest, hhead rest, Or.inr ⟨by omega, order, _, hperm, hout'⟩⟩
      · exact ⟨rest, hhead rest, Or.inr ⟨by omega, order, _, hperm, hout'⟩⟩
      · have hrest : rest = [] := by
          rcases hphase with ⟨i, hi, hdrop, _⟩ | ⟨j, hj, hdrop, _⟩
          · exact (demo_release_facts i hi rest hdrop).1
          · exfalso
            interval_cases j <;> simp [HeavyResource.dtor_pieces] at hdrop
        subst hrest
        exact ⟨_, hhead _, Or.inr ⟨by simp [HeavyResource.dtor_pieces], order, _, hperm, hout'⟩⟩
      · exact ⟨rest, hhead rest, Or.inr ⟨by omega, order, _, hperm, hout'⟩⟩
      · refine ⟨rest, ?_, Or.inr ⟨by omega, order, _, hperm, hout'⟩⟩
        rw [List.getElem?_append_left (by simpa using hpos)]
        exact hhead rest
      · exact ⟨rest, hhead rest, Or.inr ⟨by omega, order, _, hperm, hout'⟩⟩
    · have ht1 : 1 ≤ t := by omega
      obtain ⟨a, rest, hc, _⟩ := step_cases h
      obtain ⟨x, _, hx, _, _⟩ := worker_step h hc (hwork t _ ht1 hc)
      exact ⟨m', by rw [hx, List.getElem?_set_ne ht]; exact hm,
        Or.inr ⟨hlen5, order, _, hperm, hout'⟩⟩

theorem DemoOutInv_init (out : Output) :
    DemoOutInv (thread_demo_init out).out (thread_demo_init out) := by
  refine ⟨thread_demo_actions, rfl, Or.inl ⟨by simp [thread_demo_actions], ?_, [],
    List.nodup_nil, ?_, Or.inl ⟨rfl, by simp [blocks]⟩⟩⟩
  · intro k c hk hkc
    cases k with
    | zero => omega
    | succ k => simp [thread_demo_init] at hkc
  · intro t
    simp only [List.not_mem_nil, false_iff, not_exists, not_and]
    intro c hc
    cases t with
    | zero =>
      simp only [thread_demo_init, List.getElem?_cons_zero, Option.some.injEq] at hc
      subst hc
      simp [thread_demo_actions]
    | succ t => simp [thread_demo_init] at hc

theorem DemoOutInv_run (out : Output) (sched : List Nat) (s : State)
    (h : run sched (thread_demo_init out) = some s) :
    DemoOutInv (thread_demo_init out).out s :=
  (run_induction
    (fun x => DemoInv (thread_demo_init out).out x ∧ DemoOutInv (thread_demo_init out).out x)
    (fun t a b ha hb => ⟨DemoInv_step _ t a b ha.1 hb, DemoOutInv_step _ t a b ha.1 ha.2 hb⟩)
    sched _ s ⟨DemoInv_init out, DemoOutInv_init out⟩ h).2

theorem perm_pair (order : List Nat) (h : order.Perm [1, 2]) :
    order = [1, 2] ∨ order = [2, 1] := by
  have hl := h.length_eq
  have hnd : order.Nodup := h.nodup_iff.mpr (by decide)
  match order, hl, hnd, h with
  | [a, b], _, hnd, h =>
    have ha : a ∈ [1, 2] := h.subset (by simp)
    have hb : b ∈ [1, 2] := h.subset (by simp)
    simp only [List.mem_cons, List.mem_singleton, List.not_mem_nil, or_false] at ha hb
    simp only [List.nodup_cons, List.mem_singleton, List.not_mem_nil, not_false_eq_true,
      List.nodup_nil, and_true] at hnd
    rcases ha with rfl | rfl <;> rcases hb with rfl | rfl <;> simp_all

/-- When `thread_demo` returns, its output is: what was there when the first
thread was started; the three lines of thread 1 and the three lines of thread 2,
whole, in one of the two orders; the line that announces the threads without
mutex; a permutation of the pieces of the threads 3 and 4; and the destructor
line of `Critical_Database`. -/
theorem thread_demo_blocks (sched : List Nat) (out0 out : Output)
    (h : thread_demo sched out0 = some out) :
    ∃ d2, d2.Perm (unguarded_pieces shared_db_resource "Thread 3 (No Mutex)" ++
        unguarded_pieces shared_db_resource "Thread 4 (No Mutex)") ∧
      (out = (thread_demo_init out0).out ++
          (critical_pieces shared_db_resource "Thread 1 (Mutex)" ++
           critical_pieces shared_db_resource "Thread 2 (Mutex)") ++
          [without_mutex_header] ++ d2 ++ shared_db_resource.dtor_pieces ∨
       out = (thread_demo_init out0).out ++
          (critical_pieces shared_db_resource "Thread 2 (Mutex)" ++
           critical_pieces shared_db_resource "Thread 1 (Mutex)") ++
          [without_mutex_header] ++ d2 ++ shared_db_resource.dtor_pieces) := by
  unfold thread_demo at h
  cases hrun : run sched (thread_demo_init out0) with
  | none => simp [hrun] at h
  | some s =>
    simp only [hrun] at h
    split at h
    swap
    · cases h
    rename_i hret
    simp only [Option.some.injEq] at h
    subst h
    obtain ⟨_, _, _, d, hout, hperm⟩ := demo_final out0 sched s hrun hret
    obtain ⟨m, hm, hcases⟩ := DemoOutInv_run out0 sched s hrun
    have hm0 : m = [] := by
      rw [List.head?_eq_getElem?, hm] at hret
      simpa using hret
    subst hm0
    rcases hcases with ⟨h6, _⟩ | ⟨_, order, dfull, hord, hout2⟩
    · simp at h6
    have hdlen : d.length = 37 := by
      rw [hperm.length_eq]
      decide
    -- the general argument, for a block part `y` that is a permutation of the two blocks
    have key : ∀ y : List String,
        y.Perm (critical_pieces shared_db_resource "Thread 1 (Mutex)" ++
          critical_pieces shared_db_resource "Thread 2 (Mutex)") →
        s.out = (thread_demo_init out0).out ++ y ++ [without_mutex_header] ++ dfull →
        ∃ d2, d2.Perm (unguarded_pieces shared_db_resource "Thread 3 (No Mutex)" ++
            unguarded_pieces shared_db_resource "Thread 4 (No Mutex)") ∧
          s.out = (thread_demo_init out0).out ++ y ++ [without_mutex_header] ++ d2 ++
            shared_db_resource.dtor_pieces := by
      intro y hy hs
      have hylen : y.length = 18 := by
        rw [hy.length_eq]
        simp [critical_pieces, locked_pieces, unlocked_pieces,
          HeavyResource.performOperation_pieces]
      have heq : d ++ shared_db_resource.dtor_pieces
          = (y ++ [without_mutex_header]) ++ dfull := by
        have := hout.symm.trans hs
        simpa [List.append_assoc] using this
      rcases List.append_eq_append_iff.mp heq with ⟨a', ha', _⟩ | ⟨c', hc', hfull⟩
      · exfalso
        have := congrArg List.length ha'
        simp [hylen, hdlen] at this
        omega
      · refine ⟨c', ?_, ?_⟩
        · have h1 : (y ++ [without_mutex_header] ++ c').Perm demo_pieces := hc' ▸ hperm
          have h2 : (critical_pieces shared_db_resource "Thread 1 (Mutex)" ++
              critical_pieces shared_db_resource "Thread 2 (Mutex)" ++
              [without_mutex_header] ++ c').Perm (y ++ [without_mutex_header] ++ c') :=
            List.Perm.append_right _ (List.Perm.append_right _ hy.symm)
          exact (List.perm_append_left_iff _).mp (h2.trans h1)
        · rw [hs, hfull]
          simp [List.append_assoc]
    rcases perm_pair order hord with rfl | rfl
    · obtain ⟨d2, hd2, hs⟩ := key _ (List.Perm.refl _)
        (by simpa [blocks, demo_names, without_mutex_header] using hout2)
      exact ⟨d2, hd2, Or.inl hs⟩
    · obtain ⟨d2, hd2, hs⟩ := key
        (critical_pieces shared_db_resource "Thread 2 (Mutex)" ++
          critical_pieces shared_db_resource "Thread 1 (Mutex)") List.perm_append_comm
        (by simpa [blocks, demo_names, without_mutex_header] using hout2)
      exact ⟨d2, hd2, Or.inr hs⟩

/-! ## One thread alone -/

/-- A thread that runs `access_resource_with_mutex` alone, on a free mutex and
while the caller keeps a handle, does what the sequential call does: it writes
its three lines, leaves the mutex free and gives its handle back. -/
theorem access_resource_with_mutex_alone (r : HeavyResource) (n : String) (c : Nat)
    (out : Output) (hc : 1 ≤ c) :
    run (List.replicate 12 0)
        ⟨r, c + 1, none, out, [Entry.access_resource_with_mutex.body r n]⟩
      = some ⟨r, c, none, out ++ critical_pieces r n, [[]]⟩ ∧
    access_resource_with_mutex n ⟨false, ⟨r, c, out⟩⟩
      = some (⟨false, ⟨r, c, out ++ critical_pieces r n⟩⟩, Exit.returned) := by
  have h0 : c ≠ 0 := by omega
  refine ⟨?_, ?_⟩
  · simp [run, step, Entry.body, critical_pieces, locked_pieces, unlocked_pieces,
      HeavyResource.performOperation_pieces, List.replicate, h0]
  · simp [access_resource_with_mutex, access_resource_with_mutex_using, Shared.acquire,
      Shared.drop, Gated.lock, Gated.unlock, HeavyResource.performOperation, critical_pieces,
      h0]

end Main2

namespace Main2

/-- C3.  A call of `access_resource_with_mutex` that starts with the gate
(`global_mutex`) free and with a handle to pass returns with the gate free, on
both exit paths of the critical section: the normal return, and an error raised
by the operation inside it (whatever operation `op` stands in the place of
`performOperation`).  Consequently a second call, again with any operation,
acquires the gate and ends too, with the gate free.  The function of the
source, whose operation raises no error, returns normally after having written
its three lines.  By contrast a call that finds the gate locked never ends. -/
theorem gate_released_on_every_exit
    (op op2 : Output → Output × Option String) (name name2 : String) (g : Gated)
    (hfree : g.locked = false) (hpos : 1 ≤ g.sh.use_count) :
    (∃ g1 e1, access_resource_with_mutex_using op name g = some (g1, e1) ∧
      g1.locked = false ∧
      (e1 = Exit.returned ↔ (op (g.sh.out ++ locked_pieces name)).2 = none) ∧
      ∃ g2 e2, access_resource_with_mutex_using op2 name2 g1 = some (g2, e2) ∧
        g2.locked = false) ∧
    (∃ g1, access_resource_with_mutex name g = some (g1, Exit.returned) ∧
      g1.locked = false ∧ g1.sh.use_count = g.sh.use_count ∧
      g1.sh.out = g.sh.out ++ critical_pieces g.sh.res name) ∧
    (∀ g0 : Gated, g0.locked = true →
      access_resource_with_mutex_using op name g0 = none) := by
  refine ⟨?_, ?_, ?_⟩
  · obtain ⟨g1, e1, h1, hf1, hc1, _, hret, _⟩ :=
      access_resource_with_mutex_using_spec op name g hfree hpos
    obtain ⟨g2, e2, h2, hf2, _⟩ :=
      access_resource_with_mutex_using_spec op2 name2 g1 hf1 (by omega)
    exact ⟨g1, e1, h1, hf1, hret, g2, e2, h2, hf2⟩
  · obtain ⟨g1, e1, h1, hf1, hc1, _, hret, hout⟩ :=
      access_resource_with_mutex_using_spec
        (fun out => (g.sh.res.performOperation out, none)) name g hfree hpos
    have he : e1 = Exit.returned := hret.mpr rfl
    subst he
    refine ⟨g1, h1, hf1, hc1, ?_⟩
    simpa [HeavyResource.performOperation, critical_pieces] using hout
  · intro g0 hlocked
    simp only [access_resource_with_mutex_using, Gated.lock, hlocked]
    cases g0.sh.acquire <;> rfl

/-- Witness of C3: the gate is free, one handle exists, and the operation
raises an error after writing one piece; the second call is that of the source. -/
theorem gate_released_on_every_exit_witness :
    ∃ g1 e1, access_resource_with_mutex_using (fun out => (out ++ ["boom"], some "error"))
        "T" ⟨false, Shared.make "R" []⟩ = some (g1, e1) ∧
      e1 ≠ Exit.returned ∧ g1.locked = false ∧
      ∃ g2 e2, access_resource_with_mutex_using
          (fun out => ((⟨"R"⟩ : HeavyResource).performOperation out, none)) "T2" g1
            = some (g2, e2) ∧
        g2.locked = false := by
  obtain ⟨⟨g1, e1, h1, hf1, hret, g2, e2, h2, hf2⟩, _, _⟩ :=
    gate_released_on_every_exit (fun out => (out ++ ["boom"], some "error"))
      (fun out => ((⟨"R"⟩ : HeavyResource).performOperation out, none)) "T" "T2"
      ⟨false, Shared.make "R" []⟩ rfl (by decide)
  refine ⟨g1, e1, h1, ?_, hf1, g2, e2, h2, hf2⟩
  intro he
  have := hret.mp he
  simp at this

/-- C2.  Any number of threads run `access_resource_with_mutex` on the one
`global_mutex`, each with its own name and its own copy of the handle.  In every
state reached by any interleaving of their steps: (1) at most one thread is
inside its critical section (the counter of threads between `lock` and `unlock`
never exceeds 1); (2) a thread that is inside its critical section and has
written `k` of the nine pieces of its three lines (`[LOCKED]`, `Operating on ...`,
`[UNLOCKED]`) finds exactly these `k` pieces at the end of standard output:
nothing of another thread has been written since it entered; (3) while a handle
exists outside the pool, standard output is the output at the start, followed
by the three whole lines of each thread that has left its critical section, one
thread after the other and each thread once, followed by the pieces written so
far by the owner of the mutex, if there is one; (4) once all threads have
finished, the output is the sequence of their three-line blocks in some order
of the threads. -/
theorem mutual_exclusion (r : HeavyResource) (names : List String) (owners : Nat)
    (out0 : Output) (sched : List Nat) (s : State)
    (h : run sched (mutex_pool r names owners out0) = some s) :
    locked_count s ≤ 1 ∧
    (∀ (t : Nat) (c : List Action) (n : String),
      s.threads[t]? = some c → names[t]? = some n → in_critical_section c = true →
      ∃ k, k ≤ 9 ∧
        c = ((critical_pieces r n).drop k).map Action.write ++
          [Action.unlock, Action.release_handle] ∧
        (critical_pieces r n).take k <:+ s.out) ∧
    (0 < owners → ∃ order : List Nat, order.Nodup ∧
      (∀ t : Nat, t ∈ order ↔ ∃ c, s.threads[t]? = some c ∧ c.length ≤ 1) ∧
      ((s.global_mutex = none ∧ s.out = out0 ++ blocks r names order) ∨
       (∃ (t : Nat) (n : String) (k : Nat), s.global_mutex = some t ∧ names[t]? = some n ∧
          k ≤ 9 ∧ s.out = out0 ++ blocks r names order ++ (critical_pieces r n).take k))) ∧
    (0 < owners → (∀ c ∈ s.threads, c = []) →
      ∃ order : List Nat, order.Perm (List.range names.length) ∧
        s.out = out0 ++ blocks r names order) := by
  obtain ⟨_, hlen, hmx, _, hthr⟩ := PoolInv_run r names owners out0 sched s h
  refine ⟨locked_count_le_one s hmx, ?_, ?_, ?_⟩
  · intro t c n hc hn hcs
    rcases hthr t c n hc hn with ⟨i, hi, heq, hsuf⟩ | ⟨j, _, heq, _⟩
    · have hrange : 1 ≤ i ∧ i ≤ 10 := by
        rw [heq] at hcs
        exact (pool_body_facts r n i hi).1.mp hcs
      refine ⟨i - 1, by omega, ?_, hsuf hrange.1 hrange.2⟩
      rw [heq]
      obtain ⟨h1, h10⟩ := hrange
      interval_cases i <;>
        simp [Entry.body, critical_pieces, locked_pieces, unlocked_pieces,
          HeavyResource.performOperation_pieces]
    · rw [heq, pool_dtor_facts] at hcs
      cases hcs
  · intro hown
    obtain ⟨order, hnd, hmem, hout⟩ := BlocksInv_run r names owners hown out0 sched s h
    refine ⟨order, hnd, hmem, ?_⟩
    rcases hout with hfree | ⟨t, n, i, hm, hn, _, h1, h10, ho⟩
    · exact Or.inl hfree
    · exact Or.inr ⟨t, n, i - 1, hm, hn, by omega, ho⟩
  · intro hown hfin
    obtain ⟨order, hnd, hmem, hout⟩ := BlocksInv_run r names owners hown out0 sched s h
    refine ⟨order, ?_, ?_⟩
    · rw [List.perm_ext_iff_of_nodup hnd (List.nodup_range _)]
      intro t
      rw [hmem t, List.mem_range, ← hlen]
      constructor
      · rintro ⟨c, hc, _⟩
        exact getElem?_lt hc
      · intro hlt
        refine ⟨s.threads.get ⟨t, hlt⟩, List.getElem?_eq_getElem hlt, ?_⟩
        rw [hfin _ (List.get_mem _ _ _)]
        simp
    · rcases hout with ⟨_, ho⟩ | ⟨t, n, i, hm, _, hc, _, _, _⟩
      · exact ho
      · exfalso
        have hin := (hmx.1 t _ hc).2.mpr hm
        rw [hfin _ (List.mem_iff_getElem?.mpr ⟨t, hc⟩)] at hin
        simp [in_critical_section] at hin

/-- Witness of C2: three threads; the first has entered its critical section and
written two pieces while the others wait. -/
theorem mutual_exclusion_witness :
    ∃ s, run [0, 0, 0] (mutex_pool ⟨"Critical_Database"⟩ ["T1", "T2", "T3"] 1 []) = some s ∧
      s.out = ["[", "T1"] ∧ locked_count s ≤ 1 :=
  ⟨_, rfl, rfl,
    (mutual_exclusion ⟨"Critical_Database"⟩ ["T1", "T2", "T3"] 1 [] [0, 0, 0] _ rfl).1⟩

/-- C4.  Passing a handle by value to `shared_ptr_management` makes a second
handle on the same resource: for a caller whose resource has `use_count = c ≥ 1`,
the call prints the `Operating on` line of that resource and then the count
`c + 1`, and returns with the count back at `c`, the same resource and no
destructor line written (the resource is not released).  In `main`, for every
interleaving of the threads of `thread_demo`, the output starts with the lines
up to and including the three count lines, which show 1, 2 and 1; it ends with
the destructor line of `Main_Log`; and that line stands nowhere else in the
output.  Some interleaving takes `main` to its end. -/
theorem shared_ptr_management_counts :
    (∀ s : Shared, 1 ≤ s.use_count →
      ∃ s', shared_ptr_management s = some s' ∧ s'.use_count = s.use_count ∧
        s'.res = s.res ∧
        s'.out = s.out ++ ["[Resource] Operating on ", s.res.name, "...\n",
          "  (SharedPtr demo) Temporary reference count: ", toString (s.use_count + 1), "\n"]) ∧
    (∃ out, main sequential_schedule = some out) ∧
    (∀ (sched : List Nat) (out : Output), main sched = some out →
      ∃ rest,
        out = ["--- C++ Resource Management Project (Effective C++) ---\n",
               "\n--- UNIQUE_PTR DEMO ---\n",
               "[Resource] Constructor: ", "Config_Unique", " opened.\n",
               "[Resource] Operating on ", "Config_Unique", "...\n",
               "Unique Resource goes out of scope.\n",
               "[Resource] Destructor: ", "Config_Unique", " closed and released.\n",
               "\n--- SHARED_PTR COPYING DEMO ---\n",
               "[Resource] Constructor: ", "Main_Log", " opened.\n",
               "Initial reference count: ", "1", "\n",
               "[Resource] Operating on ", "Main_Log", "...\n",
               "  (SharedPtr demo) Temporary reference count: ", "2", "\n",
               "Reference count after shared_ptr_management: ", "1", "\n"] ++ rest ++
              ["[Resource] Destructor: ", "Main_Log", " closed and released.\n"] ∧
        occurrences ["[Resource] Destructor: ", "Main_Log", " closed and released.\n"] out
          = 1) := by
  refine ⟨?_, Option.isSome_iff_exists.mp (by decide), ?_⟩
  · intro s hpos
    exact ⟨_, shared_ptr_management_spec s hpos, rfl, rfl, by simp⟩
  · intro sched out h
    obtain ⟨d, hperm, hout⟩ := main_spec sched out h
    have hnot : "Main_Log" ∉ d := by
      intro hin
      have := hperm.subset hin
      revert this
      decide
    refine ⟨["\n--- THREADS & SHARED_PTR DEMO ---\n",
      "[Resource] Constructor: ", "Critical_Database", " opened.\n",
      "\n-- Running with Mutex (Safe Access) --\n"] ++ d ++
      shared_db_resource.dtor_pieces ++ main_after_threads, ?_, ?_⟩
    · rw [hout]
      simp [main_before_threads]
    · rw [hout]
      have hskip := occurrences_skip "[Resource] Destructor: " "Main_Log"
        " closed and released.\n" d hnot
        (shared_db_resource.dtor_pieces ++ main_after_threads ++
          ["[Resource] Destructor: ", "Main_Log", " closed and released.\n"]) (by decide)
      have htail : occurrences ["[Resource] Destructor: ", "Main_Log", " closed and released.\n"]
          (shared_db_resource.dtor_pieces ++ main_after_threads ++
            ["[Resource] Destructor: ", "Main_Log", " closed and released.\n"]) = 1 := by
        decide
      rw [htail] at hskip
      simp only [main_before_threads, List.cons_append, List.nil_append, List.append_assoc,
        occurrences, List.isPrefixOf] at hskip ⊢
      simp [hskip]

/-- Witness of C4: the handle `main_shared_ptr` of `main`, with count 1. -/
theorem shared_ptr_management_counts_witness :
    ∃ s', shared_ptr_management (Shared.make "Main_Log" []) = some s' ∧ s'.use_count = 1 ∧
      s'.out = ["[Resource] Constructor: ", "Main_Log", " opened.\n",
        "[Resource] Operating on ", "Main_Log", "...\n",
        "  (SharedPtr demo) Temporary reference count: ", "2", "\n"] := by
  obtain ⟨s', h1, h2, _, h4⟩ := shared_ptr_management_counts.1 (Shared.make "Main_Log" [])
    (by decide)
  exact ⟨s', h1, h2, by rw [h4]; decide⟩

/-- C5, as stated, fails.  Under the interleaving `torn_schedule` thread 4 writes
its first line between two pieces of the `Operating on` line of thread 3:
`thread_demo` returns, but only three lines of its output contain
`Operating on Critical_Database`, and the three pieces of that line stand
together at only three places.  So it is not true that every interleaving
gives four such lines. -/
theorem four_operating_lines_counterexample :
    (thread_demo torn_schedule []).map operating_lines = some 3 ∧
    (thread_demo torn_schedule []).map
      (occurrences ["[Resource] Operating on ", "Critical_Database", "...\n"]) = some 3 ∧
    ¬ (∀ (sched : List Nat) (out : Output),
        thread_demo sched [] = some out → operating_lines out = 4) := by
  have h1 : (thread_demo torn_schedule []).map operating_lines = some 3 := by decide
  refine ⟨h1, by decide, ?_⟩
  intro hall
  cases htd : thread_demo torn_schedule [] with
  | none => simp [htd] at h1
  | some out =>
    have h4 := hall torn_schedule out htd
    simp [htd, h4] at h1

/-- C5, amended.  For every interleaving of the threads of `thread_demo`,
started with any output `out0`: the interleaving has at most 57 steps; while
`thread_demo` has not returned some thread can take a step (no deadlock), and
the interleaving can be continued to the return of `thread_demo`; when
`thread_demo` returns, exactly 57 steps have been taken, all four threads have
finished, no handle is left and the mutex is free.  The output is then: the
output at the start of the first thread; the three lines of thread 1 and the
three lines of thread 2, whole, in one of the two orders; the line announcing
the threads without mutex; a permutation of the pieces of the lines of the
threads 3 and 4 (so each of the three pieces of the `Operating on
Critical_Database` line is there twice more, four times in all, and no piece of
a destructor line); and the line `[Resource] Destructor: Critical_Database
closed and released.` at the very end. -/
theorem thread_demo_completes_and_releases_once (out0 : Output) :
    (∀ (sched : List Nat) (s : State), run sched (thread_demo_init out0) = some s →
      sched.length ≤ 57 ∧
      (s.threads.head? ≠ some [] → ∃ t, (step t s).isSome = true) ∧
      (∃ ext s', run (sched ++ ext) (thread_demo_init out0) = some s' ∧
        s'.threads.head? = some []) ∧
      (s.threads.head? = some [] →
        sched.length = 57 ∧
        s.threads = [[], [], [], [], []] ∧ s.use_count = 0 ∧ s.global_mutex = none)) ∧
    (∀ (sched : List Nat) (out : Output), thread_demo sched out0 = some out →
      ∃ d2,
        d2.Perm (unguarded_pieces shared_db_resource "Thread 3 (No Mutex)" ++
          unguarded_pieces shared_db_resource "Thread 4 (No Mutex)") ∧
        d2.count "[Resource] Operating on " = 2 ∧ d2.count "Critical_Database" = 2 ∧
        d2.count "...\n" = 2 ∧
        "[Resource] Destructor: " ∉ d2 ∧ " closed and released.\n" ∉ d2 ∧
        (out = (thread_demo_init out0).out ++
            (critical_pieces shared_db_resource "Thread 1 (Mutex)" ++
             critical_pieces shared_db_resource "Thread 2 (Mutex)") ++
            [without_mutex_header] ++ d2 ++
            ["[Resource] Destructor: ", "Critical_Database", " closed and released.\n"] ∨
         out = (thread_demo_init out0).out ++
            (critical_pieces shared_db_resource "Thread 2 (Mutex)" ++
             critical_pieces shared_db_resource "Thread 1 (Mutex)") ++
            [without_mutex_header] ++ d2 ++
            ["[Resource] Destructor: ", "Critical_Database", " closed and released.\n"])) := by
  refine ⟨?_, ?_⟩
  · intro sched s hrun
    have hinv := DemoInv_run out0 sched s hrun
    have hlen := run_length sched _ s hrun
    have hinit : steps_left (thread_demo_init out0) = 57 := by
      simp [steps_left, thread_demo_init, total, weight_of, thread_demo_actions, step_weight,
        Shared.make]
    refine ⟨by omega, demo_progress _ s hinv, ?_, ?_⟩
    · obtain ⟨ext, s', hext, hfin⟩ := demo_completes _ (steps_left s) s (le_refl _) hinv
      exact ⟨ext, s', by rw [run_append, hrun]; exact hext, hfin⟩
    · intro hret
      obtain ⟨h1, h2, h3, _⟩ := demo_final out0 sched s hrun hret
      have hfinal : steps_left s = 0 := by
        simp [steps_left, total, h1, h2, weight_of]
      exact ⟨by omega, h1, h2, h3⟩
  · intro sched out h
    obtain ⟨d2, hperm, hout⟩ := thread_demo_blocks sched out0 out h
    refine ⟨d2, hperm, ?_, ?_, ?_, ?_, ?_, hout⟩
    · rw [hperm.count_eq]; decide
    · rw [hperm.count_eq]; decide
    · rw [hperm.count_eq]; decide
    · intro hin
      have := hperm.subset hin
      revert this
      decide
    · intro hin
      have := hperm.subset hin
      revert this
      decide

/-- Witness of C5, amended: the interleaving in which every thread runs to its
end as soon as it is started. -/
theorem thread_demo_completes_and_releases_once_witness :
    ∃ out d2, thread_demo sequential_schedule [] = some out ∧
      d2.count "[Resource] Operating on " = 2 ∧
      out = (thread_demo_init []).out ++
        (critical_pieces shared_db_resource "Thread 1 (Mutex)" ++
         critical_pieces shared_db_resource "Thread 2 (Mutex)") ++
        [without_mutex_header] ++ d2 ++
        ["[Resource] Destructor: ", "Critical_Database", " closed and released.\n"] := by
  obtain ⟨out, hout⟩ : ∃ out, thread_demo sequential_schedule [] = some out :=
    Option.isSome_iff_exists.mp (by decide)
  obtain ⟨d2, _, h2, _, _, _, _, h7⟩ :=
    (thread_demo_completes_and_releases_once []).2 sequential_schedule out hout
  refine ⟨out, d2, hout, h2, ?_⟩
  rcases h7 with h7 | h7
  · exact h7
  · exfalso
    have hval : thread_demo sequential_schedule [] = some
        ((thread_demo_init []).out ++
          (critical_pieces shared_db_resource "Thread 1 (Mutex)" ++
           critical_pieces shared_db_resource "Thread 2 (Mutex)") ++
          [without_mutex_header] ++
          (unguarded_pieces shared_db_resource "Thread 3 (No Mutex)" ++
           unguarded_pieces shared_db_resource "Thread 4 (No Mutex)") ++
          ["[Resource] Destructor: ", "Critical_Database", " closed and released.\n"]) := by
      decide
    rw [hval] at hout
    simp only [Option.some.injEq] at hout
    rw [← hout] at h7
    have h8 := congrArg (fun l => l.drop 5) h7
    simp [thread_demo_init, Shared.make, HeavyResource.ctor_pieces, critical_pieces,
      locked_pieces] at h8

/-- C8, on the code.  For every interleaving, `thread_demo` returns with the
destructor line of `Critical_Database` as the last thing written: the resource
is released inside `thread_demo`, where its last handle `shared_db_resource`
goes out of scope.  Hence in every run of `main` that line stands immediately
before `All threads have finished.` and `Program exiting. Destructors will be
called now.`, not after them; only the destructor line of `Main_Log` follows
these two.  Some interleaving takes `main` to its end. -/
theorem critical_database_released_in_thread_demo :
    (∀ (sched : List Nat) (out0 out : Output), thread_demo sched out0 = some out →
      ["[Resource] Destructor: ", "Critical_Database", " closed and released.\n"] <:+ out) ∧
    (∀ (sched : List Nat) (out : Output), main sched = some out →
      ∃ front, "[Resource] Destructor: " ∉ front.drop 12 ∧
        out = front ++
          ["[Resource] Destructor: ", "Critical_Database", " closed and released.\n",
           "\nAll threads have finished.\n",
           "Program exiting. Destructors will be called now.\n",
           "[Resource] Destructor: ", "Main_Log", " closed and released.\n"]) ∧
    (main sequential_schedule).isSome = true := by
  refine ⟨?_, ?_, by decide⟩
  · intro sched out0 out h
    obtain ⟨d, hout, _⟩ := thread_demo_spec sched out0 out h
    exact ⟨_, hout.symm⟩
  · intro sched out h
    obtain ⟨d, hperm, hout⟩ := main_spec sched out h
    refine ⟨main_before_threads ++ d, ?_, ?_⟩
    · intro hin
      simp only [main_before_threads, List.cons_append, List.nil_append, List.drop_succ_cons,
        List.drop_zero, List.mem_cons] at hin
      have hd : "[Resource] Destructor: " ∉ d := by
        intro hin'
        have := hperm.subset hin'
        revert this
        decide
      simp [hd] at hin
    · rw [hout]
      simp [main_after_threads, HeavyResource.dtor_pieces, shared_db_resource]

end Main2
